import Mathlib

/-!
# Segregated free-list pool resource (`sgi_allocator`)

A shallow embedding of `sgi_pool_resource_base` from
`src/sgi_allocator/include/sgi_pmr_allocator.hpp` and
`src/sgi_allocator/src/sgi_pmr_allocator.cpp`.

* Addresses are natural numbers and `0` is `nullptr`.
* `std::size_t` is 64 bits wide: its arithmetic is taken modulo `SIZE_MOD`.
* The heap is seen through the `free_list_link` member of the `obj` placed at an
  address: `heap a` is the link read at the address `a`, the `LINK_BYTES` bytes from
  `a` on. A store of a link (`store_link`) changes the link at its address and the
  links that share bytes with it, those that start less than `LINK_BYTES` bytes away.
  Pointer arithmetic inside a block (`chunk + size`) is addition of natural numbers.
* `std::malloc` is an oracle that answers from the history of system calls and
  the requested size; every call to `std::malloc` and `std::free` is appended to
  that history.
* Subscripting `free_lists` outside `0 .. NFREELISTS - 1` is undefined behaviour
  in the source and is reported as `Outcome.out_of_range` by `allocate_impl` and
  `deallocate_impl` on a `State`. `Object.allocate_impl` and `Object.deallocate_impl`
  run the same code on the object as it lies in memory, where the subscript
  `SIZE_MOD - 1` of a zero-byte request designates the word just before the array;
  the two agree on every request that subscripts inside the array.
-/

namespace sgi_pmr

/-! ## Definitions -/

/-- Number of values of `std::size_t`. -/
def SIZE_MOD : Nat := 2 ^ 64

/-- Number of free lists, one per size class. -/
def NFREELISTS : Nat := 16

/-- Alignment of the pool. -/
def ALIGN : Nat := 8

/-- Largest request served by the pool. -/
def MAX_BYTES : Nat := 128

/-- The source's `round_up`: `(bytes + ALIGN - 1) & ~(ALIGN - 1)` on `std::size_t`. -/
def round_up (bytes : Nat) : Nat :=
  ((bytes + ALIGN - 1) % SIZE_MOD) &&& (SIZE_MOD - 1 - (ALIGN - 1))

/-- The source's `free_list_index`: `(bytes + ALIGN - 1) / ALIGN - 1` on `std::size_t`,
the subtraction wrapping around at zero. -/
def free_list_index (bytes : Nat) : Nat :=
  ((bytes + ALIGN - 1) % SIZE_MOD / ALIGN + SIZE_MOD - 1) % SIZE_MOD

/-- One call of the resource into the system allocator. -/
inductive SysCall where
  | malloc (bytes : Nat) (result : Nat)
  | free (p : Nat)
  deriving DecidableEq

/-- The system allocator `std::malloc`: from the calls made so far and the requested
size to the returned address, `0` for a refusal. -/
abbrev Malloc : Type := List SysCall → Nat → Nat

/-- The members of `sgi_pool_resource_base` together with the memory and the system
allocator it works on. -/
structure State where
  /-- The array `obj* free_lists[NFREELISTS]`. -/
  free_lists : Fin NFREELISTS → Nat
  /-- The vector `memory_chunks`, in insertion order. -/
  memory_chunks : List Nat
  /-- The member `free_list_link` read at each address. -/
  heap : Nat → Nat
  /-- The calls to `std::malloc` and `std::free` made so far, oldest first. -/
  sys : List SysCall

/-- How a call ends: it returns, it throws `std::bad_alloc`, or it subscripts
`free_lists` out of range. -/
inductive Outcome (α : Type) where
  | ok (v : α)
  | bad_alloc
  | out_of_range
  deriving DecidableEq

/-- The constructor `sgi_pool_resource_base()`: every head is `nullptr`, the registry is
empty. The memory and the history of the system allocator are whatever they are. -/
def State.init (heap : Nat → Nat) (sys : List SysCall) : State :=
  { free_lists := fun _ => 0, memory_chunks := [], heap := heap, sys := sys }

/-- A call `std::malloc(bytes)`: the oracle answers and the call is recorded. -/
def sys_malloc (M : Malloc) (s : State) (bytes : Nat) : Nat × State :=
  (M s.sys bytes, { s with sys := s.sys ++ [SysCall.malloc bytes (M s.sys bytes)] })

/-- A call `std::free(p)`. -/
def sys_free (s : State) (p : Nat) : State :=
  { s with sys := s.sys ++ [SysCall.free p] }

/-- The product `size * nobjs` of `chunk_alloc`, computed in `std::size_t`: the `int` is
converted first. -/
def total_bytes (size : Nat) (nobjs : Int) : Nat :=
  (size * (nobjs % (SIZE_MOD : Int)).toNat) % SIZE_MOD

/-- The source's `chunk_alloc(size, nobjs)`; `nobjs` is an `int&`, its final value is the
second component of the result. -/
def chunk_alloc (M : Malloc) (s : State) (size : Nat) (nobjs : Int) :
    Outcome Nat × Int × State :=
  let r := sys_malloc M s (total_bytes size nobjs)
  if r.1 = 0 then
    if 1 < nobjs then chunk_alloc M r.2 size (Int.tdiv nobjs 2)
    else (Outcome.bad_alloc, nobjs, r.2)
  else
    (Outcome.ok r.1, nobjs, { r.2 with memory_chunks := r.2.memory_chunks ++ [r.1] })
termination_by nobjs.toNat
decreasing_by
  have h2 : Int.tdiv nobjs 2 = nobjs / 2 := Int.tdiv_eq_ediv (by omega) (by omega)
  rw [h2]
  omega

/-- Size in bytes of the link `obj* free_list_link` that starts a node. -/
def LINK_BYTES : Nat := 8

/-- The store `q->free_list_link = v` for a node `q` at the address `p`: the
`LINK_BYTES` bytes from `p` on receive `v`, least significant byte first. `heap x` is the
link read at the address `x`, that is the bytes `x` to `x + LINK_BYTES - 1`; the store
sets the link at `p` and the part they share with it of the links that start less than
`LINK_BYTES` bytes away; links further away keep their value. -/
def store_link (heap : Nat → Nat) (p v : Nat) : Nat → Nat :=
  fun x =>
    if x = p then v
    else if p < x ∧ x < p + LINK_BYTES then
      v / 256 ^ (x - p) +
        heap x / 256 ^ (LINK_BYTES - (x - p)) * 256 ^ (LINK_BYTES - (x - p))
    else if x < p ∧ p < x + LINK_BYTES then
      heap x % 256 ^ (p - x) + v % 256 ^ (LINK_BYTES - (p - x)) * 256 ^ (p - x)
    else heap x

/-- The loop `for (int i = 2; i < nobjs; ++i)` of `refill`, run for the given number of
iterations: each one links `current` to the node `size` bytes further and moves there. -/
def refill_link (size : Nat) : Nat → Nat → (Nat → Nat) → Nat × (Nat → Nat)
  | 0, current, heap => (current, heap)
  | k + 1, current, heap =>
    refill_link size k (current + size) (store_link heap current (current + size))

/-- The source's `refill(size)`. -/
def refill (M : Malloc) (s : State) (size : Nat) : Outcome Nat × State :=
  match chunk_alloc M s size 20 with
  | (Outcome.ok chunk, nobjs, s1) =>
    if nobjs = 1 then (Outcome.ok chunk, s1)
    else
      if h : free_list_index size < NFREELISTS then
        let current := chunk + size
        let lk := refill_link size (nobjs - 2).toNat current s1.heap
        (Outcome.ok chunk,
          { s1 with
            free_lists := Function.update s1.free_lists ⟨free_list_index size, h⟩ current
            heap := store_link lk.2 lk.1 0 })
      else (Outcome.out_of_range, s1)
  | (Outcome.bad_alloc, _, s1) => (Outcome.bad_alloc, s1)
  | (Outcome.out_of_range, _, s1) => (Outcome.out_of_range, s1)

/-- The source's `allocate_impl(bytes, alignment)`. -/
def allocate_impl (M : Malloc) (s : State) (bytes alignment : Nat) : Outcome Nat × State :=
  if MAX_BYTES < bytes ∨ ALIGN < alignment then
    let r := sys_malloc M s bytes
    if r.1 = 0 then (Outcome.bad_alloc, r.2) else (Outcome.ok r.1, r.2)
  else
    let rounded_bytes := round_up bytes
    if h : free_list_index rounded_bytes < NFREELISTS then
      let result := s.free_lists ⟨free_list_index rounded_bytes, h⟩
      if result ≠ 0 then
        (Outcome.ok result,
          { s with free_lists :=
              Function.update s.free_lists ⟨free_list_index rounded_bytes, h⟩ (s.heap result) })
      else refill M s rounded_bytes
    else (Outcome.out_of_range, s)

/-- The source's `deallocate_impl(p, bytes, alignment)`. -/
def deallocate_impl (s : State) (p bytes alignment : Nat) : Outcome Unit × State :=
  if p = 0 then (Outcome.ok (), s)
  else if MAX_BYTES < bytes ∨ ALIGN < alignment then (Outcome.ok (), sys_free s p)
  else
    let rounded_bytes := round_up bytes
    if h : free_list_index rounded_bytes < NFREELISTS then
      (Outcome.ok (),
        { s with
          heap := store_link s.heap p (s.free_lists ⟨free_list_index rounded_bytes, h⟩)
          free_lists := Function.update s.free_lists ⟨free_list_index rounded_bytes, h⟩ p })
    else (Outcome.out_of_range, s)

/-- A segment of a free list: starting from `h` the links of `heap` run through the
nodes `xs`, none of them null, and end in `t`. -/
def Chain (heap : Nat → Nat) : Nat → List Nat → Nat → Prop
  | h, [], t => h = t
  | h, x :: xs, t => h = x ∧ x ≠ 0 ∧ Chain heap (heap x) xs t

/-- The nodes that `refill` threads onto the free list out of a chunk at `c` cut into
`n` objects of `size` bytes: all but the first object. -/
def refill_nodes (c size n : Nat) : List Nat :=
  (List.range (n - 1)).map (fun j => c + (j + 1) * size)

/-- The memory after the linking of `refill`: the loop of `refill_link` from the second
object of the chunk at `c`, then `current->free_list_link = nullptr`. -/
def refill_heap (heap : Nat → Nat) (c size n : Nat) : Nat → Nat :=
  store_link (refill_link size (n - 2) (c + size) heap).2
    (refill_link size (n - 2) (c + size) heap).1 0

/-- A freshly constructed resource in a memory of zeros, before any system call. -/
def fresh : State := State.init (fun _ => 0) []

/-- A system allocator that grants every request at the address 4096. -/
def malloc_4096 : Malloc := fun _ _ => 4096

/-- A system allocator that grants every request at the address 4112, a multiple of 16
and not of 32. -/
def malloc_4112 : Malloc := fun _ _ => 4112

/-- A system allocator that refuses every request. -/
def malloc_refuses : Malloc := fun _ _ => 0

/-- Deallocating the blocks `ps`, given as pairs of address and alignment, one after the
other with the same `bytes`; a call that does not return stops the run. -/
def deallocate_all (s : State) (bytes : Nat) : List (Nat × Nat) → Outcome Unit × State
  | [] => (Outcome.ok (), s)
  | q :: ps =>
    match deallocate_impl s q.1 bytes q.2 with
    | (Outcome.ok _, s1) => deallocate_all s1 bytes ps
    | (Outcome.bad_alloc, s1) => (Outcome.bad_alloc, s1)
    | (Outcome.out_of_range, s1) => (Outcome.out_of_range, s1)

/-- Allocating `bytes` bytes once for each alignment of the list, one call after the
other: the outcomes in call order and the final state. -/
def allocate_all (M : Malloc) (s : State) (bytes : Nat) : List Nat → List (Outcome Nat) × State
  | [] => ([], s)
  | k :: ks =>
    ((allocate_impl M s bytes k).1 :: (allocate_all M (allocate_impl M s bytes k).2 bytes ks).1,
      (allocate_all M (allocate_impl M s bytes k).2 bytes ks).2)

/-- A live allocation: the address returned and the bytes and alignment requested. -/
structure Live where
  addr : Nat
  bytes : Nat
  alignment : Nat
  deriving DecidableEq

/-- The allocation went through the large-object path. -/
def Live.large (l : Live) : Prop := MAX_BYTES < l.bytes ∨ ALIGN < l.alignment

/-- The bytes the allocation occupies: what was requested on the large-object path, the
node of its size class on the pool path. -/
def Live.extent (l : Live) : Nat :=
  if MAX_BYTES < l.bytes ∨ ALIGN < l.alignment then l.bytes else round_up l.bytes

/-- The byte ranges `[a, a + n)` and `[a1, a1 + n1)` do not overlap. -/
def disjoint_ranges (a n a1 n1 : Nat) : Prop :=
  n = 0 ∨ n1 = 0 ∨ a + n ≤ a1 ∨ a1 + n1 ≤ a

/-- Two blocks of the system allocator, as pairs of address and size, are apart: they
have different addresses and do not overlap. -/
def BlockSep (u v : Nat × Nat) : Prop :=
  u.1 ≠ v.1 ∧ disjoint_ranges u.1 u.2 v.1 v.2

/-- The effect of one system call on the blocks handed out and not yet freed. -/
def outstanding_step (bs : List (Nat × Nat)) : SysCall → List (Nat × Nat)
  | SysCall.malloc n r => if r = 0 then bs else bs ++ [(r, n)]
  | SysCall.free p => bs.filter (fun b => decide (b.1 ≠ p))

/-- The blocks, as pairs of address and size, that the system allocator has handed out
and that have not been freed since. -/
def outstanding (tr : List SysCall) : List (Nat × Nat) :=
  tr.foldl outstanding_step []

/-- The system allocator returns blocks apart from all the blocks it has handed out and
not yet freed. It is asked of every history; on a history that the allocator cannot
produce its answer does not matter. -/
def ValidMalloc (M : Malloc) : Prop :=
  ∀ tr n, M tr n ≠ 0 → ∀ blk ∈ outstanding tr, BlockSep (M tr n, n) blk

/-- The states reached from a freshly constructed resource by valid operations, with the
list of the live allocations: allocations that return or throw, deallocations of a live
allocation with its own bytes and alignment, deallocations of the null pointer, and
writes of the client into the bytes of its live allocations (a write to the byte `x`
changes the links `y` whose `LINK_BYTES` bytes cover `x`). -/
inductive Reachable (M : Malloc) : State → List Live → Prop
  | init (heap : Nat → Nat) (sys : List SysCall) :
    (outstanding sys).Pairwise BlockSep → Reachable M (State.init heap sys) []
  | allocate (s : State) (L : List Live) (bytes alignment a : Nat) :
    Reachable M s L → (allocate_impl M s bytes alignment).1 = Outcome.ok a →
    Reachable M (allocate_impl M s bytes alignment).2 (⟨a, bytes, alignment⟩ :: L)
  | allocate_throws (s : State) (L : List Live) (bytes alignment : Nat) :
    Reachable M s L → (allocate_impl M s bytes alignment).1 = Outcome.bad_alloc →
    Reachable M (allocate_impl M s bytes alignment).2 L
  | deallocate (s : State) (L : List Live) (l : Live) :
    Reachable M s L → l ∈ L →
    Reachable M (deallocate_impl s l.addr l.bytes l.alignment).2 (L.erase l)
  | deallocate_null (s : State) (L : List Live) (bytes alignment : Nat) :
    Reachable M s L → Reachable M (deallocate_impl s 0 bytes alignment).2 L
  | store (s : State) (L : List Live) (l : Live) (x y v : Nat) :
    Reachable M s L → l ∈ L → l.addr ≤ x → x < l.addr + l.bytes →
    y ≤ x → x < y + LINK_BYTES →
    Reachable M { s with heap := Function.update s.heap y v } L

/-- The node size of a size class. -/
def class_size (i : Fin NFREELISTS) : Nat := ALIGN * (i.val + 1)

/-- The range `[a, a + n)` is one of the pieces of `n` bytes into which the block `blk`
is cut from its start. -/
def Slot (a n : Nat) (blk : Nat × Nat) : Prop :=
  ∃ j, a = blk.1 + j * n ∧ (j + 1) * n ≤ blk.2

/-- The invariant of the pool. `F i` lists the nodes of free list `i` from its head,
`C` lists the chunks of the registry with their sizes. -/
structure PoolInv (s : State) (L : List Live) (F : Fin NFREELISTS → List Nat)
    (C : List (Nat × Nat)) : Prop where
  /-- Each free list is the null-terminated chain of its nodes. -/
  chain : ∀ i, Chain s.heap (s.free_lists i) (F i) 0
  /-- The blocks handed out by the system allocator are pairwise apart. -/
  blocks : (outstanding s.sys).Pairwise BlockSep
  /-- The registry holds the addresses of the chunks, in order. -/
  registry : C.map Prod.fst = s.memory_chunks
  /-- Every chunk is a block handed out and not freed. -/
  chunks : ∀ cb ∈ C, cb ∈ outstanding s.sys
  /-- A live large allocation is a block handed out and not freed, and is no chunk. -/
  large : ∀ l ∈ L, l.large →
    (l.addr, l.bytes) ∈ outstanding s.sys ∧ ∀ cb ∈ C, cb.1 ≠ l.addr
  /-- A live pool allocation has at least one byte and is a piece of a chunk. -/
  small : ∀ l ∈ L, ¬ l.large →
    1 ≤ l.bytes ∧ ∃ cb ∈ C, Slot l.addr (round_up l.bytes) cb
  /-- A free node is a piece of a chunk, of the node size of its class. -/
  free : ∀ i, ∀ x ∈ F i, ∃ cb ∈ C, Slot x (class_size i) cb
  /-- Live allocations do not overlap, and large ones have different addresses. -/
  live : L.Pairwise (fun l l1 => disjoint_ranges l.addr l.extent l1.addr l1.extent ∧
    (l.large → l1.large → l.addr ≠ l1.addr))
  /-- The nodes of one free list do not overlap. -/
  free_free : ∀ i,
    (F i).Pairwise (fun x y => disjoint_ranges x (class_size i) y (class_size i))
  /-- The nodes of two different free lists do not overlap. -/
  free_other : ∀ i j, i ≠ j → ∀ x ∈ F i, ∀ y ∈ F j,
    disjoint_ranges x (class_size i) y (class_size j)
  /-- A free node and a live pool allocation do not overlap. -/
  free_live : ∀ i, ∀ x ∈ F i, ∀ l ∈ L, ¬ l.large →
    disjoint_ranges x (class_size i) l.addr (round_up l.bytes)
  /-- No live allocation is at the null address. -/
  nonnull : ∀ l ∈ L, l.addr ≠ 0

/-- A system allocator that places every block above all the blocks handed out and not
yet freed, from the address 4096 on. -/
def malloc_above : Malloc :=
  fun tr _ => (outstanding tr).foldl (fun acc blk => max acc (blk.1 + blk.2)) 4095 + 1

/-- A system allocator that places every block at the first multiple of `ALIGN` above
all the blocks handed out and not yet freed. -/
def malloc_above_aligned : Malloc :=
  fun tr _ =>
    ((outstanding tr).foldl (fun acc blk => max acc (blk.1 + blk.2)) 4095 / ALIGN + 1) * ALIGN

/-- Follows the specification's words for `chunk_alloc`: the counts of the list are
tried in turn; a refused request is recorded and the next count is tried; a granted
block is appended to the registry and returned with its count; when every count was
refused the call throws and `nobjs` stays at the last count tried. -/
def spec_chunk_alloc (M : Malloc) (size : Nat) :
    List Int → Int → State → Outcome Nat × Int × State
  | [], last, s => (Outcome.bad_alloc, last, s)
  | n :: ns, _, s =>
    if M s.sys (total_bytes size n) = 0 then
      spec_chunk_alloc M size ns n
        { s with sys := s.sys ++ [SysCall.malloc (total_bytes size n) 0] }
    else
      (Outcome.ok (M s.sys (total_bytes size n)), n,
        { s with
          sys := s.sys ++
            [SysCall.malloc (total_bytes size n) (M s.sys (total_bytes size n))]
          memory_chunks := s.memory_chunks ++ [M s.sys (total_bytes size n)] })

/-- The requests for the counts of the list, made one after the other from the history
`tr`, are all refused. -/
def refused_all (M : Malloc) (size : Nat) : List Int → List SysCall → Prop
  | [], _ => True
  | n :: ns, tr =>
    M tr (total_bytes size n) = 0 ∧
      refused_all M size ns (tr ++ [SysCall.malloc (total_bytes size n) 0])

/-- The destructor `~sgi_pool_resource_base()`: `std::free` on every chunk of the
registry in its order, then `memory_chunks.clear()`. -/
def destroy (s : State) : State :=
  { s.memory_chunks.foldl sys_free s with memory_chunks := [] }

/-- The free list that serves requests of 9 to 16 bytes. -/
def list_of_16 : Fin NFREELISTS := ⟨1, by decide⟩

/-- The address `x` is a node of free list `i`: following the links from the head of
the list, over nodes that are not null, reaches `x`. -/
def FreeNode (s : State) (i : Fin NFREELISTS) (x : Nat) : Prop :=
  ∃ xs t, Chain s.heap (s.free_lists i) xs t ∧ x ∈ xs

/-- The system allocator returns blocks that do not overlap the blocks it has handed out
and not yet freed, where a block of zero bytes occupies one byte, as `std::malloc(0)`
behaves as if the size were some nonzero value when it does not return null. -/
def ProperMalloc (M : Malloc) : Prop :=
  ∀ tr n, M tr n ≠ 0 → ∀ blk ∈ outstanding tr,
    M tr n + max n 1 ≤ blk.1 ∨ blk.1 + max blk.2 1 ≤ M tr n

/-- No live allocation of the large-object path has its address inside a chunk. -/
def LargeApart (L : List Live) (C : List (Nat × Nat)) : Prop :=
  ∀ l ∈ L, l.large → ∀ cb ∈ C, l.addr < cb.1 ∨ cb.1 + cb.2 ≤ l.addr

/-- The chunks of the registry with their sizes: the blocks handed out by the system
allocator and not freed whose address is in `memory_chunks`. -/
def registered_chunks (s : State) : List (Nat × Nat) :=
  (outstanding s.sys).filter (fun b => decide (b.1 ∈ s.memory_chunks))

/-- The state of a fresh resource after a request of 200 bytes, served on the
large-object path, and a request of 16 bytes, served by a refill. -/
def two_allocations : State :=
  (allocate_impl malloc_above_aligned (allocate_impl malloc_above_aligned fresh 200 8).2 16 8).2

/-- The live allocations of `two_allocations`. -/
def two_live : List Live := [⟨4304, 16, 8⟩, ⟨4096, 200, 8⟩]

/-- A system allocator that refuses the first `k` requests of the history and grants
every later one at the address 4096. -/
def malloc_after (k : Nat) : Malloc := fun tr _ => if tr.length < k then 0 else 4096

/-- The resource object as it lies in memory. `sgi_pool_resource_base` has a virtual
destructor and `free_lists` is its first data member, so the object starts with the
pointer to its virtual table and the array follows right behind it. `vptr` is the word
that holds this pointer, `base` the data members. The words of the object itself are not
among the addresses of `heap`. -/
structure Object where
  vptr : Nat
  base : State

/-- A word of the object that a subscript of `free_lists` can designate: a head of the
array, or the word just before the array. -/
inductive Place where
  | head (i : Fin NFREELISTS)
  | before
  deriving DecidableEq

/-- The pointer `free_lists + index`. Its address is `free_lists + index * sizeof(obj*)`
in 64-bit arithmetic: an index below `NFREELISTS` designates a head of the array, and
the index `SIZE_MOD - 1`, to which `free_list_index(0)` wraps, the word just before the
array. No word is given for the other indices; `allocate_impl` and `deallocate_impl` do
not compute them. -/
def free_lists_plus (index : Nat) : Option Place :=
  if h : index < NFREELISTS then some (Place.head ⟨index, h⟩)
  else if index = SIZE_MOD - 1 then some Place.before
  else none

/-- The read `*my_free_list`; the word just before the array is `vptr`. -/
def Object.get (o : Object) : Place → Nat
  | Place.head i => o.base.free_lists i
  | Place.before => o.vptr

/-- The store `*my_free_list = v`. -/
def Object.set (o : Object) : Place → Nat → Object
  | Place.head i, v =>
    { o with base := { o.base with free_lists := Function.update o.base.free_lists i v } }
  | Place.before, v => { o with vptr := v }

/-- The source's `refill(size)` on the object as it lies in memory: as `refill`, with
the subscript of `free_lists` followed to the word it designates. -/
def Object.refill (M : Malloc) (o : Object) (size : Nat) : Outcome Nat × Object :=
  match chunk_alloc M o.base size 20 with
  | (Outcome.ok chunk, nobjs, s1) =>
    if nobjs = 1 then (Outcome.ok chunk, { o with base := s1 })
    else
      match free_lists_plus (free_list_index size) with
      | some my_free_list =>
        (Outcome.ok chunk,
          Object.set
            { o with
              base :=
                { s1 with
                  heap :=
                    store_link (refill_link size (nobjs - 2).toNat (chunk + size) s1.heap).2
                      (refill_link size (nobjs - 2).toNat (chunk + size) s1.heap).1 0 } }
            my_free_list (chunk + size))
      | none => (Outcome.out_of_range, { o with base := s1 })
  | (Outcome.bad_alloc, _, s1) => (Outcome.bad_alloc, { o with base := s1 })
  | (Outcome.out_of_range, _, s1) => (Outcome.out_of_range, { o with base := s1 })

/-- The source's `allocate_impl(bytes, alignment)` on the object as it lies in memory:
as `allocate_impl`, with the subscript of `free_lists` followed to the word it
designates. -/
def Object.allocate_impl (M : Malloc) (o : Object) (bytes alignment : Nat) :
    Outcome Nat × Object :=
  if MAX_BYTES < bytes ∨ ALIGN < alignment then
    if (sys_malloc M o.base bytes).1 = 0 then
      (Outcome.bad_alloc, { o with base := (sys_malloc M o.base bytes).2 })
    else
      (Outcome.ok (sys_malloc M o.base bytes).1,
        { o with base := (sys_malloc M o.base bytes).2 })
  else
    match free_lists_plus (free_list_index (round_up bytes)) with
    | some my_free_list =>
      if o.get my_free_list ≠ 0 then
        (Outcome.ok (o.get my_free_list),
          o.set my_free_list (o.base.heap (o.get my_free_list)))
      else Object.refill M o (round_up bytes)
    | none => (Outcome.out_of_range, o)

/-- The source's `deallocate_impl(p, bytes, alignment)` on the object as it lies in
memory: as `deallocate_impl`, with the subscript of `free_lists` followed to the word it
designates. -/
def Object.deallocate_impl (o : Object) (p bytes alignment : Nat) : Outcome Unit × Object :=
  if p = 0 then (Outcome.ok (), o)
  else if MAX_BYTES < bytes ∨ ALIGN < alignment then
    (Outcome.ok (), { o with base := sys_free o.base p })
  else
    match free_lists_plus (free_list_index (round_up bytes)) with
    | some my_free_list =>
      (Outcome.ok (),
        Object.set
          { o with
            base := { o.base with heap := store_link o.base.heap p (o.get my_free_list) } }
          my_free_list p)
    | none => (Outcome.out_of_range, o)

/-- A resource object whose virtual-table pointer is 20480 and whose data members are
those of a freshly constructed resource. -/
def fresh_object : Object := { vptr := 20480, base := fresh }

/-- The two resource classes built on `sgi_pool_resource_base`. -/
inductive Variant where
  | synchronized
  | unsynchronized
  deriving DecidableEq

/-- A resource object: the address where it lives, its class, and the state of its
member `base_`. Distinct objects live at distinct addresses. -/
structure Resource where
  addr : Nat
  variant : Variant
  base_ : State

/-- `synchronized_pool_resource::do_is_equal(other)`: `return this == &other;`. -/
def synchronized_do_is_equal (this other : Nat) : Bool := decide (this = other)

/-- `unsynchronized_pool_resource::do_is_equal(other)`: `return this == &other;`. -/
def unsynchronized_do_is_equal (this other : Nat) : Bool := decide (this = other)

/-- `std::pmr::memory_resource::is_equal(other)`: the virtual call of `do_is_equal` of
the class of the object, on the addresses of the two objects. -/
def Resource.is_equal (r other : Resource) : Bool :=
  match r.variant with
  | Variant.synchronized => synchronized_do_is_equal r.addr other.addr
  | Variant.unsynchronized => unsynchronized_do_is_equal r.addr other.addr

/-- `polymorphic_allocator<T>::allocate(n)`:
`mr_->allocate(n * sizeof(T), alignof(T))`, the product taken in `std::size_t`. The
resource behind `mr_` is given by its `allocate`, a function of bytes and alignment on a
state `σ`. -/
def polymorphic_allocator_allocate {σ α : Type} (sizeof_T alignof_T : Nat)
    (mr_allocate : Nat → Nat → σ → α × σ) (n : Nat) : σ → α × σ :=
  mr_allocate (n * sizeof_T % SIZE_MOD) alignof_T

/-- `polymorphic_allocator<T>::deallocate(p, n)`:
`mr_->deallocate(p, n * sizeof(T), alignof(T))`, the product taken in `std::size_t`. -/
def polymorphic_allocator_deallocate {σ α : Type} (sizeof_T alignof_T : Nat)
    (mr_deallocate : Nat → Nat → Nat → σ → α × σ) (p n : Nat) : σ → α × σ :=
  mr_deallocate p (n * sizeof_T % SIZE_MOD) alignof_T

/-- A resource that only records the requests it receives, as pairs of bytes and
alignment, and returns the null pointer. -/
def recording_allocate (bytes alignment : Nat) (log : List (Nat × Nat)) :
    Nat × List (Nat × Nat) :=
  (0, log ++ [(bytes, alignment)])

/-- The deallocation of the recording resource. -/
def recording_deallocate (_p bytes alignment : Nat) (log : List (Nat × Nat)) :
    Unit × List (Nat × Nat) :=
  ((), log ++ [(bytes, alignment)])

end sgi_pmr

namespace plugin_manager

/-! ## Definitions of the plugin metadata utilities

A `std::string` is the list of its characters. -/

/-- The exceptions that can leave the functions of `MetadataUtils`: `MetadataError`, and
the `std::out_of_range` and `std::invalid_argument` of `std::stoi`. -/
inductive Exn where
  | MetadataError
  | out_of_range
  | invalid_argument
  deriving DecidableEq

deriving instance DecidableEq for Except

/-- The largest `int`, taken 32 bits wide. -/
def INT_MAX : Int := 2147483647

/-- The smallest `int`, taken 32 bits wide. -/
def INT_MIN : Int := -2147483648

/-- The `struct Version` of `plugin_interface.h`: three `int`. -/
structure Version where
  major : Int
  minor : Int
  patch : Int
  deriving DecidableEq

/-- The `struct PluginMetadata` of `plugin_interface.h`. -/
structure PluginMetadata where
  name : List Char
  version : List Char
  description : List Char
  author : List Char
  license : List Char
  deriving DecidableEq

/-- The character class `\d` of `std::regex`: the digits `0` to `9`. -/
def isdigit (c : Char) : Bool := decide (48 ≤ c.toNat) && decide (c.toNat ≤ 57)

/-- The character class `\s` of `std::regex`, and the white space that `std::stoi`
skips: the space and the characters 9 to 13 (tab, line feed, vertical tab, form feed,
carriage return). -/
def isspace (c : Char) : Bool :=
  decide (c.toNat = 32) || (decide (9 ≤ c.toNat) && decide (c.toNat ≤ 13))

/-- The value of a run of decimal digits, most significant digit first. -/
def decimal_value (ds : List Char) : Nat :=
  ds.foldl (fun acc c => 10 * acc + (c.toNat - 48)) 0

/-- The library function `std::stoi(str)` in base 10: leading white space is skipped, an
optional sign is read, then the longest run of digits; without a digit it throws
`std::invalid_argument`, with a value outside `int` it throws `std::out_of_range`. -/
def stoi (str : List Char) : Except Exn Int :=
  let s1 := str.dropWhile isspace
  let s2 := if s1.head? = some '-' ∨ s1.head? = some '+' then s1.tail else s1
  let ds := s2.takeWhile isdigit
  if ds = [] then Except.error Exn.invalid_argument
  else
    let r : Int :=
      if s1.head? = some '-' then -(decimal_value ds : Int) else (decimal_value ds : Int)
    if r < INT_MIN ∨ INT_MAX < r then Except.error Exn.out_of_range else Except.ok r

/-- A `try` block with the handler `catch (const MetadataError&)`: the handler runs when
the block throws `MetadataError`; any other exception leaves the function. -/
def catch_MetadataError {α : Type} (block handler : Except Exn α) : Except Exn α :=
  match block with
  | Except.error Exn.MetadataError => handler
  | r => r

/-- The call `std::regex_match(version, match, version_regex)` for the pattern
`(\d+)\.(\d+)\.(\d+)`: the whole string has to be a run of digits, a dot, a run of
digits, a dot and a run of digits, each run with at least one digit. A run of digits
ends where a dot has to follow, so the runs are the longest ones. The result holds the
three groups `match[1]`, `match[2]`, `match[3]`. -/
def version_regex_match (version : List Char) : Option (List Char × List Char × List Char) :=
  match version.dropWhile isdigit with
  | [] => none
  | c1 :: r1 =>
    match r1.dropWhile isdigit with
    | [] => none
    | c2 :: r2 =>
      if c1 = '.' ∧ c2 = '.' ∧ version.takeWhile isdigit ≠ [] ∧
          r1.takeWhile isdigit ≠ [] ∧ r2.takeWhile isdigit ≠ [] ∧
          r2.dropWhile isdigit = [] then
        some (version.takeWhile isdigit, r1.takeWhile isdigit, r2.takeWhile isdigit)
      else none

/-- `MetadataUtils::parseVersion`: when the pattern matches, the three groups go
through `std::stoi`, in order; otherwise `MetadataError` is thrown. -/
def parseVersion (version : List Char) : Except Exn Version :=
  match version_regex_match version with
  | some (m1, m2, m3) => do
    let major ← stoi m1
    let minor ← stoi m2
    let patch ← stoi m3
    pure ⟨major, minor, patch⟩
  | none => Except.error Exn.MetadataError

/-- `MetadataUtils::compareVersions`: both strings are parsed, then major, minor and
patch are compared in this order; a `MetadataError` of the parsing is caught and thrown
again as a `MetadataError` with another message. -/
def compareVersions (v1 v2 : List Char) : Except Exn Int :=
  catch_MetadataError
    (do
      let ver1 ← parseVersion v1
      let ver2 ← parseVersion v2
      if ver1.major ≠ ver2.major then
        pure (if ver1.major > ver2.major then 1 else -1)
      else if ver1.minor ≠ ver2.minor then
        pure (if ver1.minor > ver2.minor then 1 else -1)
      else if ver1.patch ≠ ver2.patch then
        pure (if ver1.patch > ver2.patch then 1 else -1)
      else pure 0)
    (Except.error Exn.MetadataError)

/-- `MetadataUtils::checkVersionCompatibility`: both strings are parsed and the major
components compared; a `MetadataError` is caught and gives `false`. -/
def checkVersionCompatibility (version1 version2 : List Char) : Except Exn Bool :=
  catch_MetadataError
    (do
      let v1 ← parseVersion version1
      let v2 ← parseVersion version2
      pure (decide (v1.major = v2.major)))
    (Except.ok false)

/-- The set `[>=<~]` of the constraint pattern. -/
def is_op_char (c : Char) : Bool := c = '>' || c = '=' || c = '<' || c = '~'

/-- The set `[\d.]` of the constraint pattern. -/
def is_ver_char (c : Char) : Bool := isdigit c || c = '.'

/-- A match of the pattern `([>=<~]+)\s*([\d.]+)` that starts at the first character
of `s`: the longest run of operator characters, then the white space, then the longest
run of digits and dots; both runs need a character. A shorter run could not be followed
by the rest of the pattern. The result holds the groups `match[1]` and `match[2]`. -/
def constraint_match_here (s : List Char) : Option (List Char × List Char) :=
  if s.takeWhile is_op_char ≠ [] ∧
      (((s.dropWhile is_op_char).dropWhile isspace).takeWhile is_ver_char) ≠ [] then
    some (s.takeWhile is_op_char,
      ((s.dropWhile is_op_char).dropWhile isspace).takeWhile is_ver_char)
  else none

/-- The call `std::regex_search(constraint, match, constraint_regex)`: the match that
starts at the leftmost position where the pattern matches. -/
def constraint_regex_search : List Char → Option (List Char × List Char)
  | [] => none
  | c :: s =>
    match constraint_match_here (c :: s) with
    | some m => some m
    | none => constraint_regex_search s

/-- The chain of comparisons of the operator in `checkVersionConstraint`; an operator
that is none of the six gives `false`. -/
def op_decides (op : List Char) (comparison : Int) (ver constr_ver : Version) : Bool :=
  if op = ['>', '='] then decide (comparison ≥ 0)
  else if op = ['>'] then decide (comparison > 0)
  else if op = ['<', '='] then decide (comparison ≤ 0)
  else if op = ['<'] then decide (comparison < 0)
  else if op = ['=', '='] then decide (comparison = 0)
  else if op = ['~'] then decide (ver.major = constr_ver.major)
  else false

/-- `MetadataUtils::checkVersionConstraint`: the version is parsed, the constraint is
searched for an operator and a version, that version is parsed and compared, and the
operator decides; a constraint without a match gives `false`; a `MetadataError` is
caught and gives `false`. -/
def checkVersionConstraint (version constraint : List Char) : Except Exn Bool :=
  catch_MetadataError
    (do
      let ver ← parseVersion version
      match constraint_regex_search constraint with
      | some (op, constr_ver_str) =>
        let constr_ver ← parseVersion constr_ver_str
        let comparison ← compareVersions version constr_ver_str
        pure (op_decides op comparison ver constr_ver)
      | none => pure false)
    (Except.ok false)

/-- `MetadataUtils::validateMetadata`: the checks of the name, of the version (empty,
then parsed, a `MetadataError` of the parsing being caught and thrown again as a
`MetadataError`) and of the author, in this order. -/
def validateMetadata (metadata : PluginMetadata) : Except Exn Unit :=
  if metadata.name = [] then Except.error Exn.MetadataError
  else if metadata.version = [] then Except.error Exn.MetadataError
  else
    match catch_MetadataError (parseVersion metadata.version)
        (Except.error Exn.MetadataError) with
    | Except.error e => Except.error e
    | Except.ok _ =>
      if metadata.author = [] then Except.error Exn.MetadataError else Except.ok ()

/-- A non-empty run of decimal digits. -/
def DigitRun (ds : List Char) : Prop := ds ≠ [] ∧ ∀ c ∈ ds, isdigit c = true

/-- The string is, in its entirety, three non-empty runs of decimal digits separated by
single dots. -/
def VersionFormat (s : List Char) : Prop :=
  ∃ A B C, DigitRun A ∧ DigitRun B ∧ DigitRun C ∧ s = A ++ '.' :: (B ++ '.' :: C)

/-- The lexicographic order on major, minor and patch. -/
def Version.lex_lt (x y : Version) : Prop :=
  x.major < y.major ∨ (x.major = y.major ∧
    (x.minor < y.minor ∨ (x.minor = y.minor ∧ x.patch < y.patch)))

/-- The six operators that `checkVersionConstraint` knows. -/
def operators : List (List Char) :=
  [['>', '='], ['>'], ['<', '='], ['<'], ['=', '='], ['~']]

/-- The `struct ExtendedPluginMetadata`; a `std::map` is the list of its entries in the
order of iteration, by increasing key. -/
structure ExtendedPluginMetadata extends PluginMetadata where
  dependencies : List (List Char × List Char)
  supported_platforms : List (List Char)
  min_system_version : List Char
  max_system_version : List Char
  additional_data : List (List Char × List Char)

/-- The call `available_plugins.find(dep_id)` on a `std::map`: the value of the entry
with this key, if there is one. -/
def map_find (m : List (List Char × List Char)) (key : List Char) : Option (List Char) :=
  match m with
  | [] => none
  | e :: rest => if e.1 = key then some e.2 else map_find rest key

/-- The message for a dependency that is not available. -/
def missing_message (dep_id : List Char) : List Char :=
  "Missing dependency: ".toList ++ dep_id

/-- The message for a dependency whose available version does not satisfy the
constraint. -/
def mismatch_message (dep_id constraint found : List Char) : List Char :=
  "Dependency version mismatch: ".toList ++ dep_id ++ " (required: ".toList ++ constraint ++
    ", found: ".toList ++ found ++ ")".toList

/-- The loop of `DependencyResolver::getMissingDependencies` over the dependencies that
remain, with the messages collected so far; an exception of `checkVersionConstraint`
leaves the function. -/
def missing_loop (available_plugins : List (List Char × List Char)) :
    List (List Char × List Char) → List (List Char) → Except Exn (List (List Char))
  | [], missing => Except.ok missing
  | dep :: rest, missing =>
    match map_find available_plugins dep.1 with
    | none => missing_loop available_plugins rest (missing ++ [missing_message dep.1])
    | some found =>
      match checkVersionConstraint found dep.2 with
      | Except.error e => Except.error e
      | Except.ok true => missing_loop available_plugins rest missing
      | Except.ok false =>
        missing_loop available_plugins rest (missing ++ [mismatch_message dep.1 dep.2 found])

/-- `DependencyResolver::getMissingDependencies`. -/
def getMissingDependencies (metadata : ExtendedPluginMetadata)
    (available_plugins : List (List Char × List Char)) : Except Exn (List (List Char)) :=
  missing_loop available_plugins metadata.dependencies []

/-- `DependencyResolver::checkDependencies`:
`getMissingDependencies(metadata, available_plugins).empty()`. -/
def checkDependencies (metadata : ExtendedPluginMetadata)
    (available_plugins : List (List Char × List Char)) : Except Exn Bool :=
  match getMissingDependencies metadata available_plugins with
  | Except.error e => Except.error e
  | Except.ok missing => Except.ok missing.isEmpty

/-- A dependency needs a message: it is not available, or the check of its available
version against its constraint does not return `true`. -/
def unsatisfied (available_plugins : List (List Char × List Char))
    (dep : List Char × List Char) : Bool :=
  match map_find available_plugins dep.1 with
  | none => true
  | some found => decide (checkVersionConstraint found dep.2 ≠ Except.ok true)

/-- The message of an unsatisfied dependency. -/
def dependency_message (available_plugins : List (List Char × List Char))
    (dep : List Char × List Char) : List Char :=
  match map_find available_plugins dep.1 with
  | none => missing_message dep.1
  | some found => mismatch_message dep.1 dep.2 found

/-- A plugin metadata record with the given dependencies, as the test
`DependencyResolution` builds it. -/
def metadata_with (dependencies : List (List Char × List Char)) : ExtendedPluginMetadata :=
  { name := "TestPlugin".toList
    version := "1.0.0".toList
    description := []
    author := "Test Author".toList
    license := "MIT".toList
    dependencies := dependencies
    supported_platforms := []
    min_system_version := []
    max_system_version := []
    additional_data := [] }

/-! ## Definitions of the plugin loader

A `fs::path` is given by the text that identifies it: the list of its characters, with
`/` as separator, in the form in which two paths that compare equal as `fs::path`
values have the same text (for one thing, no separator is repeated). The keys of
`loaded_plugins_` are compared as `fs::path` values. -/

/-- The exceptions of the loader: `PluginLoadError` and `fs::filesystem_error`. -/
inductive LoadExn where
  | PluginLoadError
  | filesystem_error
  deriving DecidableEq

/-- A `PluginLibrary` that was constructed: its handle, not null, and its path. -/
structure PluginLibrary where
  handle_ : Nat
  library_path_ : List Char
  deriving DecidableEq

/-- An entry of a directory as `fs::directory_iterator` gives it. -/
structure DirEntry where
  path : List Char
  is_regular_file : Bool
  deriving DecidableEq

/-- The operating system as the loader uses it: `fs::absolute`, `dlopen` (0 is the null
handle), `fs::exists`, `fs::is_directory`, the entries that `fs::directory_iterator`
gives for a directory, and whether the iteration ends with a `fs::filesystem_error`. -/
structure OS where
  absolute : List Char → List Char
  dlopen : List Char → Nat
  file_exists : List Char → Bool
  is_directory : List Char → Bool
  directory_iterator : List Char → List DirEntry
  iteration_fails : List Char → Bool

/-- The constructor `PluginLibrary(library_path)`: `dlopen`, and `PluginLoadError` when
the handle is null. -/
def PluginLibrary.new (os : OS) (library_path : List Char) : Except LoadExn PluginLibrary :=
  if os.dlopen library_path = 0 then Except.error LoadExn.PluginLoadError
  else Except.ok ⟨os.dlopen library_path, library_path⟩

/-- The call `loaded_plugins_.find(abs_path) != loaded_plugins_.end()`. -/
def is_loaded (loaded_plugins_ : List (List Char × PluginLibrary)) (abs_path : List Char) :
    Bool :=
  loaded_plugins_.any (fun e => decide (e.1 = abs_path))

/-- `PluginManager::loadPlugin`, on the map `loaded_plugins_` given as the list of its
entries: the outcome and the map after the call. An exception of the constructor is a
`PluginLoadError` and is thrown again. -/
def loadPlugin (os : OS) (loaded_plugins_ : List (List Char × PluginLibrary))
    (library_path : List Char) :
    Except LoadExn PluginLibrary × List (List Char × PluginLibrary) :=
  if is_loaded loaded_plugins_ (os.absolute library_path) then
    (Except.error LoadExn.PluginLoadError, loaded_plugins_)
  else
    match PluginLibrary.new os (os.absolute library_path) with
    | Except.ok plugin_lib =>
      (Except.ok plugin_lib, loaded_plugins_ ++ [(os.absolute library_path, plugin_lib)])
    | Except.error _ => (Except.error LoadExn.PluginLoadError, loaded_plugins_)

/-- The text `s` starts with `pat`. -/
def starts_with : List Char → List Char → Bool
  | _, [] => true
  | [], _ :: _ => false
  | c :: s, d :: pat => decide (c = d) && starts_with s pat

/-- The test `s.find(pattern) != std::string::npos`: `pattern` occurs in `s` at some
position. -/
def string_find (s pattern : List Char) : Bool :=
  match s with
  | [] => starts_with [] pattern
  | c :: rest => starts_with (c :: rest) pattern || string_find rest pattern

/-- The text of `path.filename()`: what follows the last separator. -/
def filename (path : List Char) : List Char :=
  (path.reverse.takeWhile (fun c => decide (c ≠ '/'))).reverse

/-- The loop of `PluginManager::discoverPlugins` over the entries that remain: an entry
that is a regular file whose filename contains the pattern goes to `loadPlugin`; a
library that was loaded is pushed back, a `PluginLoadError` is caught and the loop
continues. -/
def discover_loop (os : OS) (pattern : List Char) :
    List DirEntry → List (List Char × PluginLibrary) → List PluginLibrary →
      List PluginLibrary × List (List Char × PluginLibrary)
  | [], loaded_plugins_, discovered_plugins => (discovered_plugins, loaded_plugins_)
  | entry :: rest, loaded_plugins_, discovered_plugins =>
    if entry.is_regular_file then
      if string_find (filename entry.path) pattern then
        match loadPlugin os loaded_plugins_ entry.path with
        | (Except.ok plugin, m1) =>
          discover_loop os pattern rest m1 (discovered_plugins ++ [plugin])
        | (Except.error _, m1) => discover_loop os pattern rest m1 discovered_plugins
      else discover_loop os pattern rest loaded_plugins_ discovered_plugins
    else discover_loop os pattern rest loaded_plugins_ discovered_plugins

/-- `PluginManager::discoverPlugins`: nothing for a path that is no directory; otherwise
the loop over the entries, and a `fs::filesystem_error` of the iteration is thrown again
as a `PluginLoadError`. -/
def discoverPlugins (os : OS) (loaded_plugins_ : List (List Char × PluginLibrary))
    (directory_path pattern : List Char) :
    Except LoadExn (List PluginLibrary) × List (List Char × PluginLibrary) :=
  if !os.file_exists directory_path || !os.is_directory directory_path then
    (Except.ok [], loaded_plugins_)
  else
    if os.iteration_fails directory_path then
      (Except.error LoadExn.PluginLoadError,
        (discover_loop os pattern (os.directory_iterator directory_path) loaded_plugins_ []).2)
    else
      (Except.ok
          (discover_loop os pattern (os.directory_iterator directory_path)
            loaded_plugins_ []).1,
        (discover_loop os pattern (os.directory_iterator directory_path) loaded_plugins_ []).2)

/-- Follows the specification's words for discovery: `load` is attempted on each path
in turn, a path that fails to load is skipped; the result holds the libraries loaded, in
order, and the map after the attempts. -/
def load_each (os : OS) :
    List (List Char) → List (List Char × PluginLibrary) →
      List PluginLibrary × List (List Char × PluginLibrary)
  | [], m => ([], m)
  | p :: ps, m =>
    match loadPlugin os m p with
    | (Except.ok lib, m1) => (lib :: (load_each os ps m1).1, (load_each os ps m1).2)
    | (Except.error _, m1) => load_each os ps m1

/-- The entry is a regular file whose filename contains the pattern. -/
def passes_filter (pattern : List Char) (e : DirEntry) : Bool :=
  e.is_regular_file && string_find (filename e.path) pattern

/-- The paths that the discovery has to attempt: the regular files of the directory
whose filename contains the pattern, in the order of the iteration. -/
def attempted_paths (os : OS) (directory_path pattern : List Char) : List (List Char) :=
  ((os.directory_iterator directory_path).filter (passes_filter pattern)).map DirEntry.path

/-- The load of `p` succeeds from the map `m`: its absolute path is no key of the map and
the operating system opens the library. -/
def can_load (os : OS) (m : List (List Char × PluginLibrary)) (p : List Char) : Bool :=
  !is_loaded m (os.absolute p) && decide (os.dlopen (os.absolute p) ≠ 0)

/-- An operating system with one directory `plugins` that holds a library that opens,
a text file, a library that does not open and a subdirectory. -/
def example_os : OS :=
  { absolute := fun p => "/app/".toList ++ p
    dlopen := fun p => if p = "/app/plugins/math.so".toList then 7 else 0
    file_exists := fun p => decide (p = "plugins".toList)
    is_directory := fun p => decide (p = "plugins".toList)
    directory_iterator := fun p =>
      if p = "plugins".toList then
        [⟨"plugins/math.so".toList, true⟩, ⟨"plugins/readme.txt".toList, true⟩,
          ⟨"plugins/broken.so".toList, true⟩, ⟨"plugins/old.so".toList, false⟩]
      else []
    iteration_fails := fun _ => false }

/-- Follows the specification's words for the name of a file: `name` is what follows
the last separator of `path`. It holds no separator, and `path` is `name` itself or a
parent, a separator and `name`. -/
def is_filename_of (name path : List Char) : Prop :=
  '/' ∉ name ∧ (path = name ∨ ∃ parent, path = parent ++ '/' :: name)

/-- An operating system with one directory `lib.so.d`, whose own name contains `.so`; it
holds a library that opens, a text file, a library that does not open and a
subdirectory. -/
def dotted_os : OS :=
  { absolute := fun p => "/app/".toList ++ p
    dlopen := fun p => if p = "/app/lib.so.d/math.so".toList then 7 else 0
    file_exists := fun p => decide (p = "lib.so.d".toList)
    is_directory := fun p => decide (p = "lib.so.d".toList)
    directory_iterator := fun p =>
      if p = "lib.so.d".toList then
        [⟨"lib.so.d/math.so".toList, true⟩, ⟨"lib.so.d/readme.txt".toList, true⟩,
          ⟨"lib.so.d/broken.so".toList, true⟩, ⟨"lib.so.d/old.so".toList, false⟩]
      else []
    iteration_fails := fun _ => false }

end plugin_manager

namespace sgi_pmr

/-! ## Arithmetic of the size classes -/

theorem mask_testBit (i : Nat) :
    Nat.testBit (2 ^ 64 - 1 - 7) i = (decide (3 ≤ i) && decide (i < 64)) := by
  have h : (2 ^ 64 - 1 - 7 : Nat) = (2 ^ 61 - 1) <<< 3 := by decide
  rw [h, Nat.testBit_shiftLeft, Nat.testBit_two_pow_sub_one]
  by_cases h3 : 3 ≤ i
  · simp [h3]; omega
  · simp [h3]

theorem land_mask (x : Nat) (hx : x < 2 ^ 64) : x &&& (2 ^ 64 - 1 - 7) = x / 8 * 8 := by
  apply Nat.eq_of_testBit_eq
  intro i
  rw [Nat.testBit_land, mask_testBit]
  have h8 : x / 8 * 8 = (x >>> 3) <<< 3 := by
    rw [Nat.shiftLeft_eq, Nat.shiftRight_eq_div_pow]
  rw [h8, Nat.testBit_shiftLeft, Nat.testBit_shiftRight]
  by_cases h3 : 3 ≤ i
  · have e : 3 + (i - 3) = i := by omega
    by_cases h64 : i < 64
    · simp [h3, h64, e]
    · have hf : x.testBit i = false := by
        apply Nat.testBit_eq_false_of_lt
        calc x < 2 ^ 64 := hx
          _ ≤ 2 ^ i := Nat.pow_le_pow_right (by decide) (by omega)
      simp [h3, h64, e, hf]
  · simp [h3]

/-- Without overflow `round_up` is the arithmetic rounding to a multiple of eight. -/
theorem round_up_eq (b : Nat) (h : b + 7 < 2 ^ 64) : round_up b = (b + 7) / 8 * 8 := by
  unfold round_up
  simp only [ALIGN, SIZE_MOD]
  have e : b + 8 - 1 = b + 7 := by omega
  rw [e, Nat.mod_eq_of_lt h]
  exact land_mask _ h

/-- Without overflow `free_list_index` is `(b + 7) / 8 - 1`, wrapping at zero. -/
theorem free_list_index_eq (b : Nat) (h : b + 7 < 2 ^ 64) :
    free_list_index b = if b = 0 then 2 ^ 64 - 1 else (b + 7) / 8 - 1 := by
  unfold free_list_index
  simp only [ALIGN, SIZE_MOD]
  have e : b + 8 - 1 = b + 7 := by omega
  rw [e, Nat.mod_eq_of_lt h]
  split
  · subst b; decide
  · have h1 : 1 ≤ (b + 7) / 8 := by omega
    have h2 : (b + 7) / 8 + 2 ^ 64 - 1 = ((b + 7) / 8 - 1) + 2 ^ 64 := by omega
    rw [h2, Nat.add_mod_right, Nat.mod_eq_of_lt]
    omega

/-- The size class of a request of `1 .. MAX_BYTES` bytes. -/
theorem small_class (b : Nat) (h1 : 1 ≤ b) (h2 : b ≤ MAX_BYTES) :
    free_list_index (round_up b) = (b + 7) / 8 - 1 ∧
      free_list_index (round_up b) < NFREELISTS ∧
      round_up b = 8 * (free_list_index (round_up b) + 1) ∧ b ≤ round_up b := by
  simp only [MAX_BYTES] at h2
  simp only [NFREELISTS]
  have hr : round_up b = (b + 7) / 8 * 8 := round_up_eq b (by omega)
  have hi : free_list_index (round_up b) = (b + 7) / 8 - 1 := by
    rw [free_list_index_eq _ (by rw [hr]; omega), hr, if_neg (by omega)]
    omega
  rw [hi, hr]
  omega

/-- A request of zero bytes is rounded to zero and its index wraps around. -/
theorem zero_class : round_up 0 = 0 ∧ free_list_index (round_up 0) = SIZE_MOD - 1 := by
  decide

/-! ## The calls, case by case -/

theorem allocate_impl_large (M : Malloc) (s : State) (bytes alignment : Nat)
    (h : MAX_BYTES < bytes ∨ ALIGN < alignment) :
    allocate_impl M s bytes alignment =
      (if M s.sys bytes = 0 then Outcome.bad_alloc else Outcome.ok (M s.sys bytes),
        { s with sys := s.sys ++ [SysCall.malloc bytes (M s.sys bytes)] }) := by
  unfold allocate_impl
  rw [if_pos h]
  simp only [sys_malloc]
  split <;> rfl

theorem allocate_impl_pop (M : Malloc) (s : State) (bytes alignment : Nat)
    (h : ¬ (MAX_BYTES < bytes ∨ ALIGN < alignment))
    (hi : free_list_index (round_up bytes) < NFREELISTS)
    (hh : s.free_lists ⟨free_list_index (round_up bytes), hi⟩ ≠ 0) :
    allocate_impl M s bytes alignment =
      (Outcome.ok (s.free_lists ⟨free_list_index (round_up bytes), hi⟩),
        { s with
          free_lists :=
            Function.update s.free_lists ⟨free_list_index (round_up bytes), hi⟩
              (s.heap (s.free_lists ⟨free_list_index (round_up bytes), hi⟩)) }) := by
  unfold allocate_impl
  rw [if_neg h]
  simp only [dif_pos hi, if_pos hh]

theorem allocate_impl_refill (M : Malloc) (s : State) (bytes alignment : Nat)
    (h : ¬ (MAX_BYTES < bytes ∨ ALIGN < alignment))
    (hi : free_list_index (round_up bytes) < NFREELISTS)
    (hh : s.free_lists ⟨free_list_index (round_up bytes), hi⟩ = 0) :
    allocate_impl M s bytes alignment = refill M s (round_up bytes) := by
  unfold allocate_impl
  rw [if_neg h]
  simp only [dif_pos hi, hh, ne_eq, not_true_eq_false, if_false]

theorem allocate_impl_out_of_range (M : Malloc) (s : State) (bytes alignment : Nat)
    (h : ¬ (MAX_BYTES < bytes ∨ ALIGN < alignment))
    (hi : ¬ free_list_index (round_up bytes) < NFREELISTS) :
    allocate_impl M s bytes alignment = (Outcome.out_of_range, s) := by
  unfold allocate_impl
  rw [if_neg h]
  simp only [dif_neg hi]

theorem deallocate_impl_null (s : State) (bytes alignment : Nat) :
    deallocate_impl s 0 bytes alignment = (Outcome.ok (), s) := by
  simp [deallocate_impl]

theorem deallocate_impl_large (s : State) (p bytes alignment : Nat) (hp : p ≠ 0)
    (h : MAX_BYTES < bytes ∨ ALIGN < alignment) :
    deallocate_impl s p bytes alignment =
      (Outcome.ok (), { s with sys := s.sys ++ [SysCall.free p] }) := by
  unfold deallocate_impl
  rw [if_neg hp, if_pos h]
  rfl

theorem deallocate_impl_small (s : State) (p bytes alignment : Nat) (hp : p ≠ 0)
    (h : ¬ (MAX_BYTES < bytes ∨ ALIGN < alignment))
    (hi : free_list_index (round_up bytes) < NFREELISTS) :
    deallocate_impl s p bytes alignment =
      (Outcome.ok (),
        { s with
          heap := store_link s.heap p
            (s.free_lists ⟨free_list_index (round_up bytes), hi⟩)
          free_lists :=
            Function.update s.free_lists ⟨free_list_index (round_up bytes), hi⟩ p }) := by
  unfold deallocate_impl
  rw [if_neg hp, if_neg h]
  simp only [dif_pos hi]

theorem deallocate_impl_out_of_range (s : State) (p bytes alignment : Nat) (hp : p ≠ 0)
    (h : ¬ (MAX_BYTES < bytes ∨ ALIGN < alignment))
    (hi : ¬ free_list_index (round_up bytes) < NFREELISTS) :
    deallocate_impl s p bytes alignment = (Outcome.out_of_range, s) := by
  unfold deallocate_impl
  rw [if_neg hp, if_neg h]
  simp only [dif_neg hi]

/-! ## `chunk_alloc` and `refill` -/

theorem chunk_alloc_unfold (M : Malloc) (s : State) (size : Nat) (nobjs : Int) :
    chunk_alloc M s size nobjs =
      if M s.sys (total_bytes size nobjs) = 0 then
        if 1 < nobjs then
          chunk_alloc M (sys_malloc M s (total_bytes size nobjs)).2 size (Int.tdiv nobjs 2)
        else (Outcome.bad_alloc, nobjs, (sys_malloc M s (total_bytes size nobjs)).2)
      else
        (Outcome.ok (M s.sys (total_bytes size nobjs)), nobjs,
          { s with
            sys := s.sys ++
              [SysCall.malloc (total_bytes size nobjs) (M s.sys (total_bytes size nobjs))]
            memory_chunks := s.memory_chunks ++ [M s.sys (total_bytes size nobjs)] }) := by
  rw [chunk_alloc]
  simp only [sys_malloc]

/-- What `chunk_alloc` does: some refused requests, then either `std::bad_alloc` with
nothing but the history changed, or a granted block that is appended to the registry. -/
theorem chunk_alloc_spec (M : Malloc) (size : Nat) (n : Nat) :
    ∀ (nobjs : Int) (s : State), nobjs.toNat ≤ n →
      ∃ fails : List SysCall, (∀ e ∈ fails, ∃ b, e = SysCall.malloc b 0) ∧
        ((∃ n1, chunk_alloc M s size nobjs =
            (Outcome.bad_alloc, n1, { s with sys := s.sys ++ fails })) ∨
          (∃ c n1, c ≠ 0 ∧ c = M (s.sys ++ fails) (total_bytes size n1) ∧
            (1 ≤ nobjs → 1 ≤ n1) ∧ n1 ≤ nobjs ∧
            chunk_alloc M s size nobjs =
              (Outcome.ok c, n1,
                { s with
                  sys := s.sys ++ fails ++ [SysCall.malloc (total_bytes size n1) c]
                  memory_chunks := s.memory_chunks ++ [c] }))) := by
  induction n with
  | zero =>
    intro nobjs s hn
    rw [chunk_alloc_unfold]
    by_cases hr : M s.sys (total_bytes size nobjs) = 0
    · refine ⟨[SysCall.malloc (total_bytes size nobjs) 0], ?_, Or.inl ⟨nobjs, ?_⟩⟩
      · intro e he
        exact ⟨_, List.mem_singleton.mp he⟩
      · have h1 : ¬ (1 < nobjs) := by omega
        simp only [sys_malloc]
        rw [if_pos hr, if_neg h1, hr]
    · refine ⟨[], by simp, Or.inr ⟨M s.sys (total_bytes size nobjs), nobjs, hr, by simp,
        fun h => h, le_refl _, ?_⟩⟩
      rw [if_neg hr]
      simp
  | succ n ih =>
    intro nobjs s hn
    rw [chunk_alloc_unfold]
    by_cases hr : M s.sys (total_bytes size nobjs) = 0
    · by_cases h1 : 1 < nobjs
      · have h2 : Int.tdiv nobjs 2 = nobjs / 2 := Int.tdiv_eq_ediv (by omega) (by omega)
        obtain ⟨fails, hf, hcase⟩ := ih (Int.tdiv nobjs 2)
          (sys_malloc M s (total_bytes size nobjs)).2 (by rw [h2]; omega)
        refine ⟨SysCall.malloc (total_bytes size nobjs) 0 :: fails, ?_, ?_⟩
        · intro e he
          rcases List.mem_cons.mp he with h | h
          · exact ⟨_, h⟩
          · exact hf e h
        · simp only [sys_malloc] at hcase ⊢
          rw [if_pos hr, if_pos h1]
          rw [hr] at hcase ⊢
          rcases hcase with ⟨n1, h⟩ | ⟨c, n1, hc, hcM, h1n, hn1, h⟩
          · left
            refine ⟨n1, ?_⟩
            rw [h]
            simp
          · right
            refine ⟨c, n1, hc, ?_, fun _ => h1n (by omega), by omega, ?_⟩
            · rw [hcM]; simp
            · rw [h]
              simp
      · refine ⟨[SysCall.malloc (total_bytes size nobjs) 0], ?_, Or.inl ⟨nobjs, ?_⟩⟩
        · intro e he
          exact ⟨_, List.mem_singleton.mp he⟩
        · simp only [sys_malloc]
          rw [if_pos hr, if_neg h1, hr]
    · refine ⟨[], by simp, Or.inr ⟨M s.sys (total_bytes size nobjs), nobjs, hr, by simp,
        fun h => h, le_refl _, ?_⟩⟩
      rw [if_neg hr]
      simp

/-- The store of a link is read back at its address. -/
theorem store_link_same (heap : Nat → Nat) (p v : Nat) : store_link heap p v p = v := by
  simp [store_link]

/-- The store of a link leaves the links that start `LINK_BYTES` bytes away or further
as they were. -/
theorem store_link_apart (heap : Nat → Nat) (p v x : Nat)
    (h : x + LINK_BYTES ≤ p ∨ p + LINK_BYTES ≤ x) : store_link heap p v x = heap x := by
  unfold store_link
  unfold LINK_BYTES at *
  rw [if_neg (by omega), if_neg (by omega), if_neg (by omega)]

theorem refill_link_fst (size : Nat) :
    ∀ (k c : Nat) (heap : Nat → Nat), (refill_link size k c heap).1 = c + k * size := by
  intro k
  induction k with
  | zero => intro c heap; simp [refill_link]
  | succ k ih =>
    intro c heap
    rw [refill_link, ih]
    rw [Nat.succ_mul]
    omega

/-- The loop of `refill` leaves the links that start `LINK_BYTES` bytes or further from
every node it links as they were. -/
theorem refill_link_frame (size : Nat) :
    ∀ (k c : Nat) (heap : Nat → Nat) (x : Nat),
      (∀ j, j < k → x + LINK_BYTES ≤ c + j * size ∨ c + j * size + LINK_BYTES ≤ x) →
      (refill_link size k c heap).2 x = heap x := by
  intro k
  induction k with
  | zero => intro c heap x _; simp [refill_link]
  | succ k ih =>
    intro c heap x hx
    rw [refill_link, ih]
    · apply store_link_apart
      have := hx 0 (by omega)
      simpa using this
    · intro j hj
      have := hx (j + 1) (by omega)
      rw [Nat.succ_mul] at this
      omega

/-- The loop of `refill` links each node to the node `size` bytes further, when a node
has room for a link. -/
theorem refill_link_node (size : Nat) (hs : LINK_BYTES ≤ size) :
    ∀ (k c : Nat) (heap : Nat → Nat) (j : Nat), j < k →
      (refill_link size k c heap).2 (c + j * size) = c + (j + 1) * size := by
  intro k
  induction k with
  | zero => intro c heap j hj; omega
  | succ k ih =>
    intro c heap j hj
    rw [refill_link]
    cases j with
    | zero =>
      rw [refill_link_frame]
      · simp [store_link_same]
      · intro i _
        left
        have : 0 ≤ i * size := Nat.zero_le _
        simp only [zero_mul, add_zero]
        omega
    | succ j =>
      have := ih (c + size) (store_link heap c (c + size)) j (by omega)
      rw [show c + (j + 1) * size = c + size + j * size by rw [Nat.succ_mul]; omega,
        this, Nat.succ_mul (j + 1)]
      omega

theorem total_bytes_small (size n : Nat) (hs : size ≤ MAX_BYTES) (hn : n ≤ 20) :
    total_bytes size (n : Int) = size * n := by
  unfold total_bytes
  simp only [MAX_BYTES, SIZE_MOD] at *
  have h1 : ((n : Int) % ((2 ^ 64 : Nat) : Int)).toNat = n := by
    have : ((n : Int) % ((2 ^ 64 : Nat) : Int)) = (n : Int) := by
      apply Int.emod_eq_of_lt <;> omega
    rw [this]; simp
  rw [h1, Nat.mod_eq_of_lt]
  have : size * n ≤ 128 * 20 := Nat.mul_le_mul hs hn
  omega

/-- What `refill` does for a size whose index is in range. -/
theorem refill_spec (M : Malloc) (s : State) (size : Nat)
    (hi : free_list_index size < NFREELISTS) :
    ∃ fails : List SysCall, (∀ e ∈ fails, ∃ b, e = SysCall.malloc b 0) ∧
      (refill M s size = (Outcome.bad_alloc, { s with sys := s.sys ++ fails }) ∨
        ∃ c n : Nat, c ≠ 0 ∧ 1 ≤ n ∧ n ≤ 20 ∧
          c = M (s.sys ++ fails) (total_bytes size (n : Int)) ∧
          refill M s size =
            (Outcome.ok c,
              { free_lists :=
                  if n = 1 then s.free_lists
                  else Function.update s.free_lists ⟨free_list_index size, hi⟩ (c + size)
                memory_chunks := s.memory_chunks ++ [c]
                heap := if n = 1 then s.heap else refill_heap s.heap c size n
                sys := s.sys ++ fails ++ [SysCall.malloc (total_bytes size (n : Int)) c] })) := by
  obtain ⟨fails, hf, hcase⟩ := chunk_alloc_spec M size 20 20 s (by decide)
  refine ⟨fails, hf, ?_⟩
  rcases hcase with ⟨n1, h⟩ | ⟨c, n1, hc, hcM, h1n, hn1, h⟩
  · left
    unfold refill
    rw [h]
  · right
    have h1 : 1 ≤ n1 := h1n (by decide)
    obtain ⟨n, rfl⟩ : ∃ n : Nat, n1 = (n : Int) := ⟨n1.toNat, by omega⟩
    refine ⟨c, n, hc, by omega, by omega, hcM, ?_⟩
    unfold refill
    rw [h]
    by_cases hn : n = 1
    · subst hn
      simp
    · have hn1 : ¬ ((n : Int) = 1) := by omega
      have hk : ((n : Int) - 2).toNat = n - 2 := by omega
      simp only [hn1, hn, if_false, dif_pos hi, hk, refill_heap]

theorem Chain_congr (heap heap1 : Nat → Nat) :
    ∀ (xs : List Nat) (h t : Nat), (∀ x ∈ xs, heap1 x = heap x) →
      Chain heap h xs t → Chain heap1 h xs t := by
  intro xs
  induction xs with
  | nil => intro h t _ hc; exact hc
  | cons x xs ih =>
    intro h t hx hc
    obtain ⟨h1, h2, h3⟩ := hc
    refine ⟨h1, h2, ?_⟩
    rw [hx x (List.mem_cons_self _ _)]
    exact ih _ _ (fun y hy => hx y (List.mem_cons_of_mem _ hy)) h3

theorem Chain_arith (heap : Nat → Nat) (size t : Nat) (hs : 0 < size) :
    ∀ (m a : Nat), 0 < a →
      (∀ j, j + 1 < m → heap (a + j * size) = a + (j + 1) * size) →
      (1 ≤ m → heap (a + (m - 1) * size) = t) →
      Chain heap (if m = 0 then t else a) ((List.range m).map (fun j => a + j * size)) t := by
  intro m
  induction m with
  | zero => intro a _ _ _; simp [Chain]
  | succ m ih =>
    intro a ha hl ht
    rw [List.range_succ_eq_map, List.map_cons, List.map_map]
    simp only [Nat.succ_ne_zero, if_false, zero_mul, add_zero]
    refine ⟨rfl, by omega, ?_⟩
    have hfun : ((fun j => a + j * size) ∘ Nat.succ) = (fun j => (a + size) + j * size) := by
      funext j
      simp only [Function.comp, Nat.succ_mul]
      omega
    rw [hfun]
    have hstart : heap a = if m = 0 then t else a + size := by
      by_cases hm : m = 0
      · subst hm
        simpa using ht (by omega)
      · rw [if_neg hm]
        have := hl 0 (by omega)
        simpa using this
    rw [hstart]
    apply ih (a + size) (by omega)
    · intro j hj
      have := hl (j + 1) (by omega)
      rw [show a + size + j * size = a + (j + 1) * size by rw [Nat.succ_mul]; omega,
        show a + size + (j + 1) * size = a + (j + 1 + 1) * size by
          rw [Nat.succ_mul (j + 1)]; omega]
      exact this
    · intro hm
      have := ht (by omega)
      rw [show a + size + (m - 1) * size = a + (m + 1 - 1) * size by
        have : m + 1 - 1 = (m - 1) + 1 := by omega
        rw [this, Nat.succ_mul]; omega]
      exact this

theorem refill_nodes_eq (c size n : Nat) :
    refill_nodes c size n = (List.range (n - 1)).map (fun j => (c + size) + j * size) := by
  unfold refill_nodes
  apply List.map_congr_left
  intro j _
  rw [Nat.succ_mul]; omega

theorem mem_refill_nodes (c size n x : Nat) :
    x ∈ refill_nodes c size n ↔ ∃ j, 1 ≤ j ∧ j < n ∧ x = c + j * size := by
  unfold refill_nodes
  simp only [List.mem_map, List.mem_range]
  constructor
  · rintro ⟨j, hj, rfl⟩
    exact ⟨j + 1, by omega, by omega, rfl⟩
  · rintro ⟨j, h1, h2, rfl⟩
    exact ⟨j - 1, by omega, by rw [show j - 1 + 1 = j by omega]⟩

/-- The links that start `LINK_BYTES` bytes or further from every node it threads are
left by `refill` as they were. -/
theorem refill_heap_frame (heap : Nat → Nat) (c size n x : Nat) (hn : 2 ≤ n)
    (hx : ∀ y ∈ refill_nodes c size n, x + LINK_BYTES ≤ y ∨ y + LINK_BYTES ≤ x) :
    refill_heap heap c size n x = heap x := by
  unfold refill_heap
  rw [refill_link_fst]
  have hlast : x + LINK_BYTES ≤ c + size + (n - 2) * size ∨
      c + size + (n - 2) * size + LINK_BYTES ≤ x := by
    apply hx
    rw [mem_refill_nodes]
    refine ⟨n - 1, by omega, by omega, ?_⟩
    rw [show n - 1 = (n - 2) + 1 by omega, Nat.succ_mul]; omega
  rw [store_link_apart _ _ _ _ hlast, refill_link_frame]
  intro j hj
  apply hx
  rw [mem_refill_nodes]
  exact ⟨j + 1, by omega, by omega, by rw [Nat.succ_mul]; omega⟩

/-- After `refill` the new head starts the chain of the threaded nodes, ended by null,
when a node has room for a link. -/
theorem refill_heap_chain (heap : Nat → Nat) (c size n : Nat) (hn : 2 ≤ n)
    (hs : LINK_BYTES ≤ size) :
    Chain (refill_heap heap c size n) (c + size) (refill_nodes c size n) 0 := by
  have hs0 : 0 < size := by unfold LINK_BYTES at hs; omega
  rw [refill_nodes_eq]
  have key := Chain_arith (refill_heap heap c size n) size 0 hs0 (n - 1) (c + size) (by omega)
  rw [if_neg (by omega)] at key
  apply key
  · intro j hj
    unfold refill_heap
    rw [refill_link_fst]
    have hlt : j + 1 ≤ n - 2 := by omega
    have hmul : (j + 1) * size ≤ (n - 2) * size := Nat.mul_le_mul_right _ hlt
    rw [Nat.succ_mul] at hmul
    rw [store_link_apart _ _ _ _ (Or.inl (by omega)),
      refill_link_node size hs _ _ _ j (by omega)]
  · intro _
    unfold refill_heap
    rw [refill_link_fst, show n - 1 - 1 = n - 2 by omega, store_link_same]

/-- The outcome of `chunk_alloc`, the final `nobjs` and the history it leaves depend on
the state through the history of the system allocator only. -/
theorem chunk_alloc_congr (M : Malloc) (size : Nat) (n : Nat) :
    ∀ (nobjs : Int) (s t : State), nobjs.toNat ≤ n → s.sys = t.sys →
      (chunk_alloc M s size nobjs).1 = (chunk_alloc M t size nobjs).1 ∧
        (chunk_alloc M s size nobjs).2.1 = (chunk_alloc M t size nobjs).2.1 ∧
        (chunk_alloc M s size nobjs).2.2.sys = (chunk_alloc M t size nobjs).2.2.sys := by
  induction n with
  | zero =>
    intro nobjs s t hn hst
    have h1 : ¬ (1 < nobjs) := by omega
    rw [chunk_alloc_unfold M s, chunk_alloc_unfold M t, hst]
    simp only [sys_malloc, hst, if_neg h1]
    split <;> simp
  | succ n ih =>
    intro nobjs s t hn hst
    rw [chunk_alloc_unfold M s, chunk_alloc_unfold M t, hst]
    by_cases hr : M t.sys (total_bytes size nobjs) = 0
    · by_cases h1 : 1 < nobjs
      · have h2 : Int.tdiv nobjs 2 = nobjs / 2 := Int.tdiv_eq_ediv (by omega) (by omega)
        rw [if_pos hr, if_pos h1, if_pos hr, if_pos h1]
        apply ih
        · rw [h2]; omega
        · simp [sys_malloc, hst]
      · simp [sys_malloc, hst, hr, h1]
    · simp [hr]

/-- The outcome of `refill` depends on the state through the history of the system
allocator only. -/
theorem refill_fst_congr (M : Malloc) (s t : State) (size : Nat) (hst : s.sys = t.sys) :
    (refill M s size).1 = (refill M t size).1 := by
  obtain ⟨h1, h2, _⟩ := chunk_alloc_congr M size 20 20 s t (by decide) hst
  unfold refill
  generalize chunk_alloc M s size 20 = rs at h1 h2
  generalize chunk_alloc M t size 20 = rt at h1 h2
  obtain ⟨o, n1, s1⟩ := rs
  obtain ⟨o2, n2, s2⟩ := rt
  simp only at h1 h2
  subst h1 h2
  cases o with
  | ok c =>
    simp only
    by_cases hn : n1 = 1
    · simp [hn]
    · simp only [hn, if_false]
      split <;> rfl
  | bad_alloc => rfl
  | out_of_range => rfl

/-- When the first request is granted, `refill` returns the granted block. -/
theorem refill_granted (M : Malloc) (s : State) (size : Nat)
    (h : M s.sys (total_bytes size 20) ≠ 0) (hi : free_list_index size < NFREELISTS) :
    refill M s size =
      (Outcome.ok (M s.sys (total_bytes size 20)),
        { free_lists :=
            Function.update s.free_lists ⟨free_list_index size, hi⟩
              (M s.sys (total_bytes size 20) + size)
          memory_chunks := s.memory_chunks ++ [M s.sys (total_bytes size 20)]
          heap := refill_heap s.heap (M s.sys (total_bytes size 20)) size 20
          sys := s.sys ++
            [SysCall.malloc (total_bytes size 20) (M s.sys (total_bytes size 20))] }) := by
  unfold refill
  rw [chunk_alloc_unfold, if_neg h]
  simp [dif_pos hi, refill_heap]

/-- Whatever the state and the request, `allocate_impl` does not return null: it returns
a non-null address, throws `std::bad_alloc`, or (only for zero bytes on the pool path)
subscripts `free_lists` out of range. -/
theorem allocate_impl_cases (M : Malloc) (s : State) (bytes alignment : Nat) :
    ((∃ a, a ≠ 0 ∧ (allocate_impl M s bytes alignment).1 = Outcome.ok a) ∨
        (allocate_impl M s bytes alignment).1 = Outcome.bad_alloc) ∨
      (bytes = 0 ∧ alignment ≤ ALIGN ∧
        allocate_impl M s bytes alignment = (Outcome.out_of_range, s)) := by
  by_cases h : MAX_BYTES < bytes ∨ ALIGN < alignment
  · left
    rw [allocate_impl_large M s bytes alignment h]
    by_cases hr : M s.sys bytes = 0
    · right; simp [hr]
    · left; exact ⟨_, hr, by simp [hr]⟩
  · by_cases hb : bytes = 0
    · right
      subst hb
      refine ⟨rfl, by omega, ?_⟩
      apply allocate_impl_out_of_range M s 0 alignment h
      decide
    · left
      obtain ⟨_, hi, _, _⟩ := small_class bytes (by omega) (by omega)
      by_cases hh : s.free_lists ⟨free_list_index (round_up bytes), hi⟩ = 0
      · rw [allocate_impl_refill M s bytes alignment h hi hh]
        obtain ⟨fails, _, hc | ⟨c, n, hc, _, _, _, hr⟩⟩ := refill_spec M s (round_up bytes) hi
        · right; rw [hc]
        · left; exact ⟨c, hc, by rw [hr]⟩
      · rw [allocate_impl_pop M s bytes alignment h hi hh]
        left; exact ⟨_, hh, rfl⟩

/-- Deallocating a block and then allocating from the same size class returns it. -/
theorem deallocate_then_allocate (M : Malloc) (s : State) (p b1 b2 k1 k2 : Nat)
    (hp : p ≠ 0) (h1 : 1 ≤ b1) (h1m : b1 ≤ MAX_BYTES) (h2 : 1 ≤ b2) (h2m : b2 ≤ MAX_BYTES)
    (hk1 : k1 ≤ ALIGN) (hk2 : k2 ≤ ALIGN) (hr : round_up b1 = round_up b2) :
    (allocate_impl M (deallocate_impl s p b1 k1).2 b2 k2).1 = Outcome.ok p := by
  obtain ⟨_, hi1, _, _⟩ := small_class b1 h1 h1m
  obtain ⟨_, hi2, _, _⟩ := small_class b2 h2 h2m
  rw [deallocate_impl_small s p b1 k1 hp (by omega) hi1]
  have hfin : (⟨free_list_index (round_up b2), hi2⟩ : Fin NFREELISTS) =
      ⟨free_list_index (round_up b1), hi1⟩ := Fin.ext (by simp only [hr])
  have hh : Function.update s.free_lists ⟨free_list_index (round_up b1), hi1⟩ p
      ⟨free_list_index (round_up b2), hi2⟩ = p := by
    rw [hfin, Function.update_same]
  rw [allocate_impl_pop M _ b2 k2 (by omega) hi2 (by simp only [hh]; exact hp)]
  simp only [hh]

/-- Deallocating into one size class does not change what an allocation from another
size class returns. -/
theorem deallocate_other_class (M : Malloc) (s : State) (p b1 b2 k1 k2 : Nat)
    (h1 : 1 ≤ b1) (h1m : b1 ≤ MAX_BYTES) (h2 : 1 ≤ b2) (h2m : b2 ≤ MAX_BYTES)
    (hk1 : k1 ≤ ALIGN) (hk2 : k2 ≤ ALIGN) (hr : round_up b1 ≠ round_up b2) :
    (allocate_impl M (deallocate_impl s p b1 k1).2 b2 k2).1 =
      (allocate_impl M s b2 k2).1 := by
  by_cases hp : p = 0
  · subst hp
    rw [deallocate_impl_null]
  obtain ⟨_, hi1, e1, _⟩ := small_class b1 h1 h1m
  obtain ⟨_, hi2, e2, _⟩ := small_class b2 h2 h2m
  have hne : (⟨free_list_index (round_up b2), hi2⟩ : Fin NFREELISTS) ≠
      ⟨free_list_index (round_up b1), hi1⟩ := by
    intro e
    have := congrArg Fin.val e
    simp only at this
    apply hr
    rw [e1, e2, this]
  rw [deallocate_impl_small s p b1 k1 hp (by omega) hi1]
  have hh : Function.update s.free_lists ⟨free_list_index (round_up b1), hi1⟩ p
      ⟨free_list_index (round_up b2), hi2⟩ =
        s.free_lists ⟨free_list_index (round_up b2), hi2⟩ := Function.update_noteq hne _ _
  by_cases h0 : s.free_lists ⟨free_list_index (round_up b2), hi2⟩ = 0
  · rw [allocate_impl_refill M _ b2 k2 (by omega) hi2 (by simp only [hh]; exact h0),
      allocate_impl_refill M s b2 k2 (by omega) hi2 h0]
    exact refill_fst_congr M _ _ _ rfl
  · rw [allocate_impl_pop M _ b2 k2 (by omega) hi2 (by simp only [hh]; exact h0),
      allocate_impl_pop M s b2 k2 (by omega) hi2 h0]
    simp only [hh]

/-! ## Reuse, routing and the paths of `allocate_impl` -/

/-- C3 (size-class routing): for a block at the non-null address `p`, sizes `b1`, `b2`
in `1 .. MAX_BYTES` and alignments up to `ALIGN`, `deallocate_impl(p, b1, _)` followed by
`allocate_impl(b2, _)` returns `p` when the two sizes round up to the same size (a 9-byte
block freed is returned by the next 16-byte allocation); when the round-ups differ, the
deallocation does not change what the allocation returns. -/
theorem size_class_routing (M : Malloc) (s : State) (p b1 b2 k1 k2 : Nat) (hp : p ≠ 0)
    (h1 : 1 ≤ b1) (h1m : b1 ≤ MAX_BYTES) (h2 : 1 ≤ b2) (h2m : b2 ≤ MAX_BYTES)
    (hk1 : k1 ≤ ALIGN) (hk2 : k2 ≤ ALIGN) :
    (round_up b1 = round_up b2 →
        (allocate_impl M (deallocate_impl s p b1 k1).2 b2 k2).1 = Outcome.ok p) ∧
      (round_up b1 ≠ round_up b2 →
        (allocate_impl M (deallocate_impl s p b1 k1).2 b2 k2).1 =
          (allocate_impl M s b2 k2).1) :=
  ⟨deallocate_then_allocate M s p b1 b2 k1 k2 hp h1 h1m h2 h2m hk1 hk2,
    deallocate_other_class M s p b1 b2 k1 k2 h1 h1m h2 h2m hk1 hk2⟩

/-- Witness of C3: a 9-byte block at 4096 freed on a fresh resource is returned by the
next 16-byte allocation, and leaves what the next 32-byte allocation returns as it
was. -/
theorem size_class_routing_witness :
    (4096 ≠ 0 ∧ 1 ≤ 9 ∧ 9 ≤ MAX_BYTES ∧ 1 ≤ 16 ∧ 16 ≤ MAX_BYTES ∧ 1 ≤ 32 ∧ 32 ≤ MAX_BYTES ∧
        8 ≤ ALIGN ∧ round_up 9 = round_up 16 ∧ round_up 9 ≠ round_up 32) ∧
      (allocate_impl malloc_refuses (deallocate_impl fresh 4096 9 8).2 16 8).1 =
        Outcome.ok 4096 ∧
      (allocate_impl malloc_refuses (deallocate_impl fresh 4096 9 8).2 32 8).1 =
        (allocate_impl malloc_refuses fresh 32 8).1 :=
  ⟨by decide,
    (size_class_routing malloc_refuses fresh 4096 9 16 8 8 (by decide) (by decide) (by decide)
      (by decide) (by decide) (by decide) (by decide)).1 (by decide),
    (size_class_routing malloc_refuses fresh 4096 9 32 8 8 (by decide) (by decide) (by decide)
      (by decide) (by decide) (by decide) (by decide)).2 (by decide)⟩

/-- C4 (zero-byte allocations): `round_up(0)` is 0 and not `ALIGN`, the free-list index
of the request wraps around to `SIZE_MOD - 1` instead of being 0, and so for every
state and every alignment up to `ALIGN` the call `allocate_impl(0, k)` subscripts
`free_lists` out of range: it neither pops the head of list 0 nor refills it. -/
theorem zero_byte_allocation_out_of_range :
    round_up 0 = 0 ∧ free_list_index (round_up 0) = SIZE_MOD - 1 ∧
      ¬ free_list_index (round_up 0) < NFREELISTS ∧
      ∀ (M : Malloc) (s : State) (k : Fin 9),
        allocate_impl M s 0 k = (Outcome.out_of_range, s) := by
  refine ⟨by decide, by decide, by decide, ?_⟩
  intro M s k
  apply allocate_impl_out_of_range
  · have := k.isLt
    simp only [MAX_BYTES, ALIGN]
    omega
  · decide

/-- C5 (over-aligned requests): with a system allocator whose blocks are aligned to 16,
`allocate_impl(64, 64)` on a fresh resource returns the block of `std::malloc(64)` as
it is, at 4112, which is not a multiple of 64; likewise `allocate_impl(256, 32)`
returns 4112, which is not a multiple of 32. -/
theorem over_aligned_request_misaligned :
    (∀ tr n, malloc_4112 tr n % 16 = 0) ∧
      (allocate_impl malloc_4112 fresh 64 64).1 = Outcome.ok 4112 ∧ 4112 % 64 ≠ 0 ∧
      (allocate_impl malloc_4112 fresh 256 32).1 = Outcome.ok 4112 ∧ 4112 % 32 ≠ 0 := by
  refine ⟨by intro tr n; unfold malloc_4112; rfl, by decide, by decide, by decide, by decide⟩

/-- C9 (large-object allocation path): whenever `bytes > MAX_BYTES` or
`alignment > ALIGN`, `allocate_impl` makes exactly one request to the system allocator,
for `bytes` bytes, returns the pointer it obtained (and throws `std::bad_alloc` when
the request is refused), and leaves the registry, the free-list heads and the memory
unchanged. -/
theorem large_allocation_path (M : Malloc) (s : State) (bytes alignment : Nat)
    (h : MAX_BYTES < bytes ∨ ALIGN < alignment) :
    (allocate_impl M s bytes alignment).1 =
        (if M s.sys bytes = 0 then Outcome.bad_alloc else Outcome.ok (M s.sys bytes)) ∧
      (allocate_impl M s bytes alignment).2.sys =
        s.sys ++ [SysCall.malloc bytes (M s.sys bytes)] ∧
      (allocate_impl M s bytes alignment).2.memory_chunks = s.memory_chunks ∧
      (allocate_impl M s bytes alignment).2.free_lists = s.free_lists ∧
      (allocate_impl M s bytes alignment).2.heap = s.heap := by
  rw [allocate_impl_large M s bytes alignment h]
  exact ⟨rfl, rfl, rfl, rfl, rfl⟩

/-- Witness of C9: `allocate_impl(1024, 8)` on a fresh resource. -/
theorem large_allocation_path_witness :
    (MAX_BYTES < 1024 ∨ ALIGN < 8) ∧
      (allocate_impl malloc_4096 fresh 1024 8).1 =
        (if malloc_4096 fresh.sys 1024 = 0 then Outcome.bad_alloc
          else Outcome.ok (malloc_4096 fresh.sys 1024)) ∧
      (allocate_impl malloc_4096 fresh 1024 8).2.sys =
        fresh.sys ++ [SysCall.malloc 1024 (malloc_4096 fresh.sys 1024)] ∧
      (allocate_impl malloc_4096 fresh 1024 8).2.memory_chunks = fresh.memory_chunks ∧
      (allocate_impl malloc_4096 fresh 1024 8).2.free_lists = fresh.free_lists ∧
      (allocate_impl malloc_4096 fresh 1024 8).2.heap = fresh.heap :=
  ⟨by decide, large_allocation_path malloc_4096 fresh 1024 8 (by decide)⟩

/-! ## Order within a size class and the number of refills -/

theorem Chain_append (heap : Nat → Nat) :
    ∀ (xs ys : List Nat) (h m t : Nat), Chain heap h xs m → Chain heap m ys t →
      Chain heap h (xs ++ ys) t := by
  intro xs
  induction xs with
  | nil =>
    intro ys h m t h1 h2
    have e : h = m := h1
    subst e
    exact h2
  | cons x xs ih =>
    intro ys h m t h1 h2
    obtain ⟨e, hx, hc⟩ := h1
    exact ⟨e, hx, ih ys _ m t hc h2⟩

/-- Deallocating into one size class a list of blocks whose links do not share a byte
pushes them one on top of the other above the former head. -/
theorem deallocate_all_spec (b : Nat) (hi : free_list_index (round_up b) < NFREELISTS)
    (hb : ¬ (MAX_BYTES < b)) :
    ∀ (ps : List (Nat × Nat)) (s : State), (∀ q ∈ ps, q.1 ≠ 0 ∧ q.2 ≤ ALIGN) →
      (ps.map Prod.fst).Pairwise (fun p q => p + LINK_BYTES ≤ q ∨ q + LINK_BYTES ≤ p) →
      (deallocate_all s b ps).1 = Outcome.ok () ∧
        Chain (deallocate_all s b ps).2.heap
          ((deallocate_all s b ps).2.free_lists ⟨free_list_index (round_up b), hi⟩)
          (ps.map Prod.fst).reverse (s.free_lists ⟨free_list_index (round_up b), hi⟩) ∧
        (∀ x, (∀ p ∈ ps.map Prod.fst, x + LINK_BYTES ≤ p ∨ p + LINK_BYTES ≤ x) →
          (deallocate_all s b ps).2.heap x = s.heap x) := by
  intro ps
  induction ps with
  | nil =>
    intro s _ _
    exact ⟨rfl, rfl, fun _ _ => rfl⟩
  | cons q ps ih =>
    intro s hq hnd
    obtain ⟨hq0, hqk⟩ := hq q (List.mem_cons_self _ _)
    have hstep := deallocate_impl_small s q.1 b q.2 hq0 (by omega) hi
    rw [List.map_cons, List.pairwise_cons] at hnd
    have hunf : deallocate_all s b (q :: ps) =
        deallocate_all (deallocate_impl s q.1 b q.2).2 b ps := by
      rw [deallocate_all, hstep]
    rw [hunf]
    obtain ⟨h1, h2, h3⟩ := ih (deallocate_impl s q.1 b q.2).2
      (fun r hr => hq r (List.mem_cons_of_mem _ hr)) hnd.2
    refine ⟨h1, ?_, ?_⟩
    · rw [List.map_cons, List.reverse_cons]
      apply Chain_append _ _ _ _ q.1 _
      · have hhead : (deallocate_impl s q.1 b q.2).2.free_lists
            ⟨free_list_index (round_up b), hi⟩ = q.1 := by
          rw [hstep]
          dsimp only
          rw [Function.update_same]
        rw [hhead] at h2
        exact h2
      · refine ⟨rfl, hq0, ?_⟩
        rw [h3 q.1 hnd.1, hstep]
        simp [Chain, store_link_same]
    · intro x hx
      have hx0 := hx q.1 (by simp)
      rw [h3 x (fun p hp => hx p (by rw [List.map_cons]; exact List.mem_cons_of_mem _ hp)),
        hstep]
      exact store_link_apart _ _ _ _ hx0

/-- Allocating along a chain of free nodes returns the nodes from the head onwards. -/
theorem allocate_all_chain (M : Malloc) (b t : Nat)
    (hi : free_list_index (round_up b) < NFREELISTS) (hb : ¬ (MAX_BYTES < b)) :
    ∀ (xs : List Nat) (s : State) (ks : List Nat),
      Chain s.heap (s.free_lists ⟨free_list_index (round_up b), hi⟩) xs t →
      ks.length = xs.length → (∀ k ∈ ks, k ≤ ALIGN) →
      (allocate_all M s b ks).1 = xs.map Outcome.ok := by
  intro xs
  induction xs with
  | nil =>
    intro s ks _ hl _
    have : ks = [] := List.length_eq_zero.mp hl
    subst this
    rfl
  | cons x xs ih =>
    intro s ks hc hl hk
    cases ks with
    | nil => simp at hl
    | cons k ks =>
      obtain ⟨e, hx, hc⟩ := hc
      have hstep := allocate_impl_pop M s b k (by have := hk k (List.mem_cons_self _ _); omega)
        hi (by rw [e]; exact hx)
      rw [allocate_all, hstep, List.map_cons]
      simp only
      rw [e, ih _ ks (by simpa [e] using hc) (by simpa using hl)
        (fun k1 h1 => hk k1 (List.mem_cons_of_mem _ h1))]

/-- With a system allocator that never refuses, allocations from one size class add one
chunk each time the free list is found empty, that is every twentieth allocation. -/
theorem allocate_all_chunks (M : Malloc) (b : Nat) (hM : ∀ tr n, M tr n ≠ 0)
    (h1 : 1 ≤ b) (h2 : b ≤ MAX_BYTES) (hi : free_list_index (round_up b) < NFREELISTS) :
    ∀ (ks : List Nat) (s : State) (xs : List Nat), (∀ k ∈ ks, k ≤ ALIGN) →
      Chain s.heap (s.free_lists ⟨free_list_index (round_up b), hi⟩) xs 0 →
      xs.length ≤ 19 →
      (allocate_all M s b ks).2.memory_chunks.length =
          s.memory_chunks.length + (ks.length + 19 - xs.length) / 20 ∧
        ∀ o ∈ (allocate_all M s b ks).1, ∃ a, a ≠ 0 ∧ o = Outcome.ok a := by
  intro ks
  induction ks with
  | nil =>
    intro s xs _ _ hx
    refine ⟨?_, by simp [allocate_all]⟩
    simp only [allocate_all, List.length_nil]
    omega
  | cons k ks ih =>
    intro s xs hk hc hx
    have hk8 : k ≤ ALIGN := hk k (List.mem_cons_self _ _)
    have hks : ∀ k1 ∈ ks, k1 ≤ ALIGN := fun k1 h => hk k1 (List.mem_cons_of_mem _ h)
    have hsmall : ¬ (MAX_BYTES < b ∨ ALIGN < k) := by omega
    cases xs with
    | nil =>
      have h0 : s.free_lists ⟨free_list_index (round_up b), hi⟩ = 0 := hc
      have hsize : LINK_BYTES ≤ round_up b := by
        have := (small_class b h1 h2).2.2.1
        unfold LINK_BYTES
        omega
      have hstep : allocate_impl M s b k = _ :=
        (allocate_impl_refill M s b k hsmall hi h0).trans
          (refill_granted M s (round_up b) (hM _ _) hi)
      obtain ⟨ih1, ih2⟩ := ih (allocate_impl M s b k).2
        (refill_nodes (M s.sys (total_bytes (round_up b) 20)) (round_up b) 20) hks
        (by
          rw [hstep]
          simp only [Function.update_same]
          exact refill_heap_chain _ _ _ 20 (by decide) hsize)
        (by simp [refill_nodes])
      constructor
      · simp only [allocate_all]
        rw [ih1, hstep]
        simp only [refill_nodes, List.length_map, List.length_range, List.length_append,
          List.length_cons, List.length_nil]
        omega
      · intro o ho
        simp only [allocate_all, List.mem_cons] at ho
        rcases ho with rfl | ho
        · rw [hstep]
          exact ⟨_, hM _ _, rfl⟩
        · exact ih2 o ho
    | cons x xs =>
      obtain ⟨e, hx0, hc⟩ := hc
      have hstep := allocate_impl_pop M s b k hsmall hi (by rw [e]; exact hx0)
      obtain ⟨ih1, ih2⟩ := ih (allocate_impl M s b k).2 xs hks
        (by
          rw [hstep]
          simp only [Function.update_same]
          rw [e]
          exact hc)
        (by simp only [List.length_cons] at hx; omega)
      constructor
      · simp only [allocate_all]
        rw [ih1, hstep]
        simp only [List.length_cons] at hx ⊢
        omega
      · intro o ho
        simp only [allocate_all, List.mem_cons] at ho
        rcases ho with rfl | ho
        · rw [hstep]
          exact ⟨_, by rw [e]; exact hx0, rfl⟩
        · exact ih2 o ho

/-- Deallocating two non-null blocks into one size class, whatever their addresses,
leaves the second on top of the first at the head of the list. -/
theorem deallocate_two_chain (s : State) (b : Nat)
    (hi : free_list_index (round_up b) < NFREELISTS) (hb : ¬ (MAX_BYTES < b))
    (q1 q2 : Nat × Nat) (h1 : q1.1 ≠ 0 ∧ q1.2 ≤ ALIGN) (h2 : q2.1 ≠ 0 ∧ q2.2 ≤ ALIGN) :
    (deallocate_all s b [q1, q2]).1 = Outcome.ok () ∧
      ∃ t, Chain (deallocate_all s b [q1, q2]).2.heap
        ((deallocate_all s b [q1, q2]).2.free_lists ⟨free_list_index (round_up b), hi⟩)
        [q2.1, q1.1] t := by
  have e1 := deallocate_impl_small s q1.1 b q1.2 h1.1 (by omega) hi
  have e2 := deallocate_impl_small (deallocate_impl s q1.1 b q1.2).2 q2.1 b q2.2 h2.1
    (by omega) hi
  have hunf1 : deallocate_all s b [q1, q2] =
      deallocate_all (deallocate_impl s q1.1 b q1.2).2 b [q2] := by
    rw [deallocate_all, e1]
  have hunf : deallocate_all s b [q1, q2] =
      (Outcome.ok (), (deallocate_impl (deallocate_impl s q1.1 b q1.2).2 q2.1 b q2.2).2) := by
    rw [hunf1, deallocate_all, e2]
    rfl
  rw [hunf]
  refine ⟨rfl,
    (deallocate_impl (deallocate_impl s q1.1 b q1.2).2 q2.1 b q2.2).2.heap q1.1, ?_⟩
  have f1 : (deallocate_impl s q1.1 b q1.2).2.free_lists
      ⟨free_list_index (round_up b), hi⟩ = q1.1 := by
    rw [e1]
    dsimp only
    rw [Function.update_same]
  generalize (deallocate_impl s q1.1 b q1.2).2 = s1 at e2 f1 ⊢
  have f2 : (deallocate_impl s1 q2.1 b q2.2).2.free_lists
      ⟨free_list_index (round_up b), hi⟩ = q2.1 := by
    rw [e2]
    dsimp only
    rw [Function.update_same]
  have f3 : (deallocate_impl s1 q2.1 b q2.2).2.heap q2.1 =
      s1.free_lists ⟨free_list_index (round_up b), hi⟩ := by
    rw [e2]
    dsimp only
    rw [store_link_same]
  exact ⟨f2, h2.1, f3.trans f1, h1.1, rfl⟩

/-- C2 (LIFO order within a size class): for a size `b` in `1 .. MAX_BYTES` and non-null
addresses of which any two are `LINK_BYTES` bytes or more apart, so that the links of
two blocks share no byte, or for any two non-null addresses, deallocating them in the
order of the list `ps` (each with size `b` and an alignment up to `ALIGN`) and then
allocating as many times with size `b` returns them in the reverse order: the last one
deallocated first. -/
theorem lifo_order (M : Malloc) (s : State) (b : Nat) (ps : List (Nat × Nat))
    (ks : List Nat) (h1 : 1 ≤ b) (h2 : b ≤ MAX_BYTES)
    (hd : ps.length ≤ 2 ∨
      (ps.map Prod.fst).Pairwise (fun p q => p + LINK_BYTES ≤ q ∨ q + LINK_BYTES ≤ p))
    (hp : ∀ q ∈ ps, q.1 ≠ 0 ∧ q.2 ≤ ALIGN)
    (hl : ks.length = ps.length) (hk : ∀ k ∈ ks, k ≤ ALIGN) :
    (deallocate_all s b ps).1 = Outcome.ok () ∧
      (allocate_all M (deallocate_all s b ps).2 b ks).1 =
        (ps.map (fun q => Outcome.ok q.1)).reverse := by
  obtain ⟨_, hi, _, _⟩ := small_class b h1 h2
  have key : (deallocate_all s b ps).1 = Outcome.ok () ∧
      ∃ t, Chain (deallocate_all s b ps).2.heap
        ((deallocate_all s b ps).2.free_lists ⟨free_list_index (round_up b), hi⟩)
        (ps.map Prod.fst).reverse t := by
    have hpair : (ps.map Prod.fst).Pairwise
        (fun p q => p + LINK_BYTES ≤ q ∨ q + LINK_BYTES ≤ p) →
        (deallocate_all s b ps).1 = Outcome.ok () ∧
          ∃ t, Chain (deallocate_all s b ps).2.heap
            ((deallocate_all s b ps).2.free_lists ⟨free_list_index (round_up b), hi⟩)
            (ps.map Prod.fst).reverse t := by
      intro hpw
      obtain ⟨d1, d2, _⟩ := deallocate_all_spec b hi (by omega) ps s hp hpw
      exact ⟨d1, _, d2⟩
    rcases hd with hlen | hpw
    · match ps, hp, hlen, hpair with
      | [], _, _, hpair => exact hpair List.Pairwise.nil
      | [_], _, _, hpair => exact hpair (List.pairwise_singleton _ _)
      | [q1, q2], hp, _, _ =>
        exact deallocate_two_chain s b hi (by omega) q1 q2 (hp q1 (by simp)) (hp q2 (by simp))
      | _ :: _ :: _ :: _, _, hlen, _ => simp at hlen
    · exact hpair hpw
  obtain ⟨d1, t, d2⟩ := key
  refine ⟨d1, ?_⟩
  rw [allocate_all_chain M b _ hi (by omega) _ _ ks d2 (by simpa using hl) hk]
  simp [List.map_reverse]

/-- Witness of C2: three 16-byte blocks one after the other in memory. -/
theorem lifo_order_witness :
    (1 ≤ 16 ∧ 16 ≤ MAX_BYTES ∧
        ([(4096, 8), (4112, 8), (4128, 8)].length ≤ 2 ∨
          ([(4096, 8), (4112, 8), (4128, 8)].map Prod.fst).Pairwise
            (fun p q => p + LINK_BYTES ≤ q ∨ q + LINK_BYTES ≤ p)) ∧
        (∀ q ∈ [(4096, 8), (4112, 8), (4128, 8)], q.1 ≠ 0 ∧ q.2 ≤ ALIGN) ∧
        [8, 8, 8].length = [(4096, 8), (4112, 8), (4128, 8)].length ∧
        ∀ k ∈ [8, 8, 8], k ≤ ALIGN) ∧
      (deallocate_all fresh 16 [(4096, 8), (4112, 8), (4128, 8)]).1 = Outcome.ok () ∧
      (allocate_all malloc_refuses
          (deallocate_all fresh 16 [(4096, 8), (4112, 8), (4128, 8)]).2 16 [8, 8, 8]).1 =
        ([(4096, 8), (4112, 8), (4128, 8)].map (fun q => Outcome.ok q.1)).reverse :=
  ⟨by decide,
    lifo_order malloc_refuses fresh 16 [(4096, 8), (4112, 8), (4128, 8)] [8, 8, 8] (by decide)
      (by decide) (by decide) (by decide) (by decide) (by decide)⟩

/-- C2, the claim fails for links that share bytes: the three distinct non-null
addresses 8192, 4096 and 4100 are deallocated in this order as blocks of 8 bytes on a
fresh resource. The link stored at 4100 overwrites the upper half of the link stored at
4096, so the three allocations that follow return 4100, 4096 and then
`8192 + 4096 * 2 ^ 32`, not 8192. -/
theorem lifo_order_shared_bytes :
    (1 ≤ 8 ∧ 8 ≤ MAX_BYTES ∧ ([8192, 4096, 4100] : List Nat).Nodup ∧
        ∀ p ∈ ([8192, 4096, 4100] : List Nat), p ≠ 0) ∧
      (deallocate_all fresh 8 [(8192, 8), (4096, 8), (4100, 8)]).1 = Outcome.ok () ∧
      (allocate_all malloc_refuses
          (deallocate_all fresh 8 [(8192, 8), (4096, 8), (4100, 8)]).2 8 [8, 8, 8]).1 =
        [Outcome.ok 4100, Outcome.ok 4096, Outcome.ok (8192 + 4096 * 2 ^ 32)] ∧
      (allocate_all malloc_refuses
          (deallocate_all fresh 8 [(8192, 8), (4096, 8), (4100, 8)]).2 8 [8, 8, 8]).1 ≠
        ([(8192, 8), (4096, 8), (4100, 8)].map (fun q => Outcome.ok q.1)).reverse := by
  refine ⟨by decide, by decide, ?_, ?_⟩ <;> decide

/-- C10 (refill count): on a freshly constructed resource, with a system allocator that
never refuses, every one of `n` consecutive allocations of `b` bytes (`b` in
`1 .. MAX_BYTES`, alignments up to `ALIGN`, no deallocation) returns a block and the
registry then holds `ceil(n / 20)` chunks: one after 20 allocations, two after 21. -/
theorem refill_count (M : Malloc) (heap : Nat → Nat) (sys : List SysCall) (b : Nat)
    (ks : List Nat) (hM : ∀ tr n, M tr n ≠ 0) (h1 : 1 ≤ b) (h2 : b ≤ MAX_BYTES)
    (hk : ∀ k ∈ ks, k ≤ ALIGN) :
    (allocate_all M (State.init heap sys) b ks).2.memory_chunks.length =
        (ks.length + 19) / 20 ∧
      (∀ o ∈ (allocate_all M (State.init heap sys) b ks).1, ∃ a, a ≠ 0 ∧ o = Outcome.ok a) ∧
      (ks.length = 20 →
        (allocate_all M (State.init heap sys) b ks).2.memory_chunks.length = 1) ∧
      (ks.length = 21 →
        (allocate_all M (State.init heap sys) b ks).2.memory_chunks.length = 2) := by
  obtain ⟨_, hi, _, _⟩ := small_class b h1 h2
  obtain ⟨c1, c2⟩ := allocate_all_chunks M b hM h1 h2 hi ks (State.init heap sys) [] hk rfl
    (by simp)
  have hc : (allocate_all M (State.init heap sys) b ks).2.memory_chunks.length =
      (ks.length + 19) / 20 := by
    rw [c1]
    simp [State.init]
  refine ⟨hc, c2, ?_, ?_⟩
  · intro h; rw [hc, h]
  · intro h; rw [hc, h]

/-- Witness of C10: twenty-one allocations of 8 bytes on a fresh resource. -/
theorem refill_count_witness :
    ((∀ tr n, malloc_4096 tr n ≠ 0) ∧ 1 ≤ 8 ∧ 8 ≤ MAX_BYTES ∧
        ∀ k ∈ List.replicate 21 8, k ≤ ALIGN) ∧
      (allocate_all malloc_4096 (State.init (fun _ => 0) []) 8
          (List.replicate 21 8)).2.memory_chunks.length =
        ((List.replicate 21 8).length + 19) / 20 ∧
      (∀ o ∈ (allocate_all malloc_4096 (State.init (fun _ => 0) []) 8 (List.replicate 21 8)).1,
        ∃ a, a ≠ 0 ∧ o = Outcome.ok a) ∧
      ((List.replicate 21 8).length = 20 →
        (allocate_all malloc_4096 (State.init (fun _ => 0) []) 8
          (List.replicate 21 8)).2.memory_chunks.length = 1) ∧
      ((List.replicate 21 8).length = 21 →
        (allocate_all malloc_4096 (State.init (fun _ => 0) []) 8
          (List.replicate 21 8)).2.memory_chunks.length = 2) :=
  ⟨⟨by intro tr n; unfold malloc_4096; decide, by decide, by decide, by decide⟩,
    refill_count malloc_4096 (fun _ => 0) [] 8 (List.replicate 21 8)
      (by intro tr n; unfold malloc_4096; decide) (by decide) (by decide) (by decide)⟩

/-! ## Auxiliary facts on the pool path -/

/-- An allocation that throws leaves the heads, the registry and the memory as they were
and adds only refused requests to the history of the system allocator. -/
theorem allocate_throws_frame (M : Malloc) (s : State) (bytes alignment : Nat)
    (ha : (allocate_impl M s bytes alignment).1 = Outcome.bad_alloc) :
    ∃ fails : List SysCall, (∀ e ∈ fails, ∃ b, e = SysCall.malloc b 0) ∧
      (allocate_impl M s bytes alignment).2 = { s with sys := s.sys ++ fails } := by
  by_cases h : MAX_BYTES < bytes ∨ ALIGN < alignment
  · rw [allocate_impl_large M s bytes alignment h] at ha ⊢
    by_cases hr : M s.sys bytes = 0
    · refine ⟨[SysCall.malloc bytes 0], ?_, by simp only [hr]⟩
      intro e he
      exact ⟨_, List.mem_singleton.mp he⟩
    · simp [hr] at ha
  · by_cases hi : free_list_index (round_up bytes) < NFREELISTS
    · by_cases hh : s.free_lists ⟨free_list_index (round_up bytes), hi⟩ = 0
      · rw [allocate_impl_refill M s bytes alignment h hi hh] at ha ⊢
        obtain ⟨fails, hf, hc | ⟨c, n, _, _, _, _, hr⟩⟩ := refill_spec M s (round_up bytes) hi
        · exact ⟨fails, hf, by rw [hc]⟩
        · rw [hr] at ha; cases ha
      · rw [allocate_impl_pop M s bytes alignment h hi hh] at ha
        cases ha
    · rw [allocate_impl_out_of_range M s bytes alignment h hi] at ha
      cases ha

/-! ## Non-aliasing: the invariant of the pool -/

theorem outstanding_append_malloc (tr : List SysCall) (n r : Nat) :
    outstanding (tr ++ [SysCall.malloc n r]) =
      if r = 0 then outstanding tr else outstanding tr ++ [(r, n)] := by
  simp [outstanding, List.foldl_append, outstanding_step]

theorem outstanding_append_free (tr : List SysCall) (p : Nat) :
    outstanding (tr ++ [SysCall.free p]) =
      (outstanding tr).filter (fun b => decide (b.1 ≠ p)) := by
  simp [outstanding, List.foldl_append, outstanding_step]

theorem foldl_outstanding_fails :
    ∀ (fails : List SysCall) (acc : List (Nat × Nat)),
      (∀ e ∈ fails, ∃ b, e = SysCall.malloc b 0) →
      fails.foldl outstanding_step acc = acc := by
  intro fails
  induction fails with
  | nil => intro acc _; rfl
  | cons e fails ih =>
    intro acc h
    obtain ⟨b, rfl⟩ := h e (List.mem_cons_self _ _)
    rw [List.foldl_cons]
    simp only [outstanding_step, if_true]
    exact ih acc (fun e he => h e (List.mem_cons_of_mem _ he))

/-- Refused requests do not change the blocks handed out. -/
theorem outstanding_append_fails (tr fails : List SysCall)
    (h : ∀ e ∈ fails, ∃ b, e = SysCall.malloc b 0) :
    outstanding (tr ++ fails) = outstanding tr := by
  unfold outstanding
  rw [List.foldl_append]
  exact foldl_outstanding_fails fails _ h

theorem disjoint_ranges_symm (a n a1 n1 : Nat) (h : disjoint_ranges a n a1 n1) :
    disjoint_ranges a1 n1 a n := by
  unfold disjoint_ranges at *
  omega

theorem BlockSep_symm : Symmetric BlockSep := by
  intro u v h
  exact ⟨fun e => h.1 e.symm, disjoint_ranges_symm _ _ _ _ h.2⟩

/-- A piece of a block lies inside the block. -/
theorem Slot_inside (a n : Nat) (blk : Nat × Nat) (h : Slot a n blk) :
    blk.1 ≤ a ∧ a + n ≤ blk.1 + blk.2 := by
  obtain ⟨j, rfl, hj⟩ := h
  rw [Nat.succ_mul] at hj
  omega

/-- Ranges inside disjoint ranges are disjoint. -/
theorem disjoint_ranges_inside (a n a1 n1 b m b1 m1 : Nat) (h : disjoint_ranges b m b1 m1)
    (h1 : b ≤ a ∧ a + n ≤ b + m) (h2 : b1 ≤ a1 ∧ a1 + n1 ≤ b1 + m1) :
    disjoint_ranges a n a1 n1 := by
  unfold disjoint_ranges at *
  omega

theorem class_size_pos (i : Fin NFREELISTS) : LINK_BYTES ≤ class_size i := by
  simp only [class_size, ALIGN, LINK_BYTES]
  omega

/-- The node size of the class that serves a request of `1 .. MAX_BYTES` bytes. -/
theorem class_size_round_up (b : Nat) (h1 : 1 ≤ b) (h2 : b ≤ MAX_BYTES)
    (hi : free_list_index (round_up b) < NFREELISTS) :
    class_size ⟨free_list_index (round_up b), hi⟩ = round_up b := by
  obtain ⟨_, _, e, _⟩ := small_class b h1 h2
  simp only [class_size, ALIGN]
  omega

/-- In a list whose elements are pairwise related by a symmetric relation, an element
is related to every element that remains when it is erased once. -/
theorem pairwise_erase {α : Type} [DecidableEq α] (R : α → α → Prop) (hR : Symmetric R) :
    ∀ (L : List α) (l l1 : α), L.Pairwise R → l ∈ L → l1 ∈ L.erase l → R l l1 := by
  intro L
  induction L with
  | nil => intro l l1 _ h; cases h
  | cons a L ih =>
    intro l l1 hp hl hl1
    rw [List.pairwise_cons] at hp
    by_cases hal : a = l
    · subst hal
      rw [List.erase_cons_head] at hl1
      exact hp.1 l1 hl1
    · have hl2 : l ∈ L := by
        rcases List.mem_cons.mp hl with h | h
        · exact absurd h.symm hal
        · exact h
      rw [List.erase_cons_tail (by simpa using hal)] at hl1
      rcases List.mem_cons.mp hl1 with h | h
      · subst h
        exact hR (hp.1 l hl2)
      · exact ih l l1 hp.2 hl2 h

/-- The invariant looks at the state through the heads, the memory, the registry and
the blocks handed out by the system allocator. -/
theorem PoolInv_congr (s t : State) (L : List Live) (F : Fin NFREELISTS → List Nat)
    (C : List (Nat × Nat)) (h : PoolInv s L F C) (h1 : t.free_lists = s.free_lists)
    (h2 : t.heap = s.heap) (h3 : t.memory_chunks = s.memory_chunks)
    (h4 : outstanding t.sys = outstanding s.sys) : PoolInv t L F C := by
  refine ⟨?_, ?_, ?_, ?_, ?_, h.small, h.free, h.live, h.free_free, h.free_other,
    h.free_live, h.nonnull⟩
  · rw [h1, h2]; exact h.chain
  · rw [h4]; exact h.blocks
  · rw [h3]; exact h.registry
  · rw [h4]; exact h.chunks
  · rw [h4]; exact h.large

theorem Live.extent_small (l : Live) (h : ¬ l.large) : l.extent = round_up l.bytes := by
  unfold Live.extent
  exact if_neg h

theorem Live.extent_large (l : Live) (h : l.large) : l.extent = l.bytes := by
  unfold Live.extent
  exact if_pos h

/-- A chunk of the registry and the block of a live large allocation are apart. -/
theorem PoolInv.chunk_large {s : State} {L : List Live} {F : Fin NFREELISTS → List Nat}
    {C : List (Nat × Nat)} (h : PoolInv s L F C) (cb : Nat × Nat) (hcb : cb ∈ C)
    (l : Live) (hl : l ∈ L) (hlg : l.large) : BlockSep cb (l.addr, l.bytes) := by
  obtain ⟨h1, h2⟩ := h.large l hl hlg
  apply h.blocks.forall BlockSep_symm (h.chunks cb hcb) h1
  intro e
  exact h2 cb hcb (by rw [e])

/-- A piece of a chunk and a live large allocation do not overlap. -/
theorem PoolInv.slot_large {s : State} {L : List Live} {F : Fin NFREELISTS → List Nat}
    {C : List (Nat × Nat)} (h : PoolInv s L F C) (a n : Nat)
    (ha : ∃ cb ∈ C, Slot a n cb) (l : Live) (hl : l ∈ L) (hlg : l.large) :
    disjoint_ranges a n l.addr l.extent := by
  obtain ⟨cb, hcb, hslot⟩ := ha
  have hsep := (h.chunk_large cb hcb l hl hlg).2
  rw [Live.extent_large l hlg]
  exact disjoint_ranges_inside _ _ _ _ _ _ _ _ hsep (Slot_inside _ _ _ hslot)
    ⟨le_refl _, le_refl _⟩


/-- The invariant after an allocation on the large-object path that is granted. -/
theorem PoolInv_allocate_large (M : Malloc) (hM : ValidMalloc M) (s : State) (L : List Live)
    (F : Fin NFREELISTS → List Nat) (C : List (Nat × Nat)) (bytes alignment : Nat)
    (h : PoolInv s L F C) (hl : MAX_BYTES < bytes ∨ ALIGN < alignment)
    (hr : M s.sys bytes ≠ 0) :
    PoolInv { s with sys := s.sys ++ [SysCall.malloc bytes (M s.sys bytes)] }
      (⟨M s.sys bytes, bytes, alignment⟩ :: L) F C := by
  have hB : outstanding (s.sys ++ [SysCall.malloc bytes (M s.sys bytes)]) =
      outstanding s.sys ++ [(M s.sys bytes, bytes)] := by
    rw [outstanding_append_malloc, if_neg hr]
  have hv := hM s.sys bytes hr
  have hnew : (⟨M s.sys bytes, bytes, alignment⟩ : Live).large := hl
  refine ⟨h.chain, ?_, h.registry, ?_, ?_, ?_, h.free, ?_, h.free_free, h.free_other, ?_, ?_⟩
  · show (outstanding (s.sys ++ [SysCall.malloc bytes (M s.sys bytes)])).Pairwise BlockSep
    rw [hB, List.pairwise_append]
    refine ⟨h.blocks, List.pairwise_singleton _ _, ?_⟩
    intro u hu v hv1
    rw [List.mem_singleton] at hv1
    subst hv1
    exact BlockSep_symm (hv u hu)
  · intro cb hcb
    show cb ∈ outstanding (s.sys ++ [SysCall.malloc bytes (M s.sys bytes)])
    rw [hB]
    exact List.mem_append_left _ (h.chunks cb hcb)
  · intro l hlL hlg
    show (l.addr, l.bytes) ∈ outstanding (s.sys ++ [SysCall.malloc bytes (M s.sys bytes)]) ∧ _
    rw [hB]
    rcases List.mem_cons.mp hlL with rfl | hlL
    · refine ⟨List.mem_append_right _ (List.mem_singleton.mpr rfl), ?_⟩
      intro cb hcb e
      exact (hv cb (h.chunks cb hcb)).1 e.symm
    · exact ⟨List.mem_append_left _ (h.large l hlL hlg).1, (h.large l hlL hlg).2⟩
  · intro l hlL hls
    rcases List.mem_cons.mp hlL with rfl | hlL
    · exact absurd hnew hls
    · exact h.small l hlL hls
  · rw [List.pairwise_cons]
    refine ⟨?_, h.live⟩
    intro l1 hl1
    by_cases hlg : l1.large
    · have hsep := hv (l1.addr, l1.bytes) (h.large l1 hl1 hlg).1
      refine ⟨?_, fun _ _ => hsep.1⟩
      rw [Live.extent_large l1 hlg, Live.extent_large _ hnew]
      exact hsep.2
    · refine ⟨?_, fun _ h2 => absurd h2 hlg⟩
      obtain ⟨_, cb, hcb, hslot⟩ := h.small l1 hl1 hlg
      have hsep := hv cb (h.chunks cb hcb)
      rw [Live.extent_large _ hnew, Live.extent_small l1 hlg]
      exact disjoint_ranges_inside _ _ _ _ _ _ _ _ hsep.2 ⟨le_refl _, le_refl _⟩
        (Slot_inside _ _ _ hslot)
  · intro i x hx l hlL hls
    rcases List.mem_cons.mp hlL with rfl | hlL
    · exact absurd hnew hls
    · exact h.free_live i x hx l hlL hls
  · intro l hlL
    rcases List.mem_cons.mp hlL with rfl | hlL
    · exact hr
    · exact h.nonnull l hlL

/-- The invariant after a node is popped from a free list. -/
theorem PoolInv_pop (s : State) (L : List Live) (F : Fin NFREELISTS → List Nat)
    (C : List (Nat × Nat)) (i : Fin NFREELISTS) (bytes alignment : Nat)
    (h : PoolInv s L F C) (hsm : ¬ (MAX_BYTES < bytes ∨ ALIGN < alignment)) (hb : 1 ≤ bytes)
    (hcs : class_size i = round_up bytes) (hx : s.free_lists i ≠ 0) :
    PoolInv { s with
        free_lists := Function.update s.free_lists i (s.heap (s.free_lists i)) }
      (⟨s.free_lists i, bytes, alignment⟩ :: L) (Function.update F i (F i).tail) C := by
  have hnew : ¬ (⟨s.free_lists i, bytes, alignment⟩ : Live).large := hsm
  have hci := h.chain i
  cases hF : F i with
  | nil =>
    rw [hF] at hci
    exact absurd hci hx
  | cons x rest =>
    rw [hF] at hci
    obtain ⟨e, hx0, hrest⟩ := hci
    have hxF : x ∈ F i := by rw [hF]; exact List.mem_cons_self _ _
    have hmem : ∀ j, ∀ y ∈ Function.update F i (x :: rest).tail j, y ∈ F j := by
      intro j y hy
      by_cases hji : j = i
      · subst hji
        rw [Function.update_same] at hy
        rw [hF]
        exact List.mem_cons_of_mem _ hy
      · rw [Function.update_noteq hji] at hy
        exact hy
    have hff := h.free_free i
    rw [hF, List.pairwise_cons] at hff
    refine ⟨?_, h.blocks, h.registry, h.chunks, ?_, ?_, ?_, ?_, ?_, ?_, ?_, ?_⟩
    · intro j
      by_cases hji : j = i
      · subst hji
        simp only [Function.update_same, List.tail_cons]
        rw [e]
        exact hrest
      · simp only [Function.update_noteq hji]
        exact h.chain j
    · intro l hlL hlg
      rcases List.mem_cons.mp hlL with rfl | hlL
      · exact absurd hlg hnew
      · exact h.large l hlL hlg
    · intro l hlL hls
      rcases List.mem_cons.mp hlL with rfl | hlL
      · refine ⟨hb, ?_⟩
        obtain ⟨cb, hcb, hslot⟩ := h.free i x hxF
        refine ⟨cb, hcb, ?_⟩
        show Slot (s.free_lists i) (round_up bytes) cb
        rw [e, ← hcs]
        exact hslot
      · exact h.small l hlL hls
    · intro j y hy
      exact h.free j y (hmem j y hy)
    · rw [List.pairwise_cons]
      refine ⟨?_, h.live⟩
      intro l1 hl1
      refine ⟨?_, fun h1 _ => absurd h1 hnew⟩
      rw [Live.extent_small _ hnew]
      show disjoint_ranges (s.free_lists i) (round_up bytes) l1.addr l1.extent
      rw [e, ← hcs]
      by_cases hlg : l1.large
      · exact h.slot_large x (class_size i) (h.free i x hxF) l1 hl1 hlg
      · rw [Live.extent_small l1 hlg]
        exact h.free_live i x hxF l1 hl1 hlg
    · intro j
      by_cases hji : j = i
      · subst hji
        simp only [Function.update_same, List.tail_cons]
        exact hff.2
      · simp only [Function.update_noteq hji]
        exact h.free_free j
    · intro j k hjk y hy z hz
      exact h.free_other j k hjk y (hmem j y hy) z (hmem k z hz)
    · intro j y hy l hlL hls
      rcases List.mem_cons.mp hlL with rfl | hlL
      · show disjoint_ranges y (class_size j) (s.free_lists i) (round_up bytes)
        rw [e, ← hcs]
        by_cases hji : j = i
        · subst hji
          rw [Function.update_same] at hy
          exact disjoint_ranges_symm _ _ _ _ (hff.1 y hy)
        · rw [Function.update_noteq hji] at hy
          exact h.free_other j i hji y hy x hxF
      · exact h.free_live j y (hmem j y hy) l hlL hls
    · intro l hlL
      rcases List.mem_cons.mp hlL with rfl | hlL
      · show s.free_lists i ≠ 0
        exact hx
      · exact h.nonnull l hlL

theorem refill_nodes_pairwise (c size n : Nat) :
    (refill_nodes c size n).Pairwise (fun x y => disjoint_ranges x size y size) := by
  unfold refill_nodes
  rw [List.pairwise_map]
  apply (List.pairwise_lt_range (n - 1)).imp
  intro a b hab
  have h1 : (a + 1 + 1) * size ≤ (b + 1) * size := Nat.mul_le_mul_right _ (by omega)
  rw [Nat.succ_mul (a + 1)] at h1
  unfold disjoint_ranges
  omega

theorem refill_nodes_slot (c size n x : Nat) (hx : x ∈ refill_nodes c size n) :
    Slot x size (c, size * n) ∧ c + size ≤ x := by
  obtain ⟨j, h1, h2, rfl⟩ := (mem_refill_nodes _ _ _ _).mp hx
  have h3 : (j + 1) * size ≤ n * size := Nat.mul_le_mul_right _ (by omega)
  have h4 : 1 * size ≤ j * size := Nat.mul_le_mul_right _ h1
  refine ⟨⟨j, rfl, ?_⟩, by omega⟩
  rw [Nat.mul_comm size n]
  exact h3

/-- Two ranges of positive size that start at the same address overlap. -/
theorem disjoint_ranges_same (a n n1 : Nat) (h : disjoint_ranges a n a n1) (hn : 0 < n)
    (hn1 : 0 < n1) : False := by
  unfold disjoint_ranges at h
  omega

/-- The invariant after a refill that is granted a chunk of `n` objects. -/
theorem PoolInv_refill (M : Malloc) (hM : ValidMalloc M) (s : State) (L : List Live)
    (F : Fin NFREELISTS → List Nat) (C : List (Nat × Nat)) (i : Fin NFREELISTS)
    (bytes alignment c n : Nat) (fails : List SysCall) (h : PoolInv s L F C)
    (hsm : ¬ (MAX_BYTES < bytes ∨ ALIGN < alignment)) (hb : 1 ≤ bytes)
    (hcs : class_size i = round_up bytes) (hx : s.free_lists i = 0)
    (hf : ∀ e ∈ fails, ∃ b, e = SysCall.malloc b 0) (hc0 : c ≠ 0) (hn1 : 1 ≤ n)
    (hn20 : n ≤ 20) (hcM : c = M (s.sys ++ fails) (total_bytes (round_up bytes) (n : Int))) :
    PoolInv
      { free_lists :=
          if n = 1 then s.free_lists
          else Function.update s.free_lists i (c + round_up bytes)
        memory_chunks := s.memory_chunks ++ [c]
        heap := if n = 1 then s.heap else refill_heap s.heap c (round_up bytes) n
        sys := s.sys ++ fails ++ [SysCall.malloc (total_bytes (round_up bytes) (n : Int)) c] }
      (⟨c, bytes, alignment⟩ :: L) (Function.update F i (refill_nodes c (round_up bytes) n))
      (C ++ [(c, round_up bytes * n)]) := by
  have hnew : ¬ (⟨c, bytes, alignment⟩ : Live).large := hsm
  have hpos : 0 < round_up bytes := by
    have := class_size_pos i
    simp only [LINK_BYTES] at this
    omega
  have hpos8 : LINK_BYTES ≤ round_up bytes := by
    rw [← hcs]
    exact class_size_pos i
  have hle : round_up bytes ≤ MAX_BYTES := by
    rw [← hcs]
    have := i.isLt
    simp only [class_size, ALIGN, MAX_BYTES, NFREELISTS] at *
    omega
  have hT : total_bytes (round_up bytes) (n : Int) = round_up bytes * n :=
    total_bytes_small _ _ hle hn20
  rw [hT] at hcM ⊢
  have hB : outstanding (s.sys ++ fails ++ [SysCall.malloc (round_up bytes * n) c]) =
      outstanding s.sys ++ [(c, round_up bytes * n)] := by
    rw [outstanding_append_malloc, if_neg hc0, outstanding_append_fails _ _ hf]
  have hv : ∀ blk ∈ outstanding s.sys, BlockSep (c, round_up bytes * n) blk := by
    intro blk hblk
    have := hM (s.sys ++ fails) (round_up bytes * n) (by rw [← hcM]; exact hc0)
      blk (by rw [outstanding_append_fails _ _ hf]; exact hblk)
    rw [← hcM] at this
    exact this
  have hFi : F i = [] := by
    have hci := h.chain i
    cases hF : F i with
    | nil => rfl
    | cons x rest =>
      rw [hF] at hci
      exact absurd (hci.1.symm.trans hx) hci.2.1
  have hcslot : Slot c (round_up bytes) (c, round_up bytes * n) := by
    refine ⟨0, by simp, ?_⟩
    have := Nat.mul_le_mul_left (round_up bytes) hn1
    simpa using this
  have hold : ∀ a m a1 m1, (∃ cb ∈ C, Slot a m cb) → Slot a1 m1 (c, round_up bytes * n) →
      disjoint_ranges a m a1 m1 := by
    intro a m a1 m1 ⟨cb, hcb, hs1⟩ hs2
    have hsep := (hv cb (h.chunks cb hcb)).2
    exact disjoint_ranges_symm _ _ _ _
      (disjoint_ranges_inside _ _ _ _ _ _ _ _ hsep (Slot_inside _ _ _ hs2)
        (Slot_inside _ _ _ hs1))
  have hnotnode : ∀ j, ∀ y ∈ F j, y ∉ refill_nodes c (round_up bytes) n := by
    intro j y hy hyn
    have h1 := hold y (class_size j) y (round_up bytes) (h.free j y hy)
      (refill_nodes_slot _ _ _ _ hyn).1
    have := class_size_pos j
    simp only [LINK_BYTES] at this
    exact disjoint_ranges_same _ _ _ h1 (by omega) hpos
  have hFj : ∀ j, j ≠ i → Function.update F i (refill_nodes c (round_up bytes) n) j = F j :=
    fun j hj => Function.update_noteq hj _ _
  have hFii : Function.update F i (refill_nodes c (round_up bytes) n) i =
      refill_nodes c (round_up bytes) n := Function.update_same _ _ _
  refine ⟨?_, ?_, ?_, ?_, ?_, ?_, ?_, ?_, ?_, ?_, ?_, ?_⟩
  · intro j
    dsimp only
    by_cases hn : n = 1
    · subst hn
      simp only [if_true]
      by_cases hji : j = i
      · subst hji
        rw [hFii, hx]
        simp [refill_nodes, Chain]
      · rw [hFj j hji]
        exact h.chain j
    · simp only [hn, if_false]
      by_cases hji : j = i
      · subst hji
        rw [hFii, Function.update_same]
        exact refill_heap_chain _ _ _ _ (by omega) hpos8
      · rw [hFj j hji, Function.update_noteq hji]
        apply Chain_congr s.heap _ _ _ _ _ (h.chain j)
        intro y hy
        apply refill_heap_frame _ _ _ _ _ (by omega)
        intro z hz
        have h1 := hold y (class_size j) z (round_up bytes) (h.free j y hy)
          (refill_nodes_slot _ _ _ _ hz).1
        have h2 := class_size_pos j
        have h3 := class_size_pos i
        rw [hcs] at h3
        unfold disjoint_ranges at h1
        omega
  · show (outstanding (s.sys ++ fails ++ [SysCall.malloc (round_up bytes * n) c])).Pairwise
      BlockSep
    rw [hB, List.pairwise_append]
    refine ⟨h.blocks, List.pairwise_singleton _ _, ?_⟩
    intro u hu v hv1
    rw [List.mem_singleton] at hv1
    subst hv1
    exact BlockSep_symm (hv u hu)
  · show (C ++ [(c, round_up bytes * n)]).map Prod.fst = s.memory_chunks ++ [c]
    rw [List.map_append, h.registry]
    rfl
  · intro cb hcb
    show cb ∈ outstanding (s.sys ++ fails ++ [SysCall.malloc (round_up bytes * n) c])
    rw [hB]
    rcases List.mem_append.mp hcb with hcb | hcb
    · exact List.mem_append_left _ (h.chunks cb hcb)
    · exact List.mem_append_right _ hcb
  · intro l hlL hlg
    show (l.addr, l.bytes) ∈
      outstanding (s.sys ++ fails ++ [SysCall.malloc (round_up bytes * n) c]) ∧ _
    rw [hB]
    rcases List.mem_cons.mp hlL with rfl | hlL
    · exact absurd hlg hnew
    · obtain ⟨h1, h2⟩ := h.large l hlL hlg
      refine ⟨List.mem_append_left _ h1, ?_⟩
      intro cb hcb
      rcases List.mem_append.mp hcb with hcb | hcb
      · exact h2 cb hcb
      · rw [List.mem_singleton] at hcb
        subst hcb
        exact (hv _ h1).1
  · intro l hlL hls
    rcases List.mem_cons.mp hlL with rfl | hlL
    · exact ⟨hb, _, List.mem_append_right _ (List.mem_singleton.mpr rfl), hcslot⟩
    · obtain ⟨h1, cb, hcb, hslot⟩ := h.small l hlL hls
      exact ⟨h1, cb, List.mem_append_left _ hcb, hslot⟩
  · intro j y hy
    by_cases hji : j = i
    · subst hji
      rw [hFii] at hy
      refine ⟨_, List.mem_append_right _ (List.mem_singleton.mpr rfl), ?_⟩
      rw [hcs]
      exact (refill_nodes_slot _ _ _ _ hy).1
    · rw [hFj j hji] at hy
      obtain ⟨cb, hcb, hslot⟩ := h.free j y hy
      exact ⟨cb, List.mem_append_left _ hcb, hslot⟩
  · rw [List.pairwise_cons]
    refine ⟨?_, h.live⟩
    intro l1 hl1
    refine ⟨?_, fun h1 _ => absurd h1 hnew⟩
    rw [Live.extent_small _ hnew]
    show disjoint_ranges c (round_up bytes) l1.addr l1.extent
    by_cases hlg : l1.large
    · rw [Live.extent_large l1 hlg]
      have hsep := (hv _ (h.large l1 hl1 hlg).1).2
      exact disjoint_ranges_inside _ _ _ _ _ _ _ _ hsep (Slot_inside _ _ _ hcslot)
        ⟨le_refl _, le_refl _⟩
    · rw [Live.extent_small l1 hlg]
      exact disjoint_ranges_symm _ _ _ _
        (hold _ _ _ _ (h.small l1 hl1 hlg).2 hcslot)
  · intro j
    by_cases hji : j = i
    · subst hji
      rw [hFii, hcs]
      exact refill_nodes_pairwise _ _ _
    · rw [hFj j hji]
      exact h.free_free j
  · intro j k hjk y hy z hz
    by_cases hji : j = i
    · subst hji
      rw [hFii] at hy
      rw [hFj k (fun e => hjk e.symm)] at hz
      rw [hcs]
      exact disjoint_ranges_symm _ _ _ _
        (hold _ _ _ _ (h.free k z hz) (refill_nodes_slot _ _ _ _ hy).1)
    · rw [hFj j hji] at hy
      by_cases hki : k = i
      · subst hki
        rw [hFii] at hz
        rw [hcs]
        exact hold _ _ _ _ (h.free j y hy) (refill_nodes_slot _ _ _ _ hz).1
      · rw [hFj k hki] at hz
        exact h.free_other j k hjk y hy z hz
  · intro j y hy l hlL hls
    rcases List.mem_cons.mp hlL with rfl | hlL
    · show disjoint_ranges y (class_size j) c (round_up bytes)
      by_cases hji : j = i
      · subst hji
        rw [hFii] at hy
        have := (refill_nodes_slot _ _ _ _ hy).2
        unfold disjoint_ranges
        omega
      · rw [hFj j hji] at hy
        exact hold _ _ _ _ (h.free j y hy) hcslot
    · by_cases hji : j = i
      · subst hji
        rw [hFii] at hy
        rw [hcs]
        exact disjoint_ranges_symm _ _ _ _
          (hold _ _ _ _ (h.small l hlL hls).2 (refill_nodes_slot _ _ _ _ hy).1)
      · rw [hFj j hji] at hy
        exact h.free_live j y hy l hlL hls
  · intro l hlL
    rcases List.mem_cons.mp hlL with rfl | hlL
    · exact hc0
    · exact h.nonnull l hlL

/-- Being apart, as live allocations are kept in the invariant, is symmetric. -/
theorem live_sep_symm : Symmetric (fun l l1 : Live =>
    disjoint_ranges l.addr l.extent l1.addr l1.extent ∧
      (l.large → l1.large → l.addr ≠ l1.addr)) := by
  intro l l1 h
  exact ⟨disjoint_ranges_symm _ _ _ _ h.1, fun h1 h2 e => h.2 h2 h1 e.symm⟩

/-- The invariant after a live large allocation is handed to `std::free`. -/
theorem PoolInv_deallocate_large (s : State) (L : List Live) (F : Fin NFREELISTS → List Nat)
    (C : List (Nat × Nat)) (l : Live) (h : PoolInv s L F C) (hl : l ∈ L) (hlg : l.large) :
    PoolInv { s with sys := s.sys ++ [SysCall.free l.addr] } (L.erase l) F C := by
  have hB := outstanding_append_free s.sys l.addr
  have hsub : ∀ l1 ∈ L.erase l, l1 ∈ L := fun l1 h1 => List.mem_of_mem_erase h1
  refine ⟨h.chain, ?_, h.registry, ?_, ?_, fun l1 h1 => h.small l1 (hsub l1 h1), h.free,
    h.live.sublist (List.erase_sublist l L), h.free_free, h.free_other,
    fun i x hx l1 h1 => h.free_live i x hx l1 (hsub l1 h1), fun l1 h1 => h.nonnull l1 (hsub l1 h1)⟩
  · show (outstanding (s.sys ++ [SysCall.free l.addr])).Pairwise BlockSep
    rw [hB]
    exact h.blocks.filter _
  · intro cb hcb
    show cb ∈ outstanding (s.sys ++ [SysCall.free l.addr])
    rw [hB, List.mem_filter]
    exact ⟨h.chunks cb hcb, decide_eq_true ((h.large l hl hlg).2 cb hcb)⟩
  · intro l1 h1 hlg1
    show (l1.addr, l1.bytes) ∈ outstanding (s.sys ++ [SysCall.free l.addr]) ∧ _
    rw [hB, List.mem_filter]
    obtain ⟨m1, m2⟩ := h.large l1 (hsub l1 h1) hlg1
    have hne := (pairwise_erase _ live_sep_symm L l l1 h.live hl h1).2 hlg hlg1
    exact ⟨⟨m1, decide_eq_true (fun e => hne e.symm)⟩, m2⟩

/-- The invariant after a live pool allocation is pushed onto its free list. -/
theorem PoolInv_deallocate_small (s : State) (L : List Live) (F : Fin NFREELISTS → List Nat)
    (C : List (Nat × Nat)) (l : Live) (i : Fin NFREELISTS) (h : PoolInv s L F C)
    (hl : l ∈ L) (hls : ¬ l.large) (hcs : class_size i = round_up l.bytes) :
    PoolInv
      { s with
        heap := store_link s.heap l.addr (s.free_lists i)
        free_lists := Function.update s.free_lists i l.addr }
      (L.erase l) (Function.update F i (l.addr :: F i)) C := by
  have hsub : ∀ l1 ∈ L.erase l, l1 ∈ L := fun l1 h1 => List.mem_of_mem_erase h1
  have hp0 : l.addr ≠ 0 := h.nonnull l hl
  have hpos : ∀ j, 0 < class_size j := by
    intro j
    have := class_size_pos j
    simp only [LINK_BYTES] at this
    omega
  have hfl : ∀ j, ∀ y ∈ F j, disjoint_ranges y (class_size j) l.addr (class_size i) := by
    intro j y hy
    rw [hcs]
    exact h.free_live j y hy l hl hls
  have hnotfree : ∀ j, ∀ y ∈ F j, y ≠ l.addr := by
    intro j y hy e
    have h1 := hfl j y hy
    rw [e] at h1
    exact disjoint_ranges_same _ _ _ h1 (hpos j) (hpos i)
  have hheap : ∀ j, ∀ y ∈ F j, store_link s.heap l.addr (s.free_lists i) y = s.heap y := by
    intro j y hy
    apply store_link_apart
    have h1 := hfl j y hy
    have h2 := class_size_pos j
    have h3 := class_size_pos i
    unfold disjoint_ranges at h1
    omega
  have hFj : ∀ j, j ≠ i → Function.update F i (l.addr :: F i) j = F j :=
    fun j hj => Function.update_noteq hj _ _
  have hFii : Function.update F i (l.addr :: F i) i = l.addr :: F i :=
    Function.update_same _ _ _
  refine ⟨?_, h.blocks, h.registry, h.chunks, fun l1 h1 => h.large l1 (hsub l1 h1),
    fun l1 h1 => h.small l1 (hsub l1 h1), ?_, h.live.sublist (List.erase_sublist l L), ?_, ?_,
    ?_, fun l1 h1 => h.nonnull l1 (hsub l1 h1)⟩
  · intro j
    dsimp only
    by_cases hji : j = i
    · subst hji
      rw [hFii, Function.update_same]
      refine ⟨rfl, hp0, ?_⟩
      rw [store_link_same]
      exact Chain_congr s.heap _ _ _ _ (hheap j) (h.chain j)
    · rw [hFj j hji, Function.update_noteq hji]
      exact Chain_congr s.heap _ _ _ _ (hheap j) (h.chain j)
  · intro j y hy
    by_cases hji : j = i
    · subst hji
      rw [hFii] at hy
      rcases List.mem_cons.mp hy with rfl | hy
      · rw [hcs]
        exact (h.small l hl hls).2
      · exact h.free j y hy
    · rw [hFj j hji] at hy
      exact h.free j y hy
  · intro j
    by_cases hji : j = i
    · subst hji
      rw [hFii, List.pairwise_cons]
      exact ⟨fun y hy => disjoint_ranges_symm _ _ _ _ (hfl j y hy), h.free_free j⟩
    · rw [hFj j hji]
      exact h.free_free j
  · intro j k hjk y hy z hz
    by_cases hji : j = i
    · subst hji
      rw [hFii] at hy
      rw [hFj k (fun e => hjk e.symm)] at hz
      rcases List.mem_cons.mp hy with rfl | hy
      · exact disjoint_ranges_symm _ _ _ _ (hfl k z hz)
      · exact h.free_other j k hjk y hy z hz
    · rw [hFj j hji] at hy
      by_cases hki : k = i
      · subst hki
        rw [hFii] at hz
        rcases List.mem_cons.mp hz with rfl | hz
        · exact hfl j y hy
        · exact h.free_other j k hjk y hy z hz
      · rw [hFj k hki] at hz
        exact h.free_other j k hjk y hy z hz
  · intro j y hy l1 h1 hls1
    have hold : ∀ y ∈ F j, disjoint_ranges y (class_size j) l1.addr (round_up l1.bytes) :=
      fun y hy => h.free_live j y hy l1 (hsub l1 h1) hls1
    by_cases hji : j = i
    · subst hji
      rw [hFii] at hy
      rcases List.mem_cons.mp hy with rfl | hy
      · have := (pairwise_erase _ live_sep_symm L l l1 h.live hl h1).1
        rw [Live.extent_small l hls, Live.extent_small l1 hls1] at this
        rw [hcs]
        exact this
      · exact hold y hy
    · rw [hFj j hji] at hy
      exact hold y hy

/-- The invariant after the client writes into one of its live allocations. -/
theorem PoolInv_store (s : State) (L : List Live) (F : Fin NFREELISTS → List Nat)
    (C : List (Nat × Nat)) (l : Live) (x y v : Nat) (h : PoolInv s L F C) (hl : l ∈ L)
    (h1 : l.addr ≤ x) (h2 : x < l.addr + l.bytes) (h3 : y ≤ x) (h4 : x < y + LINK_BYTES) :
    PoolInv { s with heap := Function.update s.heap y v } L F C := by
  refine ⟨?_, h.blocks, h.registry, h.chunks, h.large, h.small, h.free, h.live, h.free_free,
    h.free_other, h.free_live, h.nonnull⟩
  intro j
  apply Chain_congr s.heap _ _ _ _ _ (h.chain j)
  intro z hz
  apply Function.update_noteq
  intro e
  subst e
  have hcp := class_size_pos j
  by_cases hlg : l.large
  · have hd := h.slot_large z (class_size j) (h.free j z hz) l hl hlg
    rw [Live.extent_large l hlg] at hd
    unfold disjoint_ranges at hd
    omega
  · have hd := h.free_live j z hz l hl hlg
    obtain ⟨hb1, _⟩ := h.small l hl hlg
    have hb2 : l.bytes ≤ MAX_BYTES := by
      unfold Live.large at hlg
      omega
    have := (small_class l.bytes hb1 hb2).2.2.2
    unfold disjoint_ranges at hd
    omega

/-- In every state reached by valid operations the invariant of the pool holds, when
the system allocator returns blocks apart from those it has handed out. -/
theorem Reachable_inv (M : Malloc) (hM : ValidMalloc M) (s : State) (L : List Live)
    (hr : Reachable M s L) : ∃ F C, PoolInv s L F C := by
  induction hr with
  | init heap sys hp =>
    refine ⟨fun _ => [], [], ?_⟩
    refine ⟨fun _ => rfl, hp, rfl, ?_, ?_, ?_, ?_, List.Pairwise.nil, fun _ => List.Pairwise.nil,
      ?_, ?_, ?_⟩ <;> simp
  | allocate s L bytes alignment a _ ha ih =>
    obtain ⟨F, C, h⟩ := ih
    by_cases hl : MAX_BYTES < bytes ∨ ALIGN < alignment
    · rw [allocate_impl_large M s bytes alignment hl] at ha ⊢
      by_cases hr0 : M s.sys bytes = 0
      · simp [hr0] at ha
      · simp only [hr0, if_false] at ha
        have e : a = M s.sys bytes := (Outcome.ok.inj ha).symm
        subst e
        exact ⟨F, C, PoolInv_allocate_large M hM s L F C bytes alignment h hl hr0⟩
    · by_cases hb : bytes = 0
      · subst hb
        rw [allocate_impl_out_of_range M s 0 alignment hl (by decide)] at ha
        cases ha
      have hb1 : 1 ≤ bytes := by omega
      obtain ⟨_, hi, _, _⟩ := small_class bytes hb1 (by omega)
      have hcs := class_size_round_up bytes hb1 (by omega) hi
      by_cases hh : s.free_lists ⟨free_list_index (round_up bytes), hi⟩ = 0
      · rw [allocate_impl_refill M s bytes alignment hl hi hh] at ha ⊢
        obtain ⟨fails, hf, hc | ⟨c, n, hc0, hn1, hn20, hcM, hr1⟩⟩ :=
          refill_spec M s (round_up bytes) hi
        · rw [hc] at ha; cases ha
        · rw [hr1] at ha ⊢
          have e : a = c := (Outcome.ok.inj ha).symm
          subst e
          exact ⟨_, _, PoolInv_refill M hM s L F C _ bytes alignment a n fails h hl hb1 hcs hh
            hf hc0 hn1 hn20 hcM⟩
      · rw [allocate_impl_pop M s bytes alignment hl hi hh] at ha ⊢
        have e : a = s.free_lists ⟨free_list_index (round_up bytes), hi⟩ :=
          (Outcome.ok.inj ha).symm
        subst e
        exact ⟨_, _, PoolInv_pop s L F C _ bytes alignment h hl hb1 hcs hh⟩
  | allocate_throws s L bytes alignment _ ha ih =>
    obtain ⟨F, C, h⟩ := ih
    obtain ⟨fails, hf, hst⟩ := allocate_throws_frame M s bytes alignment ha
    rw [hst]
    exact ⟨F, C, PoolInv_congr s _ L F C h rfl rfl rfl (outstanding_append_fails _ _ hf)⟩
  | deallocate s L l _ hl ih =>
    obtain ⟨F, C, h⟩ := ih
    have hp0 := h.nonnull l hl
    by_cases hlg : l.large
    · rw [deallocate_impl_large s l.addr l.bytes l.alignment hp0 hlg]
      exact ⟨F, C, PoolInv_deallocate_large s L F C l h hl hlg⟩
    · obtain ⟨hb1, _⟩ := h.small l hl hlg
      have hb2 : l.bytes ≤ MAX_BYTES := by
        unfold Live.large at hlg
        omega
      obtain ⟨_, hi, _, _⟩ := small_class l.bytes hb1 hb2
      rw [deallocate_impl_small s l.addr l.bytes l.alignment hp0 hlg hi]
      exact ⟨_, C, PoolInv_deallocate_small s L F C l _ h hl hlg
        (class_size_round_up l.bytes hb1 hb2 hi)⟩
  | deallocate_null s L bytes alignment _ ih =>
    rw [deallocate_impl_null]
    exact ih
  | store s L l x y v _ hl h1 h2 h3 h4 ih =>
    obtain ⟨F, C, h⟩ := ih
    exact ⟨F, C, PoolInv_store s L F C l x y v h hl h1 h2 h3 h4⟩

/-- C7 (non-aliasing): in every state reached from an empty resource by valid
operations, with a system allocator that returns blocks apart from all the blocks it has
handed out and not yet freed, the byte ranges `[a, a + b)` of the live allocations are
pairwise non-overlapping. -/
theorem non_aliasing (M : Malloc) (s : State) (L : List Live) (hM : ValidMalloc M)
    (hr : Reachable M s L) :
    L.Pairwise (fun l l1 => disjoint_ranges l.addr l.bytes l1.addr l1.bytes) := by
  obtain ⟨F, C, h⟩ := Reachable_inv M hM s L hr
  have hext : ∀ l ∈ L, l.bytes ≤ l.extent := by
    intro l hl
    by_cases hlg : l.large
    · rw [Live.extent_large l hlg]
    · rw [Live.extent_small l hlg]
      obtain ⟨hb1, _⟩ := h.small l hl hlg
      have hb2 : l.bytes ≤ MAX_BYTES := by
        unfold Live.large at hlg
        omega
      exact (small_class l.bytes hb1 hb2).2.2.2
  apply h.live.imp_of_mem
  intro l l1 hl hl1 hsep
  have e1 := hext l hl
  have e2 := hext l1 hl1
  have hd := hsep.1
  unfold disjoint_ranges at hd ⊢
  omega

theorem foldl_max_ge :
    ∀ (l : List (Nat × Nat)) (acc : Nat),
      acc ≤ l.foldl (fun acc blk => max acc (blk.1 + blk.2)) acc ∧
        ∀ blk ∈ l, blk.1 + blk.2 ≤ l.foldl (fun acc blk => max acc (blk.1 + blk.2)) acc := by
  intro l
  induction l with
  | nil => intro acc; simp
  | cons b l ih =>
    intro acc
    rw [List.foldl_cons]
    obtain ⟨h1, h2⟩ := ih (max acc (b.1 + b.2))
    refine ⟨le_trans (le_max_left _ _) h1, ?_⟩
    intro blk hblk
    rcases List.mem_cons.mp hblk with rfl | hblk
    · exact le_trans (le_max_right _ _) h1
    · exact h2 blk hblk

/-- The allocator that places every block above the blocks handed out is valid. -/
theorem malloc_above_valid : ValidMalloc malloc_above := by
  intro tr n _ blk hblk
  have h := (foldl_max_ge (outstanding tr) 4095).2 blk hblk
  unfold BlockSep disjoint_ranges malloc_above
  dsimp only
  omega

/-- A request of 16 bytes has its free-list index in range. -/
theorem index_16_in_range : free_list_index (round_up 16) < NFREELISTS := by decide

/-- Witness of C7: on a fresh resource a large block of 200 bytes and then a pool block
of 16 bytes are allocated; both are live. -/
theorem non_aliasing_witness :
    (ValidMalloc malloc_above ∧
        Reachable malloc_above
          (allocate_impl malloc_above (allocate_impl malloc_above fresh 200 8).2 16 8).2
          [⟨4297, 16, 8⟩, ⟨4096, 200, 8⟩]) ∧
      ([⟨4297, 16, 8⟩, ⟨4096, 200, 8⟩] : List Live).Pairwise
        (fun l l1 => disjoint_ranges l.addr l.bytes l1.addr l1.bytes) :=
  have h1 : (allocate_impl malloc_above fresh 200 8).1 = Outcome.ok 4096 := by decide
  have h2 : (allocate_impl malloc_above (allocate_impl malloc_above fresh 200 8).2 16 8).1 =
      Outcome.ok 4297 := by
    rw [allocate_impl_refill malloc_above _ 16 8 (by decide) index_16_in_range (by decide),
      refill_granted malloc_above _ (round_up 16) (by decide) index_16_in_range]
    decide
  have hr : Reachable malloc_above
      (allocate_impl malloc_above (allocate_impl malloc_above fresh 200 8).2 16 8).2
      [⟨4297, 16, 8⟩, ⟨4096, 200, 8⟩] :=
    Reachable.allocate _ _ 16 8 4297
      (Reachable.allocate _ _ 200 8 4096 (Reachable.init _ _ List.Pairwise.nil) h1) h2
  ⟨⟨malloc_above_valid, hr⟩, non_aliasing malloc_above _ _ malloc_above_valid hr⟩

/-! ## Alignment under valid use -/

/-- A chunk in the registry after `allocate_impl` was there before or is an answer of the
system allocator. -/
theorem allocate_impl_registry (M : Malloc) (s : State) (bytes alignment : Nat) :
    ∀ c ∈ (allocate_impl M s bytes alignment).2.memory_chunks,
      c ∈ s.memory_chunks ∨ ∃ tr n, c = M tr n := by
  intro c hc
  by_cases h : MAX_BYTES < bytes ∨ ALIGN < alignment
  · rw [allocate_impl_large M s bytes alignment h] at hc
    exact Or.inl hc
  · by_cases hi : free_list_index (round_up bytes) < NFREELISTS
    · by_cases hh : s.free_lists ⟨free_list_index (round_up bytes), hi⟩ = 0
      · rw [allocate_impl_refill M s bytes alignment h hi hh] at hc
        obtain ⟨fails, _, hr | ⟨c1, n, _, _, _, hcM, hr⟩⟩ := refill_spec M s (round_up bytes) hi
        · rw [hr] at hc
          exact Or.inl hc
        · rw [hr] at hc
          rcases List.mem_append.mp hc with hc | hc
          · exact Or.inl hc
          · rw [List.mem_singleton] at hc
            exact Or.inr ⟨_, _, hc.trans hcM⟩
      · rw [allocate_impl_pop M s bytes alignment h hi hh] at hc
        exact Or.inl hc
    · rw [allocate_impl_out_of_range M s bytes alignment h hi] at hc
      exact Or.inl hc

/-- A deallocation does not change the registry. -/
theorem deallocate_impl_registry (s : State) (p bytes alignment : Nat) :
    (deallocate_impl s p bytes alignment).2.memory_chunks = s.memory_chunks := by
  by_cases hp : p = 0
  · subst hp
    rw [deallocate_impl_null]
  · by_cases h : MAX_BYTES < bytes ∨ ALIGN < alignment
    · rw [deallocate_impl_large s p bytes alignment hp h]
    · by_cases hi : free_list_index (round_up bytes) < NFREELISTS
      · rw [deallocate_impl_small s p bytes alignment hp h hi]
      · rw [deallocate_impl_out_of_range s p bytes alignment hp h hi]

/-- Under valid use every chunk of the registry is a multiple of `ALIGN`, when the
system allocator returns multiples of `ALIGN`. -/
theorem Reachable_chunks_aligned (M : Malloc) (hM : ∀ tr n, M tr n % ALIGN = 0) (s : State)
    (L : List Live) (hr : Reachable M s L) : ∀ c ∈ s.memory_chunks, c % ALIGN = 0 := by
  induction hr with
  | init heap sys _ => intro c hc; cases hc
  | allocate s L bytes alignment a _ _ ih =>
    intro c hc
    rcases allocate_impl_registry M s bytes alignment c hc with h | ⟨tr, n, rfl⟩
    · exact ih c h
    · exact hM tr n
  | allocate_throws s L bytes alignment _ _ ih =>
    intro c hc
    rcases allocate_impl_registry M s bytes alignment c hc with h | ⟨tr, n, rfl⟩
    · exact ih c h
    · exact hM tr n
  | deallocate s L l _ _ ih =>
    intro c hc
    rw [deallocate_impl_registry] at hc
    exact ih c hc
  | deallocate_null s L bytes alignment _ ih =>
    intro c hc
    rw [deallocate_impl_registry] at hc
    exact ih c hc
  | store s L l x y v _ _ _ _ _ _ ih => exact ih

/-- Under valid use, client writes included, every node of a free list is a multiple of
`ALIGN`, when the system allocator returns multiples of `ALIGN`. -/
theorem PoolInv.free_aligned {s : State} {L : List Live} {F : Fin NFREELISTS → List Nat}
    {C : List (Nat × Nat)} (h : PoolInv s L F C)
    (hc : ∀ c ∈ s.memory_chunks, c % ALIGN = 0) (i : Fin NFREELISTS) (x : Nat)
    (hx : x ∈ F i) : x % ALIGN = 0 := by
  obtain ⟨cb, hcb, j, rfl, _⟩ := h.free i x hx
  have h1 : cb.1 % ALIGN = 0 := by
    apply hc
    rw [← h.registry]
    exact List.mem_map_of_mem _ hcb
  have h2 : j * class_size i = ALIGN * (j * (i.val + 1)) := by
    unfold class_size
    rw [Nat.mul_left_comm]
  rw [h2, Nat.add_mul_mod_self_left]
  exact h1

/-- The assumptions of `alignment_under_valid_use` on the system allocator can be met. -/
theorem malloc_above_aligned_spec :
    (∀ tr n, malloc_above_aligned tr n % ALIGN = 0) ∧ ValidMalloc malloc_above_aligned := by
  constructor
  · intro tr n
    unfold malloc_above_aligned
    exact Nat.mul_mod_left _ _
  · intro tr n _ blk hblk
    have h := (foldl_max_ge (outstanding tr) 4095).2 blk hblk
    unfold BlockSep disjoint_ranges malloc_above_aligned
    simp only [ALIGN]
    omega

/-! ## The structure of a refill and its degradation -/

/-- The five requests of `chunk_alloc(size, 20)` are those of the specification. -/
theorem chunk_alloc_eq_spec (M : Malloc) (s : State) (size : Nat) :
    chunk_alloc M s size 20 = spec_chunk_alloc M size [20, 10, 5, 2, 1] 20 s := by
  have e20 : Int.tdiv 20 2 = 10 := by decide
  have e10 : Int.tdiv 10 2 = 5 := by decide
  have e5 : Int.tdiv 5 2 = 2 := by decide
  have e2 : Int.tdiv 2 2 = 1 := by decide
  rw [chunk_alloc_unfold, spec_chunk_alloc]
  split
  · next h20 =>
    rw [if_pos (by decide), e20, chunk_alloc_unfold, spec_chunk_alloc]
    simp only [sys_malloc, h20]
    split
    · next h10 =>
      rw [if_pos (by decide), e10, chunk_alloc_unfold, spec_chunk_alloc]
      simp only [sys_malloc, h10]
      split
      · next h5 =>
        rw [if_pos (by decide), e5, chunk_alloc_unfold, spec_chunk_alloc]
        simp only [sys_malloc, h5]
        split
        · next h2 =>
          rw [if_pos (by decide), e2, chunk_alloc_unfold, spec_chunk_alloc]
          simp only [sys_malloc, h2]
          split
          · next h1 =>
            rw [if_neg (by decide), spec_chunk_alloc, h1]
          · rfl
        · rfl
      · rfl
    · rfl
  · rfl

/-- The specification's `chunk_alloc` throws exactly when every request is refused. -/
theorem spec_chunk_alloc_bad_alloc (M : Malloc) (size : Nat) :
    ∀ (counts : List Int) (last : Int) (s : State),
      (spec_chunk_alloc M size counts last s).1 = Outcome.bad_alloc ↔
        refused_all M size counts s.sys := by
  intro counts
  induction counts with
  | nil => intro last s; simp [spec_chunk_alloc, refused_all]
  | cons n ns ih =>
    intro last s
    rw [spec_chunk_alloc, refused_all]
    by_cases h : M s.sys (total_bytes size n) = 0
    · rw [if_pos h, ih]
      simp [h]
    · rw [if_neg h]
      simp [h]

/-- The specification's `chunk_alloc` stops at the first request that is granted: when
the counts `pre` are refused and the request for the next count `n` is granted, the
block is returned with `nobjs = n`, after the refusals the history holds the granted
request, and the block is appended to the registry. -/
theorem spec_chunk_alloc_granted (M : Malloc) (size : Nat) :
    ∀ (pre : List Int) (n : Int) (post : List Int) (last : Int) (s : State),
      refused_all M size pre s.sys →
      M (s.sys ++ pre.map (fun k => SysCall.malloc (total_bytes size k) 0))
        (total_bytes size n) ≠ 0 →
      spec_chunk_alloc M size (pre ++ n :: post) last s =
        (Outcome.ok (M (s.sys ++ pre.map (fun k => SysCall.malloc (total_bytes size k) 0))
            (total_bytes size n)), n,
          { s with
            sys := s.sys ++ pre.map (fun k => SysCall.malloc (total_bytes size k) 0) ++
              [SysCall.malloc (total_bytes size n)
                (M (s.sys ++ pre.map (fun k => SysCall.malloc (total_bytes size k) 0))
                  (total_bytes size n))]
            memory_chunks := s.memory_chunks ++
              [M (s.sys ++ pre.map (fun k => SysCall.malloc (total_bytes size k) 0))
                (total_bytes size n)] }) := by
  intro pre
  induction pre with
  | nil =>
    intro n post last s _ hg
    simp only [List.map_nil, List.append_nil, List.nil_append] at hg ⊢
    rw [spec_chunk_alloc, if_neg hg]
  | cons a pre ih =>
    intro n post last s hr hg
    obtain ⟨h0, hrest⟩ := hr
    have e : s.sys ++ (a :: pre).map (fun k => SysCall.malloc (total_bytes size k) 0) =
        (s.sys ++ [SysCall.malloc (total_bytes size a) 0]) ++
          pre.map (fun k => SysCall.malloc (total_bytes size k) 0) := by
      simp
    rw [e] at hg ⊢
    rw [List.cons_append, spec_chunk_alloc, if_pos h0]
    exact ih n post a { s with sys := s.sys ++ [SysCall.malloc (total_bytes size a) 0] }
      hrest hg

/-- For the sizes of the pool the bytes requested are the plain products. -/
theorem total_bytes_counts (size : Nat) (hs : size ≤ MAX_BYTES) :
    [20, 10, 5, 2, 1].map (total_bytes size) =
      [size * 20, size * 10, size * 5, size * 2, size * 1] := by
  have h20 := total_bytes_small size 20 hs (by decide)
  have h10 := total_bytes_small size 10 hs (by decide)
  have h5 := total_bytes_small size 5 hs (by decide)
  have h2 := total_bytes_small size 2 hs (by decide)
  have h1 := total_bytes_small size 1 hs (by decide)
  simp only [Nat.cast_ofNat, Nat.cast_one] at h20 h10 h5 h2 h1
  simp only [List.map_cons, List.map_nil, h20, h10, h5, h2, h1]

/-- C12 (refill degradation): `chunk_alloc(size, 20)` asks the system allocator for
`size * 20`, `size * 10`, `size * 5`, `size * 2` and `size * 1` bytes in this order
(the products of `std::size_t`, the plain products for the sizes of the pool), stops at
the first request granted and returns that block with `nobjs` at the count of that
request; it throws `std::bad_alloc` if and only if all five requests are refused. -/
theorem refill_degradation (M : Malloc) (s : State) (size : Nat) :
    chunk_alloc M s size 20 = spec_chunk_alloc M size [20, 10, 5, 2, 1] 20 s ∧
      ((chunk_alloc M s size 20).1 = Outcome.bad_alloc ↔
        refused_all M size [20, 10, 5, 2, 1] s.sys) ∧
      (∀ (pre : List Int) (n : Int) (post : List Int),
        [20, 10, 5, 2, 1] = pre ++ n :: post → refused_all M size pre s.sys →
        M (s.sys ++ pre.map (fun k => SysCall.malloc (total_bytes size k) 0))
          (total_bytes size n) ≠ 0 →
        chunk_alloc M s size 20 =
          (Outcome.ok (M (s.sys ++ pre.map (fun k => SysCall.malloc (total_bytes size k) 0))
              (total_bytes size n)), n,
            { s with
              sys := s.sys ++ pre.map (fun k => SysCall.malloc (total_bytes size k) 0) ++
                [SysCall.malloc (total_bytes size n)
                  (M (s.sys ++ pre.map (fun k => SysCall.malloc (total_bytes size k) 0))
                    (total_bytes size n))]
              memory_chunks := s.memory_chunks ++
                [M (s.sys ++ pre.map (fun k => SysCall.malloc (total_bytes size k) 0))
                  (total_bytes size n)] })) ∧
      ∀ sz : Fin (MAX_BYTES + 1),
        [20, 10, 5, 2, 1].map (total_bytes sz.val) =
          [sz.val * 20, sz.val * 10, sz.val * 5, sz.val * 2, sz.val * 1] := by
  refine ⟨chunk_alloc_eq_spec M s size, ?_, ?_, ?_⟩
  · rw [chunk_alloc_eq_spec]
    exact spec_chunk_alloc_bad_alloc M size _ _ s
  · intro pre n post hl hr hg
    rw [chunk_alloc_eq_spec, hl]
    exact spec_chunk_alloc_granted M size pre n post 20 s hr hg
  · intro sz
    exact total_bytes_counts sz (Nat.le_of_lt_succ sz.isLt)

/-- An allocation that finds its free list empty and whose first request is granted:
the call returns the chunk and threads the other nineteen objects. -/
theorem allocate_impl_refill_granted (M : Malloc) (s : State) (bytes alignment : Nat)
    (h1 : 1 ≤ bytes) (h2 : bytes ≤ MAX_BYTES) (hk : alignment ≤ ALIGN)
    (hi : free_list_index (round_up bytes) < NFREELISTS)
    (hempty : s.free_lists ⟨free_list_index (round_up bytes), hi⟩ = 0)
    (hg : M s.sys (20 * round_up bytes) ≠ 0) :
    allocate_impl M s bytes alignment =
      (Outcome.ok (M s.sys (20 * round_up bytes)),
        { free_lists :=
            Function.update s.free_lists ⟨free_list_index (round_up bytes), hi⟩
              (M s.sys (20 * round_up bytes) + round_up bytes)
          memory_chunks := s.memory_chunks ++ [M s.sys (20 * round_up bytes)]
          heap := refill_heap s.heap (M s.sys (20 * round_up bytes)) (round_up bytes) 20
          sys := s.sys ++
            [SysCall.malloc (20 * round_up bytes) (M s.sys (20 * round_up bytes))] }) := by
  have hle : round_up bytes ≤ MAX_BYTES := by
    obtain ⟨_, hlt, e, _⟩ := small_class bytes h1 h2
    simp only [MAX_BYTES, NFREELISTS] at *
    omega
  have hT : total_bytes (round_up bytes) 20 = 20 * round_up bytes := by
    have := total_bytes_small (round_up bytes) 20 hle (by decide)
    simp only [Nat.cast_ofNat] at this
    rw [this, Nat.mul_comm]
  rw [allocate_impl_refill M s bytes alignment (by omega) hi hempty,
    refill_granted M s (round_up bytes) (by rw [hT]; exact hg) hi, hT]

/-- C11 (refill structure): when the free list `i` of a request of `1 .. MAX_BYTES`
bytes is empty and the system allocator grants the first request, of `20 * s` bytes for
the rounded size `s`, at an address `c`, then `allocate_impl` returns `c`, registers
`c`, and leaves free list `i` as the chain `c + s, c + 2s, ..., c + 19s` in this order,
nineteen nodes, the last link null; the other heads are unchanged. -/
theorem refill_structure (M : Malloc) (s : State) (i : Fin NFREELISTS)
    (bytes alignment : Nat) (h1 : 1 ≤ bytes) (h2 : bytes ≤ MAX_BYTES) (hk : alignment ≤ ALIGN)
    (hi : free_list_index (round_up bytes) = i.val) (hempty : s.free_lists i = 0)
    (hg : M s.sys (20 * round_up bytes) ≠ 0) :
    (allocate_impl M s bytes alignment).1 = Outcome.ok (M s.sys (20 * round_up bytes)) ∧
      Chain (allocate_impl M s bytes alignment).2.heap
        ((allocate_impl M s bytes alignment).2.free_lists i)
        ((List.range 19).map
          (fun j => M s.sys (20 * round_up bytes) + (j + 1) * round_up bytes)) 0 ∧
      (allocate_impl M s bytes alignment).2.sys =
        s.sys ++ [SysCall.malloc (20 * round_up bytes) (M s.sys (20 * round_up bytes))] ∧
      (allocate_impl M s bytes alignment).2.memory_chunks =
        s.memory_chunks ++ [M s.sys (20 * round_up bytes)] ∧
      (∀ j, j ≠ i →
        (allocate_impl M s bytes alignment).2.free_lists j = s.free_lists j) ∧
      round_up bytes = ALIGN * (i.val + 1) := by
  have hlt : free_list_index (round_up bytes) < NFREELISTS := by rw [hi]; exact i.isLt
  have hfin : (⟨free_list_index (round_up bytes), hlt⟩ : Fin NFREELISTS) = i := Fin.ext hi
  have hpos : LINK_BYTES ≤ round_up bytes := by
    have := (small_class bytes h1 h2).2.2.1
    unfold LINK_BYTES
    omega
  rw [allocate_impl_refill_granted M s bytes alignment h1 h2 hk hlt (by rw [hfin]; exact hempty)
    hg, hfin]
  refine ⟨rfl, ?_, rfl, rfl, ?_, ?_⟩
  · dsimp only
    rw [Function.update_same]
    exact refill_heap_chain _ _ _ 20 (by decide) hpos
  · intro j hj
    dsimp only
    rw [Function.update_noteq hj]
  · have e := (small_class bytes h1 h2).2.2.1
    rw [hi] at e
    simp only [ALIGN]
    exact e

/-- A request of 16 bytes is served by free list 1. -/
theorem index_16_eq : free_list_index (round_up 16) = list_of_16.val := by decide

/-- Witness of C11: the first allocation of 16 bytes on a fresh resource, granted at
4096. -/
theorem refill_structure_witness :
    (1 ≤ 16 ∧ 16 ≤ MAX_BYTES ∧ 8 ≤ ALIGN ∧
        free_list_index (round_up 16) = list_of_16.val ∧
        fresh.free_lists list_of_16 = 0 ∧ malloc_4096 fresh.sys (20 * round_up 16) ≠ 0) ∧
      (allocate_impl malloc_4096 fresh 16 8).1 =
        Outcome.ok (malloc_4096 fresh.sys (20 * round_up 16)) ∧
      Chain (allocate_impl malloc_4096 fresh 16 8).2.heap
        ((allocate_impl malloc_4096 fresh 16 8).2.free_lists list_of_16)
        ((List.range 19).map
          (fun j => malloc_4096 fresh.sys (20 * round_up 16) + (j + 1) * round_up 16)) 0 ∧
      (allocate_impl malloc_4096 fresh 16 8).2.sys =
        fresh.sys ++
          [SysCall.malloc (20 * round_up 16) (malloc_4096 fresh.sys (20 * round_up 16))] ∧
      (allocate_impl malloc_4096 fresh 16 8).2.memory_chunks =
        fresh.memory_chunks ++ [malloc_4096 fresh.sys (20 * round_up 16)] ∧
      (∀ j, j ≠ list_of_16 →
        (allocate_impl malloc_4096 fresh 16 8).2.free_lists j = fresh.free_lists j) ∧
      round_up 16 = ALIGN * (list_of_16.val + 1) :=
  ⟨⟨by decide, by decide, by decide, index_16_eq, rfl, by decide⟩,
    refill_structure malloc_4096 fresh list_of_16 16 8 (by decide) (by decide) (by decide)
      index_16_eq rfl (by decide)⟩

/-! ## Throwing, deallocating and tearing down -/

/-- When `chunk_alloc` throws, `refill` throws. -/
theorem refill_throws (M : Malloc) (s : State) (size : Nat)
    (h : (chunk_alloc M s size 20).1 = Outcome.bad_alloc) :
    (refill M s size).1 = Outcome.bad_alloc := by
  unfold refill
  generalize chunk_alloc M s size 20 = r at h
  obtain ⟨o, n, s1⟩ := r
  simp only at h
  subst h
  rfl

/-- C13 (out-of-memory atomicity): whenever `allocate_impl` throws `std::bad_alloc`, on
the large path or after the refill degraded down to one object, the free-list heads, the
registry and the memory are exactly what they were before the call; only refused
requests were added to the history of the system allocator. -/
theorem out_of_memory_atomicity (M : Malloc) (s : State) (bytes alignment : Nat)
    (h : (allocate_impl M s bytes alignment).1 = Outcome.bad_alloc) :
    (allocate_impl M s bytes alignment).2.free_lists = s.free_lists ∧
      (allocate_impl M s bytes alignment).2.memory_chunks = s.memory_chunks ∧
      (allocate_impl M s bytes alignment).2.heap = s.heap ∧
      ∃ fails : List SysCall, (∀ e ∈ fails, ∃ b, e = SysCall.malloc b 0) ∧
        (allocate_impl M s bytes alignment).2.sys = s.sys ++ fails := by
  obtain ⟨fails, hf, hst⟩ := allocate_throws_frame M s bytes alignment h
  rw [hst]
  exact ⟨rfl, rfl, rfl, fails, hf, rfl⟩

/-- On a fresh resource, with a system allocator that refuses everything, an allocation
of 16 bytes throws. -/
theorem fresh_allocate_16_throws :
    (allocate_impl malloc_refuses fresh 16 8).1 = Outcome.bad_alloc := by
  rw [allocate_impl_refill malloc_refuses fresh 16 8 (by decide) index_16_in_range rfl]
  apply refill_throws
  rw [chunk_alloc_eq_spec, spec_chunk_alloc_bad_alloc]
  exact ⟨rfl, rfl, rfl, rfl, rfl, trivial⟩

/-- Witness of C13: the five requests of a refill are refused on a fresh resource. -/
theorem out_of_memory_atomicity_witness :
    (allocate_impl malloc_refuses fresh 16 8).1 = Outcome.bad_alloc ∧
      (allocate_impl malloc_refuses fresh 16 8).2.free_lists = fresh.free_lists ∧
      (allocate_impl malloc_refuses fresh 16 8).2.memory_chunks = fresh.memory_chunks ∧
      (allocate_impl malloc_refuses fresh 16 8).2.heap = fresh.heap ∧
      ∃ fails : List SysCall, (∀ e ∈ fails, ∃ b, e = SysCall.malloc b 0) ∧
        (allocate_impl malloc_refuses fresh 16 8).2.sys = fresh.sys ++ fails :=
  ⟨fresh_allocate_16_throws,
    out_of_memory_atomicity malloc_refuses fresh 16 8 fresh_allocate_16_throws⟩

/-- C17 (small deallocation pushes onto the head): for a non-null `p`, `bytes` in
`1 .. MAX_BYTES` and an alignment up to `ALIGN`, `deallocate_impl(p, bytes, alignment)`
returns, makes `p` the head of the free list with index `round_up(bytes) / ALIGN - 1`,
stores the previous head of that list in the link of `p`, and leaves the other fifteen
heads, the registry, the links that share no byte with the link of `p` and the history
of the system allocator unchanged. -/
theorem small_deallocation_pushes (s : State) (p bytes alignment : Nat) (hp : p ≠ 0)
    (h1 : 1 ≤ bytes) (h2 : bytes ≤ MAX_BYTES) (hk : alignment ≤ ALIGN) :
    ∃ hi : round_up bytes / ALIGN - 1 < NFREELISTS,
      (deallocate_impl s p bytes alignment).1 = Outcome.ok () ∧
        (deallocate_impl s p bytes alignment).2.free_lists ⟨round_up bytes / ALIGN - 1, hi⟩ =
          p ∧
        (deallocate_impl s p bytes alignment).2.heap p =
          s.free_lists ⟨round_up bytes / ALIGN - 1, hi⟩ ∧
        (∀ j, j ≠ ⟨round_up bytes / ALIGN - 1, hi⟩ →
          (deallocate_impl s p bytes alignment).2.free_lists j = s.free_lists j) ∧
        (deallocate_impl s p bytes alignment).2.memory_chunks = s.memory_chunks ∧
        (∀ x, x + LINK_BYTES ≤ p ∨ p + LINK_BYTES ≤ x →
          (deallocate_impl s p bytes alignment).2.heap x = s.heap x) ∧
        (deallocate_impl s p bytes alignment).2.sys = s.sys := by
  obtain ⟨_, hlt, e, _⟩ := small_class bytes h1 h2
  have hidx : round_up bytes / ALIGN - 1 = free_list_index (round_up bytes) := by
    simp only [ALIGN]
    omega
  have hi : round_up bytes / ALIGN - 1 < NFREELISTS := by rw [hidx]; exact hlt
  have hfin : (⟨round_up bytes / ALIGN - 1, hi⟩ : Fin NFREELISTS) =
      ⟨free_list_index (round_up bytes), hlt⟩ := Fin.ext hidx
  refine ⟨hi, ?_⟩
  rw [hfin, deallocate_impl_small s p bytes alignment hp (by omega) hlt]
  refine ⟨rfl, ?_, ?_, ?_, rfl, ?_, rfl⟩
  · dsimp only
    rw [Function.update_same]
  · dsimp only
    rw [store_link_same]
  · intro j hj
    dsimp only
    rw [Function.update_noteq hj]
  · intro x hx
    exact store_link_apart _ _ _ _ hx

/-- Witness of C17: a block of 16 bytes at 4096 is deallocated on a fresh resource. -/
theorem small_deallocation_pushes_witness :
    (4096 ≠ 0 ∧ 1 ≤ 16 ∧ 16 ≤ MAX_BYTES ∧ 8 ≤ ALIGN) ∧
      ∃ hi : round_up 16 / ALIGN - 1 < NFREELISTS,
        (deallocate_impl fresh 4096 16 8).1 = Outcome.ok () ∧
          (deallocate_impl fresh 4096 16 8).2.free_lists ⟨round_up 16 / ALIGN - 1, hi⟩ =
            4096 ∧
          (deallocate_impl fresh 4096 16 8).2.heap 4096 =
            fresh.free_lists ⟨round_up 16 / ALIGN - 1, hi⟩ ∧
          (∀ j, j ≠ ⟨round_up 16 / ALIGN - 1, hi⟩ →
            (deallocate_impl fresh 4096 16 8).2.free_lists j = fresh.free_lists j) ∧
          (deallocate_impl fresh 4096 16 8).2.memory_chunks = fresh.memory_chunks ∧
          (∀ x, x + LINK_BYTES ≤ 4096 ∨ 4096 + LINK_BYTES ≤ x →
            (deallocate_impl fresh 4096 16 8).2.heap x = fresh.heap x) ∧
          (deallocate_impl fresh 4096 16 8).2.sys = fresh.sys :=
  ⟨by decide,
    small_deallocation_pushes fresh 4096 16 8 (by decide) (by decide) (by decide) (by decide)⟩

/-- C18 (large deallocation path): for a non-null `p` with `bytes > MAX_BYTES` or
`alignment > ALIGN`, `deallocate_impl(p, bytes, alignment)` returns after exactly one
system call, `std::free(p)`, and leaves the registry, the free-list heads and the
memory unchanged. -/
theorem large_deallocation_path (s : State) (p bytes alignment : Nat) (hp : p ≠ 0)
    (h : MAX_BYTES < bytes ∨ ALIGN < alignment) :
    (deallocate_impl s p bytes alignment).1 = Outcome.ok () ∧
      (deallocate_impl s p bytes alignment).2.sys = s.sys ++ [SysCall.free p] ∧
      (deallocate_impl s p bytes alignment).2.memory_chunks = s.memory_chunks ∧
      (deallocate_impl s p bytes alignment).2.free_lists = s.free_lists ∧
      (deallocate_impl s p bytes alignment).2.heap = s.heap := by
  rw [deallocate_impl_large s p bytes alignment hp h]
  exact ⟨rfl, rfl, rfl, rfl, rfl⟩

/-- Witness of C18: the block of scenario S5 of the specification, 1024 bytes. -/
theorem large_deallocation_path_witness :
    (4096 ≠ 0 ∧ (MAX_BYTES < 1024 ∨ ALIGN < 8)) ∧
      (deallocate_impl fresh 4096 1024 8).1 = Outcome.ok () ∧
      (deallocate_impl fresh 4096 1024 8).2.sys = fresh.sys ++ [SysCall.free 4096] ∧
      (deallocate_impl fresh 4096 1024 8).2.memory_chunks = fresh.memory_chunks ∧
      (deallocate_impl fresh 4096 1024 8).2.free_lists = fresh.free_lists ∧
      (deallocate_impl fresh 4096 1024 8).2.heap = fresh.heap :=
  ⟨by decide, large_deallocation_path fresh 4096 1024 8 (by decide) (by decide)⟩

/-- C19 (null deallocation is a no-op): for every state, bytes and alignment,
`deallocate_impl(nullptr, bytes, alignment)` returns and leaves the whole state as it
was: the free-list heads, the registry, the memory, and the history of the system
allocator, to which no call is added. -/
theorem null_deallocation_noop (s : State) (bytes alignment : Nat) :
    deallocate_impl s 0 bytes alignment = (Outcome.ok (), s) ∧
      (deallocate_impl s 0 bytes alignment).2.free_lists = s.free_lists ∧
      (deallocate_impl s 0 bytes alignment).2.memory_chunks = s.memory_chunks ∧
      (deallocate_impl s 0 bytes alignment).2.sys = s.sys := by
  rw [deallocate_impl_null]
  exact ⟨rfl, rfl, rfl, rfl⟩

/-- The loop of the destructor adds one `std::free` for each chunk, in order. -/
theorem foldl_sys_free :
    ∀ (cs : List Nat) (s : State),
      cs.foldl sys_free s = { s with sys := s.sys ++ cs.map SysCall.free } := by
  intro cs
  induction cs with
  | nil => intro s; simp
  | cons c cs ih =>
    intro s
    rw [List.foldl_cons, ih]
    simp [sys_free]

/-! ## The invariants of the free lists -/

/-- A segment of a null-terminated chain from the same head lies in the chain. -/
theorem Chain_initial (heap : Nat → Nat) :
    ∀ (xs ys : List Nat) (h t : Nat), Chain heap h xs t → Chain heap h ys 0 → xs <+: ys := by
  intro xs
  induction xs with
  | nil => intro ys h t _ _; exact List.nil_prefix
  | cons x xs ih =>
    intro ys h t hx hy
    obtain ⟨e, hx0, hrest⟩ := hx
    cases ys with
    | nil =>
      have e0 : h = 0 := hy
      omega
    | cons y ys =>
      obtain ⟨e1, _, hrest1⟩ := hy
      have exy : x = y := by omega
      subst exy
      rw [ List.prefix_cons_inj]
      exact ih ys _ t hrest hrest1

/-- The nodes of a free list that is a null-terminated chain are the nodes of the
chain. -/
theorem FreeNode_iff (s : State) (i : Fin NFREELISTS) (ys : List Nat)
    (h : Chain s.heap (s.free_lists i) ys 0) (x : Nat) : FreeNode s i x ↔ x ∈ ys := by
  constructor
  · rintro ⟨xs, t, hc, hx⟩
    exact (Chain_initial s.heap xs ys _ t hc h).subset hx
  · intro hx
    exact ⟨ys, 0, h, hx⟩

theorem ProperMalloc.valid {M : Malloc} (hP : ProperMalloc M) : ValidMalloc M := by
  intro tr n h0 blk hblk
  have h := hP tr n h0 blk hblk
  unfold BlockSep disjoint_ranges
  dsimp only
  omega

/-- The allocator that places every block above the blocks handed out keeps even blocks
of zero bytes apart. -/
theorem malloc_above_proper : ProperMalloc malloc_above := by
  intro tr n _ blk hblk
  have h := (foldl_max_ge (outstanding tr) 4095).2 blk hblk
  unfold malloc_above
  omega

/-- The invariant of the pool under valid use, together with two facts on the registry:
it holds no chunk twice, and no live allocation of the large-object path has its address
inside a chunk when blocks of zero bytes are kept apart. -/
theorem Reachable_inv_registry (M : Malloc) (hM : ValidMalloc M) (s : State) (L : List Live)
    (hr : Reachable M s L) :
    ∃ F C, PoolInv s L F C ∧ s.memory_chunks.Nodup ∧ (ProperMalloc M → LargeApart L C) := by
  induction hr with
  | init heap sys hp =>
    refine ⟨fun _ => [], [], ?_, List.nodup_nil, fun _ l _ _ cb hcb => by cases hcb⟩
    refine ⟨fun _ => rfl, hp, rfl, ?_, ?_, ?_, ?_, List.Pairwise.nil, fun _ => List.Pairwise.nil,
      ?_, ?_, ?_⟩ <;> simp
  | allocate s L bytes alignment a _ ha ih =>
    obtain ⟨F, C, h, hn, hap⟩ := ih
    by_cases hl : MAX_BYTES < bytes ∨ ALIGN < alignment
    · rw [allocate_impl_large M s bytes alignment hl] at ha ⊢
      by_cases hr0 : M s.sys bytes = 0
      · simp [hr0] at ha
      · simp only [hr0, if_false] at ha
        have e : a = M s.sys bytes := (Outcome.ok.inj ha).symm
        subst e
        refine ⟨F, C, PoolInv_allocate_large M hM s L F C bytes alignment h hl hr0, hn, ?_⟩
        intro hP l hl1 hlg cb hcb
        rcases List.mem_cons.mp hl1 with rfl | hl1
        · have h3 := hP s.sys bytes hr0 cb (h.chunks cb hcb)
          show M s.sys bytes < cb.1 ∨ cb.1 + cb.2 ≤ M s.sys bytes
          omega
        · exact hap hP l hl1 hlg cb hcb
    · by_cases hb : bytes = 0
      · subst hb
        rw [allocate_impl_out_of_range M s 0 alignment hl (by decide)] at ha
        cases ha
      have hb1 : 1 ≤ bytes := by omega
      obtain ⟨_, hi, _, hle⟩ := small_class bytes hb1 (by omega)
      have hcs := class_size_round_up bytes hb1 (by omega) hi
      by_cases hh : s.free_lists ⟨free_list_index (round_up bytes), hi⟩ = 0
      · rw [allocate_impl_refill M s bytes alignment hl hi hh] at ha ⊢
        obtain ⟨fails, hf, hc | ⟨c, n, hc0, hn1, hn20, hcM, hr1⟩⟩ :=
          refill_spec M s (round_up bytes) hi
        · rw [hc] at ha; cases ha
        · rw [hr1] at ha ⊢
          have e : a = c := (Outcome.ok.inj ha).symm
          subst e
          have hru : round_up bytes ≤ MAX_BYTES := by
            have := class_size_pos ⟨free_list_index (round_up bytes), hi⟩
            simp only [class_size, ALIGN, NFREELISTS, MAX_BYTES] at *
            omega
          have htot := total_bytes_small (round_up bytes) n hru hn20
          have hM0 : M (s.sys ++ fails) (total_bytes (round_up bytes) (n : Int)) ≠ 0 := by
            rw [← hcM]; exact hc0
          have hout := outstanding_append_fails s.sys fails hf
          refine ⟨_, _, PoolInv_refill M hM s L F C _ bytes alignment a n fails h hl hb1 hcs hh
            hf hc0 hn1 hn20 hcM, ?_, ?_⟩
          · show (s.memory_chunks ++ [a]).Nodup
            rw [List.nodup_append]
            refine ⟨hn, List.nodup_singleton a, ?_⟩
            intro x hx hx1
            rw [List.mem_singleton] at hx1
            subst hx1
            rw [← h.registry] at hx
            obtain ⟨cb, hcb, e1⟩ := List.mem_map.mp hx
            have hsep := hM (s.sys ++ fails) _ hM0 cb (by rw [hout]; exact h.chunks cb hcb)
            apply hsep.1
            show M (s.sys ++ fails) (total_bytes (round_up bytes) (n : Int)) = cb.1
            rw [← hcM, e1]
          · intro hP l hl1 hlg cb hcb
            rcases List.mem_cons.mp hl1 with rfl | hl1
            · exact absurd hlg hl
            · rcases List.mem_append.mp hcb with hcb | hcb
              · exact hap hP l hl1 hlg cb hcb
              · rw [List.mem_singleton] at hcb
                subst hcb
                have h3 := hP (s.sys ++ fails) _ hM0 (l.addr, l.bytes)
                  (by rw [hout]; exact (h.large l hl1 hlg).1)
                rw [← hcM, htot] at h3
                show l.addr < a ∨ a + round_up bytes * n ≤ l.addr
                dsimp only at h3
                omega
      · rw [allocate_impl_pop M s bytes alignment hl hi hh] at ha ⊢
        have e : a = s.free_lists ⟨free_list_index (round_up bytes), hi⟩ :=
          (Outcome.ok.inj ha).symm
        subst e
        refine ⟨_, _, PoolInv_pop s L F C _ bytes alignment h hl hb1 hcs hh, hn, ?_⟩
        intro hP l hl1 hlg cb hcb
        rcases List.mem_cons.mp hl1 with rfl | hl1
        · exact absurd hlg hl
        · exact hap hP l hl1 hlg cb hcb
  | allocate_throws s L bytes alignment _ ha ih =>
    obtain ⟨F, C, h, hn, hap⟩ := ih
    obtain ⟨fails, hf, hst⟩ := allocate_throws_frame M s bytes alignment ha
    rw [hst]
    exact ⟨F, C, PoolInv_congr s _ L F C h rfl rfl rfl (outstanding_append_fails _ _ hf), hn, hap⟩
  | deallocate s L l _ hl ih =>
    obtain ⟨F, C, h, hn, hap⟩ := ih
    have hp0 := h.nonnull l hl
    have hap1 : ProperMalloc M → LargeApart (L.erase l) C :=
      fun hP l1 h1 => hap hP l1 (List.mem_of_mem_erase h1)
    by_cases hlg : l.large
    · rw [deallocate_impl_large s l.addr l.bytes l.alignment hp0 hlg]
      exact ⟨F, C, PoolInv_deallocate_large s L F C l h hl hlg, hn, hap1⟩
    · obtain ⟨hb1, _⟩ := h.small l hl hlg
      have hb2 : l.bytes ≤ MAX_BYTES := by
        unfold Live.large at hlg
        omega
      obtain ⟨_, hi, _, _⟩ := small_class l.bytes hb1 hb2
      rw [deallocate_impl_small s l.addr l.bytes l.alignment hp0 hlg hi]
      exact ⟨_, C, PoolInv_deallocate_small s L F C l _ h hl hlg
        (class_size_round_up l.bytes hb1 hb2 hi), hn, hap1⟩
  | deallocate_null s L bytes alignment _ ih =>
    rw [deallocate_impl_null]
    exact ih
  | store s L l x y v _ hl h1 h2 h3 h4 ih =>
    obtain ⟨F, C, h, hn, hap⟩ := ih
    exact ⟨F, C, PoolInv_store s L F C l x y v h hl h1 h2 h3 h4, hn, hap⟩

/-- The aligned allocator keeps even blocks of zero bytes apart. -/
theorem malloc_above_aligned_proper : ProperMalloc malloc_above_aligned := by
  intro tr n _ blk hblk
  have h := (foldl_max_ge (outstanding tr) 4095).2 blk hblk
  unfold malloc_above_aligned
  simp only [ALIGN]
  omega

/-- The state `two_allocations` is reached by valid operations. -/
theorem two_allocations_reachable : Reachable malloc_above_aligned two_allocations two_live := by
  have h1 : (allocate_impl malloc_above_aligned fresh 200 8).1 = Outcome.ok 4096 := by decide
  have h2 : (allocate_impl malloc_above_aligned
      (allocate_impl malloc_above_aligned fresh 200 8).2 16 8).1 = Outcome.ok 4304 := by
    rw [allocate_impl_refill malloc_above_aligned _ 16 8 (by decide) index_16_in_range
      (by decide),
      refill_granted malloc_above_aligned _ (round_up 16) (by decide) index_16_in_range]
    decide
  exact Reachable.allocate _ _ 16 8 4304
    (Reachable.allocate _ _ 200 8 4096 (Reachable.init _ _ List.Pairwise.nil) h1) h2

/-- C14 (returned pointers are not free): in every state reached from an empty resource
by valid operations, no live address is a node of any of the 16 free lists. The system
allocator is taken to return blocks that do not overlap the blocks it has handed out,
a block of zero bytes counting for one byte. -/
theorem returned_not_free (M : Malloc) (hP : ProperMalloc M) (s : State) (L : List Live)
    (hr : Reachable M s L) (l : Live) (hl : l ∈ L) (i : Fin NFREELISTS) :
    ¬ FreeNode s i l.addr := by
  obtain ⟨F, C, h, _, hap⟩ := Reachable_inv_registry M hP.valid s L hr
  intro hfn
  have hx := (FreeNode_iff s i (F i) (h.chain i) l.addr).mp hfn
  have hpos := class_size_pos i
  simp only [LINK_BYTES] at hpos
  by_cases hlg : l.large
  · obtain ⟨cb, hcb, hslot⟩ := h.free i _ hx
    have h1 := Slot_inside _ _ _ hslot
    have h2 := hap hP l hl hlg cb hcb
    omega
  · have hd := h.free_live i _ hx l hl hlg
    obtain ⟨hb1, _⟩ := h.small l hl hlg
    have hb2 : l.bytes ≤ MAX_BYTES := by
      unfold Live.large at hlg
      omega
    have hle := (small_class l.bytes hb1 hb2).2.2.2
    unfold disjoint_ranges at hd
    omega

/-- Witness of C14: the live pool block of `two_allocations` is on none of the lists. -/
theorem returned_not_free_witness :
    (ProperMalloc malloc_above_aligned ∧
        Reachable malloc_above_aligned two_allocations two_live ∧
        (⟨4304, 16, 8⟩ : Live) ∈ two_live) ∧
      ¬ FreeNode two_allocations list_of_16 4304 :=
  ⟨⟨malloc_above_aligned_proper, two_allocations_reachable, List.mem_cons_self _ _⟩,
    returned_not_free malloc_above_aligned malloc_above_aligned_proper two_allocations
      two_live two_allocations_reachable ⟨4304, 16, 8⟩ (List.mem_cons_self _ _) list_of_16⟩

/-- C15 (free lists are disjoint): in every state reached from an empty resource by
valid operations, with a system allocator that returns blocks apart from the blocks it
has handed out, each free list is a finite null-terminated chain without repeated nodes,
which holds exactly the nodes of the list, and no address is a node of the free lists of
two different size classes. -/
theorem free_lists_disjoint (M : Malloc) (hM : ValidMalloc M) (s : State) (L : List Live)
    (hr : Reachable M s L) :
    (∀ i, ∃ xs, Chain s.heap (s.free_lists i) xs 0 ∧ xs.Nodup ∧
        ∀ x, FreeNode s i x ↔ x ∈ xs) ∧
      ∀ i j, i ≠ j → ∀ x, ¬ (FreeNode s i x ∧ FreeNode s j x) := by
  obtain ⟨F, C, h⟩ := Reachable_inv M hM s L hr
  have hpos : ∀ i, 0 < class_size i := by
    intro i
    have := class_size_pos i
    simp only [LINK_BYTES] at this
    omega
  constructor
  · intro i
    refine ⟨F i, h.chain i, ?_, FreeNode_iff s i (F i) (h.chain i)⟩
    apply (h.free_free i).imp
    intro x y hd e
    subst e
    have := hpos i
    unfold disjoint_ranges at hd
    omega
  · intro i j hij x hx
    have h1 := (FreeNode_iff s i (F i) (h.chain i) x).mp hx.1
    have h2 := (FreeNode_iff s j (F j) (h.chain j) x).mp hx.2
    have hd := h.free_other i j hij x h1 x h2
    have := hpos i
    have := hpos j
    unfold disjoint_ranges at hd
    omega

/-- Witness of C15: the free lists of `two_allocations`. -/
theorem free_lists_disjoint_witness :
    (ValidMalloc malloc_above_aligned ∧
        Reachable malloc_above_aligned two_allocations two_live) ∧
      (∀ i, ∃ xs, Chain two_allocations.heap (two_allocations.free_lists i) xs 0 ∧ xs.Nodup ∧
        ∀ x, FreeNode two_allocations i x ↔ x ∈ xs) ∧
      ∀ i j, i ≠ j → ∀ x, ¬ (FreeNode two_allocations i x ∧ FreeNode two_allocations j x) :=
  ⟨⟨malloc_above_aligned_proper.valid, two_allocations_reachable⟩,
    free_lists_disjoint malloc_above_aligned malloc_above_aligned_proper.valid two_allocations
      two_live two_allocations_reachable⟩

/-- C16 (free nodes live in registered chunks): in every state reached from an empty
resource by valid operations, with a system allocator returning blocks that are
multiples of `ALIGN` and apart from the blocks it has handed out, every node `x` of the
free list of class `i` lies inside a chunk of the registry, as a whole node at an offset
that is a multiple of the class size `8 * (i + 1)`; this chunk is the only chunk of the
registry that holds the address `x`, the registry holds no chunk twice, and `x` is a
multiple of `ALIGN`. -/
theorem free_nodes_in_chunks (M : Malloc) (hA : ∀ tr n, M tr n % ALIGN = 0)
    (hV : ValidMalloc M) (s : State) (L : List Live) (hr : Reachable M s L)
    (i : Fin NFREELISTS) (x : Nat) (hx : FreeNode s i x) :
    (∃ blk, (blk ∈ registered_chunks s ∧ blk.1 ≤ x ∧ x + class_size i ≤ blk.1 + blk.2 ∧
          (x - blk.1) % class_size i = 0) ∧
        ∀ blk1 ∈ registered_chunks s, blk1.1 ≤ x → x < blk1.1 + blk1.2 → blk1 = blk) ∧
      s.memory_chunks.Nodup ∧ (registered_chunks s).Nodup ∧
      class_size i = 8 * (i.val + 1) ∧ x % ALIGN = 0 := by
  obtain ⟨F, C, h, hn, _⟩ := Reachable_inv_registry M hV s L hr
  have hxF := (FreeNode_iff s i (F i) (h.chain i) x).mp hx
  have hpos := class_size_pos i
  simp only [LINK_BYTES] at hpos
  have hnd : (outstanding s.sys).Nodup := by
    apply h.blocks.imp
    intro u v huv e
    exact huv.1 (by rw [e])
  refine ⟨?_, hn, hnd.filter _, rfl,
    h.free_aligned (Reachable_chunks_aligned M hA s L hr) i x hxF⟩
  obtain ⟨cb, hcb, hslot⟩ := h.free i x hxF
  have hin := Slot_inside _ _ _ hslot
  have hcb1 : cb ∈ outstanding s.sys := h.chunks cb hcb
  refine ⟨cb, ⟨?_, hin.1, hin.2, ?_⟩, ?_⟩
  · unfold registered_chunks
    rw [List.mem_filter]
    refine ⟨hcb1, ?_⟩
    rw [decide_eq_true_eq, ← h.registry]
    exact List.mem_map_of_mem _ hcb
  · obtain ⟨j, e, _⟩ := hslot
    have e1 : x - cb.1 = j * class_size i := by omega
    rw [e1]
    exact Nat.mul_mod_left _ _
  · intro blk1 hb1 hlo hhi
    unfold registered_chunks at hb1
    rw [List.mem_filter] at hb1
    by_contra hne
    have hd := (h.blocks.forall BlockSep_symm hb1.1 hcb1 hne).2
    unfold disjoint_ranges at hd
    omega

/-- The node at 4320 is on the free list of 16 bytes in `two_allocations`. -/
theorem two_allocations_node : FreeNode two_allocations list_of_16 4320 := by
  have h1 : two_allocations.free_lists list_of_16 = 4320 := by
    unfold two_allocations
    rw [allocate_impl_refill malloc_above_aligned _ 16 8 (by decide) index_16_in_range
      (by decide),
      refill_granted malloc_above_aligned _ (round_up 16) (by decide) index_16_in_range]
    decide
  exact ⟨[4320], _, ⟨h1, by decide, rfl⟩, List.mem_cons_self _ _⟩

/-- Witness of C16: the first free node of `two_allocations`. -/
theorem free_nodes_in_chunks_witness :
    ((∀ tr n, malloc_above_aligned tr n % ALIGN = 0) ∧ ValidMalloc malloc_above_aligned ∧
        Reachable malloc_above_aligned two_allocations two_live ∧
        FreeNode two_allocations list_of_16 4320) ∧
      (∃ blk, (blk ∈ registered_chunks two_allocations ∧ blk.1 ≤ 4320 ∧
            4320 + class_size list_of_16 ≤ blk.1 + blk.2 ∧
            (4320 - blk.1) % class_size list_of_16 = 0) ∧
          ∀ blk1 ∈ registered_chunks two_allocations, blk1.1 ≤ 4320 →
            4320 < blk1.1 + blk1.2 → blk1 = blk) ∧
        two_allocations.memory_chunks.Nodup ∧ (registered_chunks two_allocations).Nodup ∧
        class_size list_of_16 = 8 * (list_of_16.val + 1) ∧ 4320 % ALIGN = 0 :=
  ⟨⟨malloc_above_aligned_spec.1, malloc_above_aligned_spec.2, two_allocations_reachable,
      two_allocations_node⟩,
    free_nodes_in_chunks malloc_above_aligned malloc_above_aligned_spec.1
      malloc_above_aligned_spec.2 two_allocations two_live two_allocations_reachable
      list_of_16 4320 two_allocations_node⟩

/-- The destructor frees the chunks of the registry in their order and clears it. -/
theorem destroy_spec (s : State) :
    destroy s =
      { s with sys := s.sys ++ s.memory_chunks.map SysCall.free, memory_chunks := [] } := by
  unfold destroy
  rw [foldl_sys_free]

/-- C20 (teardown): destroying a resource makes exactly the calls `std::free(c)` for
the chunks `c` of the registry, in insertion order, and clears the registry, so the
number of chunks released is the number registered. In a state reached by valid
operations, with a system allocator that returns blocks apart from the blocks it has
handed out, no chunk is in the registry twice, no live block of the large-object path is
released, and a request on the large-object path registers nothing. -/
theorem teardown (M : Malloc) (hM : ValidMalloc M) (s : State) (L : List Live)
    (hr : Reachable M s L) :
    (destroy s).sys = s.sys ++ s.memory_chunks.map SysCall.free ∧
      (destroy s).memory_chunks = [] ∧
      (destroy s).free_lists = s.free_lists ∧ (destroy s).heap = s.heap ∧
      (s.memory_chunks.map SysCall.free).length = s.memory_chunks.length ∧
      s.memory_chunks.Nodup ∧
      (∀ l ∈ L, l.large → SysCall.free l.addr ∉ s.memory_chunks.map SysCall.free) ∧
      ∀ bytes alignment, MAX_BYTES < bytes ∨ ALIGN < alignment →
        (allocate_impl M s bytes alignment).2.memory_chunks = s.memory_chunks := by
  obtain ⟨F, C, h, hn, _⟩ := Reachable_inv_registry M hM s L hr
  rw [destroy_spec]
  refine ⟨rfl, rfl, rfl, rfl, List.length_map _ _, hn, ?_, ?_⟩
  · intro l hl hlg hmem
    obtain ⟨c, hc, e⟩ := List.mem_map.mp hmem
    have e1 : c = l.addr := SysCall.free.inj e
    subst e1
    rw [← h.registry] at hc
    obtain ⟨cb, hcb, e2⟩ := List.mem_map.mp hc
    exact (h.large l hl hlg).2 cb hcb e2
  · intro bytes alignment hl
    rw [allocate_impl_large M s bytes alignment hl]

/-- Witness of C20: the teardown of `two_allocations`. -/
theorem teardown_witness :
    (ValidMalloc malloc_above_aligned ∧
        Reachable malloc_above_aligned two_allocations two_live) ∧
      (destroy two_allocations).sys =
        two_allocations.sys ++ two_allocations.memory_chunks.map SysCall.free ∧
      (destroy two_allocations).memory_chunks = [] ∧
      (destroy two_allocations).free_lists = two_allocations.free_lists ∧
      (destroy two_allocations).heap = two_allocations.heap ∧
      (two_allocations.memory_chunks.map SysCall.free).length =
        two_allocations.memory_chunks.length ∧
      two_allocations.memory_chunks.Nodup ∧
      (∀ l ∈ two_live, l.large →
        SysCall.free l.addr ∉ two_allocations.memory_chunks.map SysCall.free) ∧
      ∀ bytes alignment, MAX_BYTES < bytes ∨ ALIGN < alignment →
        (allocate_impl malloc_above_aligned two_allocations bytes alignment).2.memory_chunks =
          two_allocations.memory_chunks :=
  ⟨⟨malloc_above_aligned_spec.2, two_allocations_reachable⟩,
    teardown malloc_above_aligned malloc_above_aligned_spec.2 two_allocations two_live
      two_allocations_reachable⟩

/-! ## The resource classes and the typed adapter -/

/-- C21 (identity equality): for both resource classes, `r.is_equal(r)` is true for
every resource `r`, and `r1.is_equal(r2)` is false for every two resources at different
addresses, that is for distinct objects, whatever their contents and classes; so
`r1.is_equal(r2)` holds exactly when `r1` and `r2` are the same object. -/
theorem identity_equality :
    (∀ r : Resource, r.is_equal r = true) ∧
      (∀ r1 r2 : Resource, r1.addr ≠ r2.addr → r1.is_equal r2 = false) ∧
      ∀ r1 r2 : Resource, r1.is_equal r2 = true ↔ r1.addr = r2.addr := by
  have key : ∀ r1 r2 : Resource, r1.is_equal r2 = decide (r1.addr = r2.addr) := by
    intro r1 r2
    unfold Resource.is_equal synchronized_do_is_equal unsynchronized_do_is_equal
    cases r1.variant <;> rfl
  refine ⟨?_, ?_, ?_⟩
  · intro r
    rw [key]
    exact decide_eq_true rfl
  · intro r1 r2 h
    rw [key]
    exact decide_eq_false h
  · intro r1 r2
    rw [key, decide_eq_true_eq]

/-- Witness of C21: a synchronized resource at 1000 and an unsynchronized one at
2000. -/
theorem identity_equality_witness :
    (1000 : Nat) ≠ 2000 ∧
      Resource.is_equal ⟨1000, Variant.synchronized, fresh⟩
        ⟨1000, Variant.synchronized, fresh⟩ = true ∧
      Resource.is_equal ⟨1000, Variant.synchronized, fresh⟩
        ⟨2000, Variant.unsynchronized, fresh⟩ = false :=
  ⟨by decide, identity_equality.1 ⟨1000, Variant.synchronized, fresh⟩,
    identity_equality.2.1 ⟨1000, Variant.synchronized, fresh⟩
      ⟨2000, Variant.unsynchronized, fresh⟩ (by decide)⟩

/-- Counterexample of C23: for an element type of 8 bytes and the count `2 ^ 61`, a
value of `std::size_t`, the adapter forwards a request of 0 bytes, and the product
`2 ^ 61 * 8` is not 0. -/
theorem adapter_size_wraps :
    2 ^ 61 < SIZE_MOD ∧
      (polymorphic_allocator_allocate 8 8 recording_allocate (2 ^ 61) []).2 = [(0, 8)] ∧
      (polymorphic_allocator_allocate 8 8 recording_allocate (2 ^ 61) []).2 ≠
        [(2 ^ 61 * 8, 8)] := by
  decide

/-- C23 amended (adapter size computation): for every element type, given by its size and
alignment, and every count `n`, `allocate(n)` forwards to the resource a request of
`n * sizeof(T)` bytes reduced modulo `2 ^ 64`, at the alignment `alignof(T)`, and
`deallocate(p, n)` forwards `p` with the same bytes and alignment; when
`n * sizeof(T) < 2 ^ 64` the bytes forwarded are exactly the product. -/
theorem adapter_size_computation {σ α β : Type} (sizeof_T alignof_T : Nat)
    (mr_allocate : Nat → Nat → σ → α × σ) (mr_deallocate : Nat → Nat → Nat → σ → β × σ)
    (p n : Nat) (st : σ) :
    polymorphic_allocator_allocate sizeof_T alignof_T mr_allocate n st =
        mr_allocate (n * sizeof_T % SIZE_MOD) alignof_T st ∧
      polymorphic_allocator_deallocate sizeof_T alignof_T mr_deallocate p n st =
        mr_deallocate p (n * sizeof_T % SIZE_MOD) alignof_T st ∧
      (n * sizeof_T < SIZE_MOD →
        polymorphic_allocator_allocate sizeof_T alignof_T mr_allocate n st =
            mr_allocate (n * sizeof_T) alignof_T st ∧
          polymorphic_allocator_deallocate sizeof_T alignof_T mr_deallocate p n st =
            mr_deallocate p (n * sizeof_T) alignof_T st) := by
  refine ⟨rfl, rfl, ?_⟩
  intro h
  unfold polymorphic_allocator_allocate polymorphic_allocator_deallocate
  rw [Nat.mod_eq_of_lt h]
  exact ⟨rfl, rfl⟩

/-- Witness of C23 amended: 10 elements of 4 bytes, as in the test
`PolymorphicAllocatorUsage`, on the recording resource. -/
theorem adapter_size_computation_witness :
    10 * 4 < SIZE_MOD ∧
      polymorphic_allocator_allocate 4 4 recording_allocate 10 [] =
        recording_allocate (10 * 4) 4 [] ∧
      polymorphic_allocator_deallocate 4 4 recording_deallocate 4096 10 [] =
        recording_deallocate 4096 (10 * 4) 4 [] :=
  ⟨by decide,
    (adapter_size_computation 4 4 recording_allocate recording_deallocate 4096 10 []).2.2
      (by decide)⟩

/-! ## The pool path, call by call -/

/-- C34 (pop from a non-empty free list): for `1 <= bytes <= MAX_BYTES` and an alignment
up to `ALIGN`, the index `round_up(bytes) / ALIGN - 1` is in range, and when the head
`h` of that free list is not null, `allocate_impl` returns `h`, makes the link of `h`
the new head, makes no system call, and leaves the other fifteen heads, the registry and
the memory unchanged. -/
theorem pop_from_free_list (M : Malloc) (s : State) (bytes alignment : Nat)
    (h1 : 1 ≤ bytes) (h2 : bytes ≤ MAX_BYTES) (hk : alignment ≤ ALIGN) :
    ∃ hi : round_up bytes / ALIGN - 1 < NFREELISTS,
      s.free_lists ⟨round_up bytes / ALIGN - 1, hi⟩ ≠ 0 →
        (allocate_impl M s bytes alignment).1 =
            Outcome.ok (s.free_lists ⟨round_up bytes / ALIGN - 1, hi⟩) ∧
          (allocate_impl M s bytes alignment).2.free_lists ⟨round_up bytes / ALIGN - 1, hi⟩ =
            s.heap (s.free_lists ⟨round_up bytes / ALIGN - 1, hi⟩) ∧
          (allocate_impl M s bytes alignment).2.sys = s.sys ∧
          (∀ j, j ≠ ⟨round_up bytes / ALIGN - 1, hi⟩ →
            (allocate_impl M s bytes alignment).2.free_lists j = s.free_lists j) ∧
          (allocate_impl M s bytes alignment).2.memory_chunks = s.memory_chunks ∧
          (allocate_impl M s bytes alignment).2.heap = s.heap := by
  obtain ⟨_, hlt, e, _⟩ := small_class bytes h1 h2
  have hidx : round_up bytes / ALIGN - 1 = free_list_index (round_up bytes) := by
    simp only [ALIGN]
    omega
  have hi : round_up bytes / ALIGN - 1 < NFREELISTS := by rw [hidx]; exact hlt
  have hfin : (⟨round_up bytes / ALIGN - 1, hi⟩ : Fin NFREELISTS) =
      ⟨free_list_index (round_up bytes), hlt⟩ := Fin.ext hidx
  refine ⟨hi, ?_⟩
  rw [hfin]
  intro hh
  rw [allocate_impl_pop M s bytes alignment (by omega) hlt hh]
  refine ⟨rfl, ?_, rfl, ?_, rfl, rfl⟩
  · dsimp only
    rw [Function.update_same]
  · intro j hj
    dsimp only
    rw [Function.update_noteq hj]

/-- The head of the free list of 16 bytes in `two_allocations` is the node at 4320. -/
theorem two_allocations_head (hi : round_up 16 / ALIGN - 1 < NFREELISTS) :
    two_allocations.free_lists ⟨round_up 16 / ALIGN - 1, hi⟩ = 4320 := by
  have e0 : round_up 16 / ALIGN - 1 = list_of_16.val := by decide
  have e : (⟨round_up 16 / ALIGN - 1, hi⟩ : Fin NFREELISTS) = list_of_16 := Fin.ext e0
  rw [e]
  unfold two_allocations
  rw [allocate_impl_refill malloc_above_aligned _ 16 8 (by decide) index_16_in_range
    (by decide),
    refill_granted malloc_above_aligned _ (round_up 16) (by decide) index_16_in_range]
  decide

/-- Witness of C34: a request of 16 bytes in `two_allocations`, whose free list of 16
bytes starts at 4320. -/
theorem pop_from_free_list_witness :
    (1 ≤ 16 ∧ 16 ≤ MAX_BYTES ∧ 8 ≤ ALIGN) ∧
      ∃ hi : round_up 16 / ALIGN - 1 < NFREELISTS,
        two_allocations.free_lists ⟨round_up 16 / ALIGN - 1, hi⟩ ≠ 0 ∧
          (allocate_impl malloc_refuses two_allocations 16 8).1 = Outcome.ok 4320 :=
  ⟨by decide,
    (pop_from_free_list malloc_refuses two_allocations 16 8 (by decide) (by decide)
      (by decide)).elim
      (fun hi h =>
        have hne : two_allocations.free_lists ⟨round_up 16 / ALIGN - 1, hi⟩ ≠ 0 := by
          rw [two_allocations_head hi]
          decide
        ⟨hi, hne, by rw [(h hne).1, two_allocations_head hi]⟩)⟩

/-- C36 (the registry is append-only): for every call of `allocate_impl` and of
`deallocate_impl` from any state, the registry before the call is a prefix of the
registry after it. `deallocate_impl` leaves it as it is; `allocate_impl` appends at most
one chunk, and appends one only on the pool path when the free list of the request is
empty. A call that subscripts `free_lists` out of range stops there with the registry
untouched. -/
theorem registry_append_only (M : Malloc) (s : State) (p bytes alignment : Nat) :
    (∃ added : List Nat,
        (allocate_impl M s bytes alignment).2.memory_chunks = s.memory_chunks ++ added ∧
        added.length ≤ 1 ∧
        (added ≠ [] → ¬ (MAX_BYTES < bytes ∨ ALIGN < alignment) ∧
          ∃ hi : free_list_index (round_up bytes) < NFREELISTS,
            s.free_lists ⟨free_list_index (round_up bytes), hi⟩ = 0)) ∧
      s.memory_chunks <+: (allocate_impl M s bytes alignment).2.memory_chunks ∧
      (deallocate_impl s p bytes alignment).2.memory_chunks = s.memory_chunks := by
  have key : ∃ added : List Nat,
      (allocate_impl M s bytes alignment).2.memory_chunks = s.memory_chunks ++ added ∧
      added.length ≤ 1 ∧
      (added ≠ [] → ¬ (MAX_BYTES < bytes ∨ ALIGN < alignment) ∧
        ∃ hi : free_list_index (round_up bytes) < NFREELISTS,
          s.free_lists ⟨free_list_index (round_up bytes), hi⟩ = 0) := by
    by_cases h : MAX_BYTES < bytes ∨ ALIGN < alignment
    · rw [allocate_impl_large M s bytes alignment h]
      exact ⟨[], (List.append_nil _).symm, by simp, fun hne => absurd rfl hne⟩
    · by_cases hi : free_list_index (round_up bytes) < NFREELISTS
      · by_cases hh : s.free_lists ⟨free_list_index (round_up bytes), hi⟩ = 0
        · rw [allocate_impl_refill M s bytes alignment h hi hh]
          obtain ⟨fails, _, hr | ⟨c, n, _, _, _, _, hr⟩⟩ := refill_spec M s (round_up bytes) hi
          · rw [hr]
            exact ⟨[], (List.append_nil _).symm, by simp, fun hne => absurd rfl hne⟩
          · rw [hr]
            exact ⟨[c], rfl, by simp, fun _ => ⟨h, hi, hh⟩⟩
        · rw [allocate_impl_pop M s bytes alignment h hi hh]
          exact ⟨[], (List.append_nil _).symm, by simp, fun hne => absurd rfl hne⟩
      · rw [allocate_impl_out_of_range M s bytes alignment h hi]
        exact ⟨[], (List.append_nil _).symm, by simp, fun hne => absurd rfl hne⟩
  obtain ⟨added, h1, h2, h3⟩ := key
  exact ⟨⟨added, h1, h2, h3⟩, ⟨added, h1.symm⟩, deallocate_impl_registry s p bytes alignment⟩

/-- C37 (`round_up` is the next multiple of `ALIGN`): for every `b` with `b + 7` not
overflowing `std::size_t`, `round_up(b)`, computed as `(b + 7) & ~7`, is the smallest
multiple of 8 that is at least `b`; `round_up` is idempotent there, and
`round_up(b) <= MAX_BYTES` whenever `b <= MAX_BYTES`. -/
theorem round_up_next_multiple (b : Nat) (h : b + 7 < SIZE_MOD) :
    round_up b = (b + 7) &&& (SIZE_MOD - 1 - 7) ∧
      8 ∣ round_up b ∧ b ≤ round_up b ∧
      (∀ m, 8 ∣ m → b ≤ m → round_up b ≤ m) ∧
      round_up (round_up b) = round_up b ∧
      (b ≤ MAX_BYTES → round_up b ≤ MAX_BYTES) := by
  have hb : b + 7 < 2 ^ 64 := h
  have e := round_up_eq b hb
  have hdef : round_up b = (b + 7) &&& (SIZE_MOD - 1 - 7) := by
    unfold round_up
    simp only [ALIGN]
    rw [show b + 8 - 1 = b + 7 by omega, Nat.mod_eq_of_lt h]
  have hr : round_up b + 7 < 2 ^ 64 := by omega
  have e2 := round_up_eq (round_up b) hr
  refine ⟨hdef, ?_, ?_, ?_, ?_, ?_⟩
  · rw [e]
    exact Dvd.intro_left _ rfl
  · omega
  · rintro m ⟨k, rfl⟩ hm
    omega
  · omega
  · intro hm
    simp only [MAX_BYTES] at hm ⊢
    omega

/-- Witness of C37: `round_up(13) = 16`. -/
theorem round_up_next_multiple_witness :
    13 + 7 < SIZE_MOD ∧ round_up 13 = 16 ∧ 8 ∣ round_up 13 ∧ 13 ≤ round_up 13 ∧
      round_up (round_up 13) = round_up 13 :=
  ⟨by decide, by decide, (round_up_next_multiple 13 (by decide)).2.1,
    (round_up_next_multiple 13 (by decide)).2.2.1,
    (round_up_next_multiple 13 (by decide)).2.2.2.2.1⟩

/-- C38 (the free-list index stays in bounds): for every `bytes` with
`1 <= bytes <= MAX_BYTES`, `free_list_index(round_up(bytes))` equals
`round_up(bytes) / 8 - 1`, equals `free_list_index(bytes)` and is below `NFREELISTS`, so
that `allocate_impl`, `deallocate_impl` and `refill` do not subscript `free_lists` out of
range for such a request, whatever the state, the pointer and the alignment. -/
theorem index_in_bounds (bytes : Nat) (h1 : 1 ≤ bytes) (h2 : bytes ≤ MAX_BYTES) :
    free_list_index (round_up bytes) = round_up bytes / 8 - 1 ∧
      free_list_index (round_up bytes) = free_list_index bytes ∧
      free_list_index (round_up bytes) < NFREELISTS ∧
      ∀ (M : Malloc) (s : State) (p alignment : Nat),
        (allocate_impl M s bytes alignment).1 ≠ Outcome.out_of_range ∧
          (deallocate_impl s p bytes alignment).1 ≠ Outcome.out_of_range ∧
          (refill M s (round_up bytes)).1 ≠ Outcome.out_of_range := by
  obtain ⟨e1, hi, e2, e3⟩ := small_class bytes h1 h2
  have hb : bytes + 7 < 2 ^ 64 := by
    simp only [MAX_BYTES] at h2
    omega
  have e4 := free_list_index_eq bytes hb
  rw [if_neg (by omega)] at e4
  refine ⟨by omega, by omega, hi, ?_⟩
  intro M s p alignment
  refine ⟨?_, ?_, ?_⟩
  · rcases allocate_impl_cases M s bytes alignment with (⟨a, _, ha⟩ | ha) | ⟨hz, _⟩
    · rw [ha]; intro hc; cases hc
    · rw [ha]; intro hc; cases hc
    · omega
  · by_cases hp : p = 0
    · subst hp
      rw [deallocate_impl_null]
      intro hc; cases hc
    · by_cases hl : MAX_BYTES < bytes ∨ ALIGN < alignment
      · rw [deallocate_impl_large s p bytes alignment hp hl]
        intro hc; cases hc
      · rw [deallocate_impl_small s p bytes alignment hp hl hi]
        intro hc; cases hc
  · obtain ⟨fails, _, hr | ⟨c, n, _, _, _, _, hr⟩⟩ := refill_spec M s (round_up bytes) hi
    · rw [hr]; intro hc; cases hc
    · rw [hr]; intro hc; cases hc

/-- Witness of C38: the largest request of the pool, 128 bytes, has the index 15. -/
theorem index_in_bounds_witness :
    (1 ≤ 128 ∧ 128 ≤ MAX_BYTES) ∧ free_list_index (round_up 128) = 15 ∧
      free_list_index (round_up 128) = free_list_index 128 ∧
      free_list_index (round_up 128) < NFREELISTS :=
  ⟨by decide, by decide, (index_in_bounds 128 (by decide) (by decide)).2.1,
    (index_in_bounds 128 (by decide) (by decide)).2.2.1⟩

/-- C39 (the alignment argument does not influence the small path): for every state,
every `bytes <= MAX_BYTES` and all alignments `k1`, `k2` up to `ALIGN`,
`allocate_impl(bytes, k1)` and `allocate_impl(bytes, k2)` have the same outcome, so
return the same address, and the same resulting state, and likewise
`deallocate_impl(p, bytes, k1)` and `deallocate_impl(p, bytes, k2)`. -/
theorem alignment_irrelevant (M : Malloc) (s : State) (p bytes k1 k2 : Nat)
    (hb : bytes ≤ MAX_BYTES) (h1 : k1 ≤ ALIGN) (h2 : k2 ≤ ALIGN) :
    allocate_impl M s bytes k1 = allocate_impl M s bytes k2 ∧
      deallocate_impl s p bytes k1 = deallocate_impl s p bytes k2 := by
  have g1 : ¬ (MAX_BYTES < bytes ∨ ALIGN < k1) := by omega
  have g2 : ¬ (MAX_BYTES < bytes ∨ ALIGN < k2) := by omega
  constructor
  · unfold allocate_impl
    rw [if_neg g1, if_neg g2]
  · unfold deallocate_impl
    rw [if_neg g1, if_neg g2]

/-- Witness of C39: a block of 16 bytes of `two_allocations`, allocated with alignment 2,
is deallocated with alignment 8 as with alignment 2. -/
theorem alignment_irrelevant_witness :
    (16 ≤ MAX_BYTES ∧ 2 ≤ ALIGN ∧ 8 ≤ ALIGN) ∧
      allocate_impl malloc_refuses two_allocations 16 2 =
        allocate_impl malloc_refuses two_allocations 16 8 ∧
      deallocate_impl two_allocations 4304 16 2 = deallocate_impl two_allocations 4304 16 8 :=
  ⟨by decide,
    alignment_irrelevant malloc_refuses two_allocations 4304 16 2 8 (by decide) (by decide)
      (by decide)⟩

/-- The result of `refill` in terms of the block and the count that `chunk_alloc`
settles on. -/
theorem refill_settled (M : Malloc) (s : State) (size c n : Nat)
    (hi : free_list_index size < NFREELISTS)
    (hc : (chunk_alloc M s size 20).1 = Outcome.ok c)
    (hn : (chunk_alloc M s size 20).2.1 = (n : Int)) :
    1 ≤ n ∧ n ≤ 20 ∧ ∃ sys1 : List SysCall,
      refill M s size =
        (Outcome.ok c,
          { free_lists :=
              if n = 1 then s.free_lists
              else Function.update s.free_lists ⟨free_list_index size, hi⟩ (c + size)
            memory_chunks := s.memory_chunks ++ [c]
            heap := if n = 1 then s.heap else refill_heap s.heap c size n
            sys := sys1 }) := by
  obtain ⟨fails, _, hcase⟩ := chunk_alloc_spec M size 20 20 s (by decide)
  rcases hcase with ⟨n1, h⟩ | ⟨c1, n1, _, _, h1n, hn1, h⟩
  · rw [h] at hc
    cases hc
  · rw [h] at hc hn
    have ec : c1 = c := Outcome.ok.inj hc
    have en : n1 = (n : Int) := hn
    subst ec en
    have h1 : (1 : Int) ≤ (n : Int) := h1n (by decide)
    refine ⟨by omega, by omega, s.sys ++ fails ++ [SysCall.malloc (total_bytes size n) c1], ?_⟩
    unfold refill
    rw [h]
    by_cases hn1 : n = 1
    · subst hn1
      simp
    · have hn2 : ¬ ((n : Int) = 1) := by omega
      have hk : ((n : Int) - 2).toNat = n - 2 := by omega
      simp only [hn2, hn1, if_false, dif_pos hi, hk, refill_heap]

/-- C35 (degraded refill): when `chunk_alloc` settles on `n` objects, `n` one of 10, 5, 2
and 1, for the rounded size `s` of the free list `i`, found empty, at the address `c`,
then `refill` returns `c`, appends `c` to the registry as one chunk, and leaves free list
`i` as the null-terminated chain of the `n - 1` nodes `c + s, ..., c + (n - 1) s` in
increasing order, the other heads unchanged; for `n == 1` the chunk is returned as it is:
the head stays null and no link is written. -/
theorem degraded_refill (M : Malloc) (st : State) (i : Fin NFREELISTS) (size c n : Nat)
    (hsize : size = ALIGN * (i.val + 1)) (hempty : st.free_lists i = 0)
    (hn : n = 10 ∨ n = 5 ∨ n = 2 ∨ n = 1)
    (hc : (chunk_alloc M st size 20).1 = Outcome.ok c)
    (hcn : (chunk_alloc M st size 20).2.1 = (n : Int)) :
    (refill M st size).1 = Outcome.ok c ∧
      (refill M st size).2.memory_chunks = st.memory_chunks ++ [c] ∧
      Chain (refill M st size).2.heap ((refill M st size).2.free_lists i)
        ((List.range (n - 1)).map (fun j => c + (j + 1) * size)) 0 ∧
      (∀ j, j ≠ i → (refill M st size).2.free_lists j = st.free_lists j) ∧
      (n = 1 → (refill M st size).2.free_lists i = 0 ∧ (refill M st size).2.heap = st.heap) := by
  have hlt := i.isLt
  simp only [NFREELISTS] at hlt
  simp only [ALIGN] at hsize
  have hidx : free_list_index size = i.val := by
    rw [free_list_index_eq size (by omega), if_neg (by omega)]
    omega
  have hi : free_list_index size < NFREELISTS := by rw [hidx]; exact i.isLt
  have hfin : (⟨free_list_index size, hi⟩ : Fin NFREELISTS) = i := Fin.ext hidx
  obtain ⟨_, _, sys1, hr⟩ := refill_settled M st size c n hi hc hcn
  rw [hr, hfin]
  by_cases h1 : n = 1
  · subst h1
    refine ⟨rfl, rfl, ?_, fun j _ => rfl, fun _ => ⟨hempty, rfl⟩⟩
    exact hempty
  · have h2 : 2 ≤ n := by omega
    refine ⟨rfl, rfl, ?_, ?_, fun h => absurd h h1⟩
    · dsimp only
      rw [if_neg h1, if_neg h1, Function.update_same]
      exact refill_heap_chain _ _ _ n h2 (by unfold LINK_BYTES; omega)
    · intro j hj
      dsimp only
      rw [if_neg h1, Function.update_noteq hj]

/-- Witness of C35: on a fresh resource whose system allocator refuses the first request,
`chunk_alloc(16, 20)` settles on 10 objects at 4096. -/
theorem degraded_refill_witness :
    (16 = ALIGN * (list_of_16.val + 1) ∧ fresh.free_lists list_of_16 = 0 ∧
        (chunk_alloc (malloc_after 1) fresh 16 20).1 = Outcome.ok 4096 ∧
        (chunk_alloc (malloc_after 1) fresh 16 20).2.1 = ((10 : Nat) : Int)) ∧
      (refill (malloc_after 1) fresh 16).1 = Outcome.ok 4096 ∧
      (refill (malloc_after 1) fresh 16).2.memory_chunks = fresh.memory_chunks ++ [4096] ∧
      Chain (refill (malloc_after 1) fresh 16).2.heap
        ((refill (malloc_after 1) fresh 16).2.free_lists list_of_16)
        ((List.range (10 - 1)).map (fun j => 4096 + (j + 1) * 16)) 0 :=
  have h1 : (chunk_alloc (malloc_after 1) fresh 16 20).1 = Outcome.ok 4096 := by
    rw [chunk_alloc_eq_spec]
    decide
  have h2 : (chunk_alloc (malloc_after 1) fresh 16 20).2.1 = ((10 : Nat) : Int) := by
    rw [chunk_alloc_eq_spec]
    decide
  have h := degraded_refill (malloc_after 1) fresh list_of_16 16 4096 10 (by decide) rfl
    (by decide) h1 h2
  ⟨⟨by decide, rfl, h1, h2⟩, h.1, h.2.1, h.2.2.1⟩

/-! ## The object as it lies in memory: zero-byte requests -/

/-- The subscript that `allocate_impl` and `deallocate_impl` compute on the pool path
designates a word of the object: a head of the array, or for zero bytes the word just
before the array. -/
theorem pool_place (bytes : Nat) (h : bytes ≤ MAX_BYTES) :
    ∃ pl, free_lists_plus (free_list_index (round_up bytes)) = some pl ∧
      (bytes = 0 → pl = Place.before) ∧
      ∀ hi : free_list_index (round_up bytes) < NFREELISTS,
        pl = Place.head ⟨free_list_index (round_up bytes), hi⟩ := by
  by_cases hb : bytes = 0
  · subst hb
    refine ⟨Place.before, by decide, fun _ => rfl, ?_⟩
    intro hi
    exact absurd hi (by decide)
  · have hi := (small_class bytes (by omega) h).2.1
    refine ⟨Place.head ⟨_, hi⟩, ?_, fun h0 => absurd h0 hb, fun _ => rfl⟩
    unfold free_lists_plus
    rw [dif_pos hi]

/-- A store through `my_free_list` is read back through it. -/
theorem object_get_set (o : Object) (pl : Place) (v : Nat) : (o.set pl v).get pl = v := by
  cases pl with
  | head i => exact Function.update_same _ _ _
  | before => rfl

theorem object_allocate_impl_pool (M : Malloc) (o : Object) (bytes alignment : Nat)
    (hl : ¬ (MAX_BYTES < bytes ∨ ALIGN < alignment)) (pl : Place)
    (hpl : free_lists_plus (free_list_index (round_up bytes)) = some pl) :
    Object.allocate_impl M o bytes alignment =
      if o.get pl ≠ 0 then (Outcome.ok (o.get pl), o.set pl (o.base.heap (o.get pl)))
      else Object.refill M o (round_up bytes) := by
  unfold Object.allocate_impl
  rw [if_neg hl, hpl]

theorem object_deallocate_impl_pool (o : Object) (p bytes alignment : Nat) (hp : p ≠ 0)
    (hl : ¬ (MAX_BYTES < bytes ∨ ALIGN < alignment)) (pl : Place)
    (hpl : free_lists_plus (free_list_index (round_up bytes)) = some pl) :
    Object.deallocate_impl o p bytes alignment =
      (Outcome.ok (),
        Object.set
          { o with base := { o.base with heap := store_link o.base.heap p (o.get pl) } }
          pl p) := by
  unfold Object.deallocate_impl
  rw [if_neg hp, if_neg hl, hpl]

/-- For a size whose subscript is inside the array `Object.refill` is `refill` on the
data members, and leaves `vptr` as it was. -/
theorem object_refill_in_range (M : Malloc) (o : Object) (size : Nat)
    (hi : free_list_index size < NFREELISTS) :
    Object.refill M o size =
      ((refill M o.base size).1, { o with base := (refill M o.base size).2 }) := by
  have hpl : free_lists_plus (free_list_index size) = some (Place.head ⟨_, hi⟩) := by
    unfold free_lists_plus
    rw [dif_pos hi]
  unfold Object.refill refill
  generalize chunk_alloc M o.base size 20 = r
  obtain ⟨out, n, s1⟩ := r
  cases out with
  | ok c =>
    show (if n = 1 then _ else _) = _
    by_cases hn : n = 1
    · rw [if_pos hn]
      show _ = ((if n = 1 then _ else _ : Outcome Nat × State).1,
        { o with base := (if n = 1 then _ else _ : Outcome Nat × State).2 })
      rw [if_pos hn]
    · rw [if_neg hn, hpl]
      show _ = ((if n = 1 then _ else _ : Outcome Nat × State).1,
        { o with base := (if n = 1 then _ else _ : Outcome Nat × State).2 })
      rw [if_neg hn, dif_pos hi]
      rfl
  | bad_alloc => rfl
  | out_of_range => rfl

/-- On a request that subscripts inside the array `Object.allocate_impl` is
`allocate_impl` on the data members, and leaves `vptr` as it was. -/
theorem object_allocate_impl_in_range (M : Malloc) (o : Object) (bytes alignment : Nat)
    (h : (MAX_BYTES < bytes ∨ ALIGN < alignment) ∨
      free_list_index (round_up bytes) < NFREELISTS) :
    Object.allocate_impl M o bytes alignment =
      ((allocate_impl M o.base bytes alignment).1,
        { o with base := (allocate_impl M o.base bytes alignment).2 }) := by
  by_cases hl : MAX_BYTES < bytes ∨ ALIGN < alignment
  · unfold Object.allocate_impl
    rw [if_pos hl, allocate_impl_large M o.base bytes alignment hl]
    by_cases hr : M o.base.sys bytes = 0
    · rw [if_pos (show (sys_malloc M o.base bytes).1 = 0 from hr), if_pos hr]
      rfl
    · rw [if_neg (show ¬ (sys_malloc M o.base bytes).1 = 0 from hr), if_neg hr]
      rfl
  · have hi := h.resolve_left hl
    have hpl : free_lists_plus (free_list_index (round_up bytes)) =
        some (Place.head ⟨_, hi⟩) := by
      unfold free_lists_plus
      rw [dif_pos hi]
    rw [object_allocate_impl_pool M o bytes alignment hl _ hpl]
    by_cases hh : o.base.free_lists ⟨free_list_index (round_up bytes), hi⟩ = 0
    · rw [allocate_impl_refill M o.base bytes alignment hl hi hh,
        if_neg (show ¬ (o.get (Place.head ⟨_, hi⟩) ≠ 0) from not_not.mpr hh),
        object_refill_in_range M o _ hi]
    · rw [allocate_impl_pop M o.base bytes alignment hl hi hh,
        if_pos (show o.get (Place.head ⟨_, hi⟩) ≠ 0 from hh)]
      rfl

/-- On a request that subscripts inside the array `Object.deallocate_impl` is
`deallocate_impl` on the data members, and leaves `vptr` as it was. -/
theorem object_deallocate_impl_in_range (o : Object) (p bytes alignment : Nat)
    (h : (MAX_BYTES < bytes ∨ ALIGN < alignment) ∨
      free_list_index (round_up bytes) < NFREELISTS) :
    Object.deallocate_impl o p bytes alignment =
      ((deallocate_impl o.base p bytes alignment).1,
        { o with base := (deallocate_impl o.base p bytes alignment).2 }) := by
  by_cases hp : p = 0
  · subst hp
    unfold Object.deallocate_impl
    rw [if_pos rfl, deallocate_impl_null]
  · by_cases hl : MAX_BYTES < bytes ∨ ALIGN < alignment
    · unfold Object.deallocate_impl
      rw [if_neg hp, if_pos hl, deallocate_impl_large o.base p bytes alignment hp hl]
      rfl
    · have hi := h.resolve_left hl
      have hpl : free_lists_plus (free_list_index (round_up bytes)) =
          some (Place.head ⟨_, hi⟩) := by
        unfold free_lists_plus
        rw [dif_pos hi]
      rw [object_deallocate_impl_pool o p bytes alignment hp hl _ hpl,
        deallocate_impl_small o.base p bytes alignment hp hl hi]
      rfl

/-- C1 (reuse): for every state of the resource, every non-null address `a`, every
`b <= MAX_BYTES` and every alignment `k <= ALIGN`, `deallocate_impl(a, b, k)` returns and
`allocate_impl(b, k)` right after it returns `a`. For `b` in `1 .. MAX_BYTES` the two
calls go through the free list of the size class; for `b = 0` they go through the word
just before `free_lists`, which the wrapped index `SIZE_MOD - 1` designates. -/
theorem reuse (M : Malloc) (o : Object) (a b k : Nat) (ha : a ≠ 0) (hb : b ≤ MAX_BYTES)
    (hk : k ≤ ALIGN) :
    (Object.deallocate_impl o a b k).1 = Outcome.ok () ∧
      (Object.allocate_impl M (Object.deallocate_impl o a b k).2 b k).1 = Outcome.ok a := by
  have hl : ¬ (MAX_BYTES < b ∨ ALIGN < k) := by omega
  obtain ⟨pl, hpl, _⟩ := pool_place b hb
  rw [object_deallocate_impl_pool o a b k ha hl pl hpl]
  refine ⟨rfl, ?_⟩
  rw [object_allocate_impl_pool M _ b k hl pl hpl, object_get_set, if_pos ha]

/-- Witness of C1: a block of zero bytes at 4096 is deallocated on a fresh resource and
a block of zero bytes is allocated. -/
theorem reuse_witness :
    (4096 ≠ 0 ∧ 0 ≤ MAX_BYTES ∧ 8 ≤ ALIGN) ∧
      (Object.deallocate_impl fresh_object 4096 0 8).1 = Outcome.ok () ∧
      (Object.allocate_impl malloc_refuses (Object.deallocate_impl fresh_object 4096 0 8).2
        0 8).1 = Outcome.ok 4096 :=
  ⟨by decide, reuse malloc_refuses fresh_object 4096 0 8 (by decide) (by decide) (by decide)⟩

/-- What `Object.refill` returns for the rounded size of a request of the pool path: a
non-null chunk, or `std::bad_alloc`. -/
theorem object_refill_cases (M : Malloc) (o : Object) (bytes : Nat) (hb : bytes ≤ MAX_BYTES) :
    (∃ a, a ≠ 0 ∧ (Object.refill M o (round_up bytes)).1 = Outcome.ok a) ∨
      (Object.refill M o (round_up bytes)).1 = Outcome.bad_alloc := by
  obtain ⟨pl, hpl, _⟩ := pool_place bytes hb
  obtain ⟨fails, _, ⟨n1, h⟩ | ⟨c, n1, hc, _, _, _, h⟩⟩ :=
    chunk_alloc_spec M (round_up bytes) 20 20 o.base (by decide)
  · right
    unfold Object.refill
    rw [h]
  · left
    refine ⟨c, hc, ?_⟩
    unfold Object.refill
    rw [h]
    show (if n1 = 1 then _ else _ : Outcome Nat × Object).1 = _
    by_cases hn : n1 = 1
    · rw [if_pos hn]
    · rw [if_neg hn, hpl]

/-- A request of zero bytes on a fresh resource object pops the word just before
`free_lists`: it returns the value of `vptr` and leaves the link read there in its
place. -/
theorem zero_bytes_pop_before :
    Object.allocate_impl malloc_refuses fresh_object 0 8 =
      (Outcome.ok 20480, { fresh_object with vptr := fresh.heap 20480 }) := by
  rw [object_allocate_impl_pool malloc_refuses fresh_object 0 8 (by decide) Place.before
    (by decide)]
  rfl

/-- C8 (allocate never returns null): for every state of the resource, every `bytes`
and every `alignment`, `allocate_impl` returns a non-null address or throws
`std::bad_alloc`; a null result of the system allocator counts as a refusal. This
includes the requests of zero bytes, which pop the word just before `free_lists` when it
is not null and refill with the size 0 when it is. -/
theorem allocate_never_null (M : Malloc) (o : Object) (bytes alignment : Nat) :
    (∃ a, a ≠ 0 ∧ (Object.allocate_impl M o bytes alignment).1 = Outcome.ok a) ∨
      (Object.allocate_impl M o bytes alignment).1 = Outcome.bad_alloc := by
  by_cases hl : MAX_BYTES < bytes ∨ ALIGN < alignment
  · unfold Object.allocate_impl
    rw [if_pos hl]
    by_cases hr : (sys_malloc M o.base bytes).1 = 0
    · right; rw [if_pos hr]
    · left; exact ⟨_, hr, by rw [if_neg hr]⟩
  · have hb : bytes ≤ MAX_BYTES := by omega
    obtain ⟨pl, hpl, _⟩ := pool_place bytes hb
    rw [object_allocate_impl_pool M o bytes alignment hl pl hpl]
    by_cases h0 : o.get pl = 0
    · rw [if_neg (not_not.mpr h0)]
      exact object_refill_cases M o bytes hb
    · left
      exact ⟨_, h0, by rw [if_pos h0]⟩

end sgi_pmr

namespace plugin_manager

/-! ## Parsing a version -/

theorem isdigit_dot : isdigit '.' = false := by decide

/-- The longest run of digits at the start of a run of digits followed by a dot. -/
theorem takeWhile_run (X R : List Char) (hX : ∀ c ∈ X, isdigit c = true) :
    (X ++ '.' :: R).takeWhile isdigit = X := by
  rw [List.takeWhile_append_of_pos hX, List.takeWhile_cons_of_neg (by simp [isdigit_dot]),
    List.append_nil]

theorem dropWhile_run (X R : List Char) (hX : ∀ c ∈ X, isdigit c = true) :
    (X ++ '.' :: R).dropWhile isdigit = '.' :: R := by
  rw [List.dropWhile_append_of_pos hX, List.dropWhile_cons_of_neg (by simp [isdigit_dot])]

/-- The pattern matches three runs of digits separated by dots, with the runs as its
groups. -/
theorem version_regex_match_format (A B C : List Char) (hA : DigitRun A) (hB : DigitRun B)
    (hC : DigitRun C) : version_regex_match (A ++ '.' :: (B ++ '.' :: C)) = some (A, B, C) := by
  have tC : C.takeWhile isdigit = C := List.takeWhile_eq_self_iff.mpr hC.2
  have dC : C.dropWhile isdigit = [] := List.dropWhile_eq_nil_iff.mpr hC.2
  unfold version_regex_match
  rw [dropWhile_run A _ hA.2]
  dsimp only
  rw [dropWhile_run B _ hB.2]
  dsimp only
  rw [takeWhile_run A _ hA.2, takeWhile_run B _ hB.2, tC, dC]
  rw [if_pos ⟨rfl, rfl, hA.1, hB.1, hC.1, rfl⟩]

/-- A match of the pattern splits the string into three runs of digits separated by
dots. -/
theorem version_regex_match_some (s m1 m2 m3 : List Char)
    (h : version_regex_match s = some (m1, m2, m3)) :
    DigitRun m1 ∧ DigitRun m2 ∧ DigitRun m3 ∧ s = m1 ++ '.' :: (m2 ++ '.' :: m3) := by
  unfold version_regex_match at h
  split at h
  · cases h
  · rename_i c1 r1 h1
    split at h
    · cases h
    · rename_i c2 r2 h2
      split at h
      · rename_i hc
        obtain ⟨hc1, hc2, ha, hb, hc, hd⟩ := hc
        subst hc1 hc2
        simp only [Option.some.injEq, Prod.mk.injEq] at h
        obtain ⟨e1, e2, e3⟩ := h
        subst e1 e2 e3
        refine ⟨⟨ha, fun c hc1 => List.mem_takeWhile_imp hc1⟩,
          ⟨hb, fun c hc1 => List.mem_takeWhile_imp hc1⟩,
          ⟨hc, fun c hc1 => List.mem_takeWhile_imp hc1⟩, ?_⟩
        have e3 := List.takeWhile_append_dropWhile isdigit r2
        rw [hd, List.append_nil] at e3
        rw [e3]
        have e2 := List.takeWhile_append_dropWhile isdigit r1
        rw [h2] at e2
        rw [e2]
        have e1 := List.takeWhile_append_dropWhile isdigit s
        rw [h1] at e1
        exact e1.symm
      · cases h

theorem version_regex_match_none (s : List Char) :
    version_regex_match s = none ↔ ¬ VersionFormat s := by
  constructor
  · rintro h ⟨A, B, C, hA, hB, hC, rfl⟩
    rw [version_regex_match_format A B C hA hB hC] at h
    cases h
  · intro h
    cases hm : version_regex_match s with
    | none => rfl
    | some m =>
      obtain ⟨m1, m2, m3⟩ := m
      obtain ⟨h1, h2, h3, e⟩ := version_regex_match_some s m1 m2 m3 hm
      exact absurd ⟨m1, m2, m3, h1, h2, h3, e⟩ h

theorem isdigit_not_isspace (c : Char) (h : isdigit c = true) : isspace c = false := by
  unfold isdigit at h
  unfold isspace
  simp only [Bool.and_eq_true, decide_eq_true_eq] at h
  simp only [Bool.or_eq_false_iff, Bool.and_eq_false_iff, decide_eq_false_iff_not]
  omega

/-- On a non-empty run of digits `std::stoi` returns the decimal value when it fits an
`int` and throws `std::out_of_range` otherwise. -/
theorem stoi_digit_run (ds : List Char) (h : DigitRun ds) :
    stoi ds =
      if INT_MAX < (decimal_value ds : Int) then Except.error Exn.out_of_range
      else Except.ok (decimal_value ds : Int) := by
  obtain ⟨hne, hd⟩ := h
  cases ds with
  | nil => exact absurd rfl hne
  | cons c t =>
    have hc : isdigit c = true := hd c (List.mem_cons_self _ _)
    have hm : c ≠ '-' := by
      rintro rfl
      exact absurd hc (by decide)
    have hp : c ≠ '+' := by
      rintro rfl
      exact absurd hc (by decide)
    have e1 : (c :: t).dropWhile isspace = c :: t :=
      List.dropWhile_cons_of_neg (by simp [isdigit_not_isspace c hc])
    have e2 : (c :: t).takeWhile isdigit = c :: t := List.takeWhile_eq_self_iff.mpr hd
    have hmin : ¬ ((decimal_value (c :: t) : Int) < INT_MIN) := by
      unfold INT_MIN
      omega
    unfold stoi
    simp only [e1, List.head?_cons, Option.some.injEq, hm, hp, or_self, if_false, e2,
      List.tail_cons, hmin, false_or]
    rw [if_neg (by simp)]

/-- The outcome of `parseVersion` on three runs of digits separated by dots. -/
theorem parseVersion_format (A B C : List Char) (hA : DigitRun A) (hB : DigitRun B)
    (hC : DigitRun C) :
    parseVersion (A ++ '.' :: (B ++ '.' :: C)) =
      if (decimal_value A : Int) ≤ INT_MAX ∧ (decimal_value B : Int) ≤ INT_MAX ∧
          (decimal_value C : Int) ≤ INT_MAX then
        Except.ok ⟨decimal_value A, decimal_value B, decimal_value C⟩
      else Except.error Exn.out_of_range := by
  unfold parseVersion
  rw [version_regex_match_format A B C hA hB hC]
  dsimp only
  rw [stoi_digit_run A hA, stoi_digit_run B hB, stoi_digit_run C hC]
  by_cases h1 : (decimal_value A : Int) ≤ INT_MAX
  · have g1 := not_lt.mpr h1
    by_cases h2 : (decimal_value B : Int) ≤ INT_MAX
    · have g2 := not_lt.mpr h2
      by_cases h3 : (decimal_value C : Int) ≤ INT_MAX
      · have g3 := not_lt.mpr h3
        simp [g1, g2, g3, h1, h2, h3, bind, Except.bind, pure, Except.pure]
      · have g3 := not_le.mp h3
        simp [g1, g2, g3, h1, h2, h3, bind, Except.bind, pure, Except.pure]
    · have g2 := not_le.mp h2
      simp [g1, g2, h1, h2, bind, Except.bind, pure, Except.pure]
  · have g1 := not_le.mp h1
    simp [g1, h1, bind, Except.bind, pure, Except.pure]

/-- The call `parseVersion(s)` throws `MetadataError` exactly when the pattern does
not match. -/
theorem parseVersion_MetadataError (s : List Char) :
    parseVersion s = Except.error Exn.MetadataError ↔ ¬ VersionFormat s := by
  constructor
  · rintro h ⟨A, B, C, hA, hB, hC, rfl⟩
    rw [parseVersion_format A B C hA hB hC] at h
    split at h <;> cases h
  · intro h
    unfold parseVersion
    rw [(version_regex_match_none s).mpr h]

/-- The strings that `parseVersion` accepts and the versions it returns for them. -/
theorem parseVersion_ok (s : List Char) (v : Version) :
    parseVersion s = Except.ok v ↔
      ∃ A B C, DigitRun A ∧ DigitRun B ∧ DigitRun C ∧ s = A ++ '.' :: (B ++ '.' :: C) ∧
        (decimal_value A : Int) ≤ INT_MAX ∧ (decimal_value B : Int) ≤ INT_MAX ∧
        (decimal_value C : Int) ≤ INT_MAX ∧
        v = ⟨decimal_value A, decimal_value B, decimal_value C⟩ := by
  constructor
  · intro h
    by_cases hf : VersionFormat s
    · obtain ⟨A, B, C, hA, hB, hC, rfl⟩ := hf
      rw [parseVersion_format A B C hA hB hC] at h
      split at h
      · rename_i hle
        exact ⟨A, B, C, hA, hB, hC, rfl, hle.1, hle.2.1, hle.2.2, (Except.ok.inj h).symm⟩
      · cases h
    · rw [(parseVersion_MetadataError s).mpr hf] at h
      cases h
  · rintro ⟨A, B, C, hA, hB, hC, rfl, h1, h2, h3, rfl⟩
    rw [parseVersion_format A B C hA hB hC, if_pos ⟨h1, h2, h3⟩]

theorem foldl_decimal (ds : List Char) :
    ∀ acc : Nat, ds.foldl (fun acc c => 10 * acc + (c.toNat - 48)) acc =
      acc * 10 ^ ds.length + Nat.ofDigits 10 ((ds.map (fun c => c.toNat - 48)).reverse) := by
  induction ds with
  | nil => intro acc; simp
  | cons c t ih =>
    intro acc
    rw [List.foldl_cons, ih, List.map_cons, List.reverse_cons, Nat.ofDigits_append,
      Nat.ofDigits_singleton, List.length_reverse, List.length_map, List.length_cons]
    ring

/-- The value `decimal_value` is the number written by the digits in base 10. -/
theorem decimal_value_ofDigits (ds : List Char) :
    decimal_value ds = Nat.ofDigits 10 ((ds.map (fun c => c.toNat - 48)).reverse) := by
  unfold decimal_value
  rw [foldl_decimal, Nat.zero_mul, Nat.zero_add]

/-! ## The claims on `parseVersion` -/

/-- Counterexample of C24: the string `2147483648.0.0` is three non-empty runs of digits
separated by dots, and `parseVersion` does not return a `Version` for it: `std::stoi`
throws `std::out_of_range`. -/
theorem parseVersion_format_not_returned :
    VersionFormat "2147483648.0.0".toList ∧
      parseVersion "2147483648.0.0".toList = Except.error Exn.out_of_range ∧
      ¬ ∃ v, parseVersion "2147483648.0.0".toList = Except.ok v := by
  have h : parseVersion "2147483648.0.0".toList = Except.error Exn.out_of_range := by decide
  refine ⟨⟨"2147483648".toList, "0".toList, "0".toList, ⟨by decide, by decide⟩,
    ⟨by decide, by decide⟩, ⟨by decide, by decide⟩, by decide⟩, h, ?_⟩
  rintro ⟨v, hv⟩
  rw [h] at hv
  cases hv

/-- C24 amended (`parseVersion` rejects malformed input): `parseVersion(s)` throws
`MetadataError` if and only if `s` is not, in its entirety, three non-empty runs of
decimal digits separated by single dots, so `invalid`, `1.2` and `1.2.3.4` throw it; and
every string of that form whose three decimal values are at most `INT_MAX` returns a
`Version`. -/
theorem parseVersion_rejects_malformed (s : List Char) :
    (parseVersion s = Except.error Exn.MetadataError ↔ ¬ VersionFormat s) ∧
      (∀ A B C, DigitRun A → DigitRun B → DigitRun C → s = A ++ '.' :: (B ++ '.' :: C) →
        (decimal_value A : Int) ≤ INT_MAX → (decimal_value B : Int) ≤ INT_MAX →
        (decimal_value C : Int) ≤ INT_MAX → ∃ v, parseVersion s = Except.ok v) ∧
      parseVersion "invalid".toList = Except.error Exn.MetadataError ∧
      parseVersion "1.2".toList = Except.error Exn.MetadataError ∧
      parseVersion "1.2.3.4".toList = Except.error Exn.MetadataError := by
  refine ⟨parseVersion_MetadataError s, ?_, by decide, by decide, by decide⟩
  rintro A B C hA hB hC rfl h1 h2 h3
  exact ⟨_, (parseVersion_ok _ _).mpr ⟨A, B, C, hA, hB, hC, rfl, h1, h2, h3, rfl⟩⟩

/-- Witness of C24 amended: the string `1.2.3` is returned as a `Version`, and the
string `1.2` is not of the form and is rejected. -/
theorem parseVersion_rejects_malformed_witness :
    (∃ v, parseVersion "1.2.3".toList = Except.ok v) ∧
      ¬ VersionFormat "1.2".toList :=
  ⟨(parseVersion_rejects_malformed "1.2.3".toList).2.1 "1".toList "2".toList "3".toList
      ⟨by decide, by decide⟩ ⟨by decide, by decide⟩ ⟨by decide, by decide⟩ (by decide)
      (by decide) (by decide) (by decide),
    (parseVersion_rejects_malformed "1.2".toList).1.mp (by decide)⟩

/-- Counterexample of C25: in `0.0.99999999999` the third run of digits has the decimal
value 99999999999, and `parseVersion` does not return the version with this patch: it
throws `std::out_of_range`. -/
theorem parseVersion_long_component :
    DigitRun "0".toList ∧ DigitRun "99999999999".toList ∧
      decimal_value "99999999999".toList = 99999999999 ∧
      "0.0.99999999999".toList = "0".toList ++ '.' :: ("0".toList ++ '.' :: "99999999999".toList) ∧
      parseVersion "0.0.99999999999".toList = Except.error Exn.out_of_range ∧
      parseVersion "0.0.99999999999".toList ≠ Except.ok ⟨0, 0, 99999999999⟩ := by
  refine ⟨⟨by decide, by decide⟩, ⟨by decide, by decide⟩, by decide, by decide, by decide,
    by decide⟩

/-- C25 amended (`parseVersion` component values): for every string `s = A.B.C` where
`A`, `B`, `C` are non-empty runs of decimal digits of any length, leading zeros allowed,
whose decimal values are at most `INT_MAX`, `parseVersion(s)` returns the `Version`
whose major, minor and patch are the decimal values of `A`, `B` and `C`. -/
theorem parseVersion_components (A B C : List Char) (hA : DigitRun A) (hB : DigitRun B)
    (hC : DigitRun C) (h1 : (decimal_value A : Int) ≤ INT_MAX)
    (h2 : (decimal_value B : Int) ≤ INT_MAX) (h3 : (decimal_value C : Int) ≤ INT_MAX) :
    parseVersion (A ++ '.' :: (B ++ '.' :: C)) =
      Except.ok ⟨decimal_value A, decimal_value B, decimal_value C⟩ := by
  rw [parseVersion_format A B C hA hB hC, if_pos ⟨h1, h2, h3⟩]

/-- Witness of C25 amended: `001.2.3` is parsed as major 1, minor 2, patch 3. -/
theorem parseVersion_components_witness :
    (DigitRun "001".toList ∧ DigitRun "2".toList ∧ DigitRun "3".toList) ∧
      parseVersion ("001".toList ++ '.' :: ("2".toList ++ '.' :: "3".toList)) =
        Except.ok ⟨decimal_value "001".toList, decimal_value "2".toList,
          decimal_value "3".toList⟩ ∧
      decimal_value "001".toList = 1 :=
  ⟨⟨⟨by decide, by decide⟩, ⟨by decide, by decide⟩, ⟨by decide, by decide⟩⟩,
    parseVersion_components "001".toList "2".toList "3".toList ⟨by decide, by decide⟩
      ⟨by decide, by decide⟩ ⟨by decide, by decide⟩ (by decide) (by decide) (by decide),
    by decide⟩

/-! ## Comparing versions -/

/-- The result of `compareVersions` on two strings that `parseVersion` accepts. -/
theorem compareVersions_parsed (v1 v2 : List Char) (ver1 ver2 : Version)
    (h1 : parseVersion v1 = Except.ok ver1) (h2 : parseVersion v2 = Except.ok ver2) :
    compareVersions v1 v2 =
      Except.ok
        (if ver1.major ≠ ver2.major then (if ver1.major > ver2.major then 1 else -1)
        else if ver1.minor ≠ ver2.minor then (if ver1.minor > ver2.minor then 1 else -1)
        else if ver1.patch ≠ ver2.patch then (if ver1.patch > ver2.patch then 1 else -1)
        else 0) := by
  unfold compareVersions
  rw [h1, h2]
  simp only [bind, Except.bind, pure, Except.pure]
  split_ifs <;> rfl

/-- The order `Version.lex_lt` is the lexicographic order of the triples of major, minor
and patch. -/
theorem lex_lt_iff_toLex (x y : Version) :
    x.lex_lt y ↔
      toLex (x.major, toLex (x.minor, x.patch)) < toLex (y.major, toLex (y.minor, y.patch)) := by
  unfold Version.lex_lt
  rw [Prod.Lex.lt_iff]
  simp only [ofLex_toLex]
  rw [Prod.Lex.lt_iff]

/-- C26 (`compareVersions` is the lexicographic order on major, minor and patch): for
all valid version strings `v1`, `v2`, those that `parseVersion` accepts, it returns -1
exactly when the version of `v1` is below that of `v2` in the lexicographic order that
compares major first, then minor, then patch, 0 exactly when the parsed versions are
equal and 1 exactly when the version of `v1` is above; one of the three holds, and
`compareVersions(v1, v2) == -compareVersions(v2, v1)`. -/
theorem compareVersions_lexicographic (v1 v2 : List Char) (ver1 ver2 : Version)
    (h1 : parseVersion v1 = Except.ok ver1) (h2 : parseVersion v2 = Except.ok ver2) :
    (compareVersions v1 v2 = Except.ok (-1) ↔ ver1.lex_lt ver2) ∧
      (compareVersions v1 v2 = Except.ok 0 ↔ ver1 = ver2) ∧
      (compareVersions v1 v2 = Except.ok 1 ↔ ver2.lex_lt ver1) ∧
      (ver1.lex_lt ver2 ∨ ver1 = ver2 ∨ ver2.lex_lt ver1) ∧
      ∃ r, compareVersions v1 v2 = Except.ok r ∧ compareVersions v2 v1 = Except.ok (-r) := by
  rw [compareVersions_parsed v1 v2 ver1 ver2 h1 h2, compareVersions_parsed v2 v1 ver2 ver1 h2 h1]
  obtain ⟨a, b, c⟩ := ver1
  obtain ⟨a1, b1, c1⟩ := ver2
  simp only [Version.lex_lt, Except.ok.injEq, Version.mk.injEq]
  refine ⟨?_, ?_, ?_, ?_, ?_⟩
  · split_ifs <;> (try simp only [false_iff, true_iff]) <;> omega
  · split_ifs <;> (try simp only [false_iff, true_iff]) <;> omega
  · split_ifs <;> (try simp only [false_iff, true_iff]) <;> omega
  · omega
  · refine ⟨_, rfl, ?_⟩
    split_ifs <;> omega

/-- Witness of C26: the versions `1.0.1` and `1.0.0` of the test `VersionComparison`. -/
theorem compareVersions_lexicographic_witness :
    (parseVersion "1.0.1".toList = Except.ok ⟨1, 0, 1⟩ ∧
        parseVersion "1.0.0".toList = Except.ok ⟨1, 0, 0⟩) ∧
      (compareVersions "1.0.1".toList "1.0.0".toList = Except.ok (-1) ↔
        Version.lex_lt ⟨1, 0, 1⟩ ⟨1, 0, 0⟩) ∧
      (compareVersions "1.0.1".toList "1.0.0".toList = Except.ok 0 ↔
        (⟨1, 0, 1⟩ : Version) = ⟨1, 0, 0⟩) ∧
      (compareVersions "1.0.1".toList "1.0.0".toList = Except.ok 1 ↔
        Version.lex_lt ⟨1, 0, 0⟩ ⟨1, 0, 1⟩) ∧
      (Version.lex_lt ⟨1, 0, 1⟩ ⟨1, 0, 0⟩ ∨ (⟨1, 0, 1⟩ : Version) = ⟨1, 0, 0⟩ ∨
        Version.lex_lt ⟨1, 0, 0⟩ ⟨1, 0, 1⟩) ∧
      ∃ r, compareVersions "1.0.1".toList "1.0.0".toList = Except.ok r ∧
        compareVersions "1.0.0".toList "1.0.1".toList = Except.ok (-r) :=
  ⟨⟨by decide, by decide⟩,
    compareVersions_lexicographic "1.0.1".toList "1.0.0".toList ⟨1, 0, 1⟩ ⟨1, 0, 0⟩
      (by decide) (by decide)⟩

/-! ## Version constraints -/

theorem is_op_char_toNat (x : Char) (h : is_op_char x = true) :
    x.toNat = 62 ∨ x.toNat = 61 ∨ x.toNat = 60 ∨ x.toNat = 126 := by
  unfold is_op_char at h
  simp only [Bool.or_eq_true, decide_eq_true_eq] at h
  rcases h with ((rfl | rfl) | rfl) | rfl <;> decide

theorem isdigit_not_op (x : Char) (h : isdigit x = true) : is_op_char x = false := by
  cases hx : is_op_char x with
  | false => rfl
  | true =>
    have h1 := is_op_char_toNat x hx
    unfold isdigit at h
    simp only [Bool.and_eq_true, decide_eq_true_eq] at h
    omega

theorem isspace_not_op (x : Char) (h : isspace x = true) : is_op_char x = false := by
  cases hx : is_op_char x with
  | false => rfl
  | true =>
    have h1 := is_op_char_toNat x hx
    unfold isspace at h
    simp only [Bool.or_eq_true, Bool.and_eq_true, decide_eq_true_eq] at h
    omega

/-- A string that `parseVersion` accepts starts with a digit and holds only digits and
dots. -/
theorem parsed_chars (c : List Char) (cver : Version) (h : parseVersion c = Except.ok cver) :
    (∃ d t, c = d :: t ∧ isdigit d = true) ∧ ∀ x ∈ c, is_ver_char x = true := by
  obtain ⟨A, B, C, hA, hB, hC, rfl, _⟩ := (parseVersion_ok c cver).mp h
  constructor
  · obtain ⟨hne, hd⟩ := hA
    cases A with
    | nil => exact absurd rfl hne
    | cons d t => exact ⟨d, _, rfl, hd d (List.mem_cons_self _ _)⟩
  · intro x hx
    unfold is_ver_char
    simp only [List.mem_append, List.mem_cons] at hx
    rcases hx with hx | rfl | hx | rfl | hx
    · rw [hA.2 x hx]; rfl
    · decide
    · rw [hB.2 x hx]; rfl
    · decide
    · rw [hC.2 x hx]; rfl

/-- The search of the constraint pattern in an operator followed by white space and a
version finds the operator and the version. -/
theorem constraint_regex_search_spec (op ws c : List Char) (hop : op ≠ [])
    (hop2 : ∀ x ∈ op, is_op_char x = true) (hws : ∀ x ∈ ws, isspace x = true)
    (hd : ∃ d t, c = d :: t ∧ isdigit d = true) (hc : ∀ x ∈ c, is_ver_char x = true) :
    constraint_regex_search (op ++ (ws ++ c)) = some (op, c) := by
  obtain ⟨d, t, rfl, hdig⟩ := hd
  have hrest : ∃ y r, ws ++ d :: t = y :: r ∧ is_op_char y = false := by
    cases ws with
    | nil => exact ⟨d, t, rfl, isdigit_not_op d hdig⟩
    | cons y r => exact ⟨y, _, rfl, isspace_not_op y (hws y (List.mem_cons_self _ _))⟩
  obtain ⟨y, r, hyr, hy⟩ := hrest
  have e1 : (op ++ (ws ++ d :: t)).takeWhile is_op_char = op := by
    rw [List.takeWhile_append_of_pos hop2, hyr, List.takeWhile_cons_of_neg (by simp [hy]),
      List.append_nil]
  have e2 : (op ++ (ws ++ d :: t)).dropWhile is_op_char = ws ++ d :: t := by
    rw [List.dropWhile_append_of_pos hop2, hyr, List.dropWhile_cons_of_neg (by simp [hy])]
  have e3 : (ws ++ d :: t).dropWhile isspace = d :: t := by
    rw [List.dropWhile_append_of_pos hws,
      List.dropWhile_cons_of_neg (by simp [isdigit_not_isspace d hdig])]
  have e4 : (d :: t).takeWhile is_ver_char = d :: t := List.takeWhile_eq_self_iff.mpr hc
  have hm : constraint_match_here (op ++ (ws ++ d :: t)) = some (op, d :: t) := by
    unfold constraint_match_here
    rw [e1, e2, e3, e4, if_pos ⟨hop, List.cons_ne_nil _ _⟩]
  cases op with
  | nil => exact absurd rfl hop
  | cons o op1 =>
    rw [List.cons_append] at hm ⊢
    unfold constraint_regex_search
    rw [hm]

/-- The result of `checkVersionConstraint` on a valid version and a constraint made of
operator characters, white space and a valid version. -/
theorem checkVersionConstraint_parsed (v c ws op : List Char) (ver cver : Version)
    (hv : parseVersion v = Except.ok ver) (hc : parseVersion c = Except.ok cver)
    (hop : op ≠ []) (hop2 : ∀ x ∈ op, is_op_char x = true)
    (hws : ∀ x ∈ ws, isspace x = true) :
    ∃ comparison : Int, compareVersions v c = Except.ok comparison ∧
      checkVersionConstraint v (op ++ (ws ++ c)) =
        Except.ok (op_decides op comparison ver cver) := by
  obtain ⟨hd, hcs⟩ := parsed_chars c cver hc
  refine ⟨_, compareVersions_parsed v c ver cver hv hc, ?_⟩
  unfold checkVersionConstraint
  rw [hv]
  simp only [bind, Except.bind]
  rw [constraint_regex_search_spec op ws c hop hop2 hws hd hcs]
  dsimp only
  rw [hc, compareVersions_parsed v c ver cver hv hc]
  rfl

/-- The decision of each of the six operators. -/
theorem op_decides_cases (r : Int) (ver cver : Version) :
    op_decides ['>', '='] r ver cver = decide (r ≥ 0) ∧
      op_decides ['>'] r ver cver = decide (r > 0) ∧
      op_decides ['<', '='] r ver cver = decide (r ≤ 0) ∧
      op_decides ['<'] r ver cver = decide (r < 0) ∧
      op_decides ['=', '='] r ver cver = decide (r = 0) ∧
      op_decides ['~'] r ver cver = decide (ver.major = cver.major) := by
  unfold op_decides
  refine ⟨?_, ?_, ?_, ?_, ?_, ?_⟩
  · rw [if_pos rfl]
  · rw [if_neg (by decide), if_pos rfl]
  · rw [if_neg (by decide), if_neg (by decide), if_pos rfl]
  · rw [if_neg (by decide), if_neg (by decide), if_neg (by decide), if_pos rfl]
  · rw [if_neg (by decide), if_neg (by decide), if_neg (by decide), if_neg (by decide),
      if_pos rfl]
  · rw [if_neg (by decide), if_neg (by decide), if_neg (by decide), if_neg (by decide),
      if_neg (by decide), if_pos rfl]

/-- The call `checkVersionConstraint` with a given operator in front of white space and
a valid version. -/
theorem checkVersionConstraint_op (v c ws op : List Char) (ver cver : Version) (r : Int)
    (hv : parseVersion v = Except.ok ver) (hc : parseVersion c = Except.ok cver)
    (hr : compareVersions v c = Except.ok r)
    (hop : op ≠ []) (hop2 : ∀ x ∈ op, is_op_char x = true)
    (hws : ∀ x ∈ ws, isspace x = true) :
    checkVersionConstraint v (op ++ (ws ++ c)) = Except.ok (op_decides op r ver cver) := by
  obtain ⟨r1, h1, h2⟩ := checkVersionConstraint_parsed v c ws op ver cver hv hc hop hop2 hws
  rw [hr] at h1
  rw [h2, ← Except.ok.inj h1]

/-- C27 (`checkVersionConstraint` comparison operators): for every valid version `v`,
one that `parseVersion` accepts, and every constraint made of an operator among `>=`,
`>`, `<=`, `<`, `==`, followed by optional white space and a valid version `c`,
`compareVersions(v, c)` returns a number `r` and `checkVersionConstraint(v, constraint)`
returns whether `r >= 0`, `r > 0`, `r <= 0`, `r < 0`, `r == 0` respectively. -/
theorem checkVersionConstraint_operators (v c ws : List Char) (ver cver : Version)
    (hv : parseVersion v = Except.ok ver) (hc : parseVersion c = Except.ok cver)
    (hws : ∀ x ∈ ws, isspace x = true) :
    ∃ r : Int, compareVersions v c = Except.ok r ∧
      checkVersionConstraint v (['>', '='] ++ (ws ++ c)) = Except.ok (decide (r ≥ 0)) ∧
      checkVersionConstraint v (['>'] ++ (ws ++ c)) = Except.ok (decide (r > 0)) ∧
      checkVersionConstraint v (['<', '='] ++ (ws ++ c)) = Except.ok (decide (r ≤ 0)) ∧
      checkVersionConstraint v (['<'] ++ (ws ++ c)) = Except.ok (decide (r < 0)) ∧
      checkVersionConstraint v (['=', '='] ++ (ws ++ c)) = Except.ok (decide (r = 0)) := by
  have hr := compareVersions_parsed v c ver cver hv hc
  obtain ⟨e1, e2, e3, e4, e5, _⟩ := op_decides_cases
    (if ver.major ≠ cver.major then (if ver.major > cver.major then 1 else -1)
      else if ver.minor ≠ cver.minor then (if ver.minor > cver.minor then 1 else -1)
      else if ver.patch ≠ cver.patch then (if ver.patch > cver.patch then 1 else -1)
      else 0) ver cver
  refine ⟨_, hr, ?_, ?_, ?_, ?_, ?_⟩
  · rw [checkVersionConstraint_op v c ws _ ver cver _ hv hc hr (by decide) (by decide) hws, e1]
  · rw [checkVersionConstraint_op v c ws _ ver cver _ hv hc hr (by decide) (by decide) hws, e2]
  · rw [checkVersionConstraint_op v c ws _ ver cver _ hv hc hr (by decide) (by decide) hws, e3]
  · rw [checkVersionConstraint_op v c ws _ ver cver _ hv hc hr (by decide) (by decide) hws, e4]
  · rw [checkVersionConstraint_op v c ws _ ver cver _ hv hc hr (by decide) (by decide) hws, e5]

/-- Witness of C27: the version `1.0.0` against `1.0.0` after one space. -/
theorem checkVersionConstraint_operators_witness :
    (parseVersion "1.0.0".toList = Except.ok ⟨1, 0, 0⟩ ∧ ∀ x ∈ [' '], isspace x = true) ∧
      ∃ r : Int, compareVersions "1.0.0".toList "1.0.0".toList = Except.ok r ∧
        checkVersionConstraint "1.0.0".toList (['>', '='] ++ ([' '] ++ "1.0.0".toList)) =
          Except.ok (decide (r ≥ 0)) ∧
        checkVersionConstraint "1.0.0".toList (['>'] ++ ([' '] ++ "1.0.0".toList)) =
          Except.ok (decide (r > 0)) ∧
        checkVersionConstraint "1.0.0".toList (['<', '='] ++ ([' '] ++ "1.0.0".toList)) =
          Except.ok (decide (r ≤ 0)) ∧
        checkVersionConstraint "1.0.0".toList (['<'] ++ ([' '] ++ "1.0.0".toList)) =
          Except.ok (decide (r < 0)) ∧
        checkVersionConstraint "1.0.0".toList (['=', '='] ++ ([' '] ++ "1.0.0".toList)) =
          Except.ok (decide (r = 0)) :=
  ⟨⟨by decide, by decide⟩,
    checkVersionConstraint_operators "1.0.0".toList "1.0.0".toList [' '] ⟨1, 0, 0⟩ ⟨1, 0, 0⟩
      (by decide) (by decide) (by decide)⟩

/-- C28 (tilde constraint): for all valid versions `v` and `c`, those that
`parseVersion` accepts, `checkVersionConstraint(v, "~" + c)` returns whether `v` and `c`
have the same major component, whatever their minor and patch: it is true if and only
if the major components are equal. -/
theorem tilde_constraint (v c : List Char) (ver cver : Version)
    (hv : parseVersion v = Except.ok ver) (hc : parseVersion c = Except.ok cver) :
    checkVersionConstraint v ('~' :: c) = Except.ok (decide (ver.major = cver.major)) ∧
      (checkVersionConstraint v ('~' :: c) = Except.ok true ↔ ver.major = cver.major) := by
  have hr := compareVersions_parsed v c ver cver hv hc
  have h := checkVersionConstraint_op v c [] ['~'] ver cver _ hv hc hr (by decide) (by decide)
    (by simp)
  rw [(op_decides_cases _ ver cver).2.2.2.2.2] at h
  have e : ['~'] ++ ([] ++ c) = '~' :: c := rfl
  rw [e] at h
  refine ⟨h, ?_⟩
  rw [h, Except.ok.injEq, decide_eq_true_eq]

/-- Witness of C28: `1.1.0` satisfies `~1.0.0`, as in the test `VersionConstraints`. -/
theorem tilde_constraint_witness :
    (parseVersion "1.1.0".toList = Except.ok ⟨1, 1, 0⟩ ∧
        parseVersion "1.0.0".toList = Except.ok ⟨1, 0, 0⟩) ∧
      checkVersionConstraint "1.1.0".toList ('~' :: "1.0.0".toList) =
        Except.ok (decide ((1 : Int) = 1)) ∧
      (checkVersionConstraint "1.1.0".toList ('~' :: "1.0.0".toList) = Except.ok true ↔
        (1 : Int) = 1) :=
  ⟨⟨by decide, by decide⟩,
    tilde_constraint "1.1.0".toList "1.0.0".toList ⟨1, 1, 0⟩ ⟨1, 0, 0⟩ (by decide) (by decide)⟩

/-! ## The expectations of the repository's tests -/

/-- The expectations of the tests `VersionParsing`, `VersionComparison` and
`VersionCompatibility`. -/
theorem tests_of_versions :
    parseVersion "1.2.3".toList = Except.ok ⟨1, 2, 3⟩ ∧
      compareVersions "1.0.0".toList "1.0.0".toList = Except.ok 0 ∧
      compareVersions "1.0.1".toList "1.0.0".toList = Except.ok 1 ∧
      compareVersions "1.0.0".toList "1.0.1".toList = Except.ok (-1) ∧
      compareVersions "2.0.0".toList "1.0.0".toList = Except.ok 1 ∧
      compareVersions "1.0.0".toList "2.0.0".toList = Except.ok (-1) ∧
      checkVersionCompatibility "1.0.0".toList "1.2.3".toList = Except.ok true ∧
      checkVersionCompatibility "1.2.3".toList "1.0.0".toList = Except.ok true ∧
      checkVersionCompatibility "2.0.0".toList "1.0.0".toList = Except.ok false ∧
      checkVersionCompatibility "1.0.0".toList "2.0.0".toList = Except.ok false := by
  decide

/-- The expectations of the test `VersionConstraints`. -/
theorem tests_of_constraints :
    checkVersionConstraint "1.0.0".toList ">=1.0.0".toList = Except.ok true ∧
      checkVersionConstraint "1.0.0".toList "<=1.0.0".toList = Except.ok true ∧
      checkVersionConstraint "1.0.0".toList "==1.0.0".toList = Except.ok true ∧
      checkVersionConstraint "1.1.0".toList "~1.0.0".toList = Except.ok true ∧
      checkVersionConstraint "1.0.0".toList ">1.0.0".toList = Except.ok false ∧
      checkVersionConstraint "1.0.0".toList "<1.0.0".toList = Except.ok false ∧
      checkVersionConstraint "2.0.0".toList "~1.0.0".toList = Except.ok false := by
  decide

/-- The expectations of the test `MetadataValidation`. -/
theorem tests_of_validation :
    validateMetadata ⟨"TestPlugin".toList, "1.0.0".toList, "A test plugin".toList,
        "Test Author".toList, "MIT".toList⟩ = Except.ok () ∧
      validateMetadata ⟨[], "1.0.0".toList, "A test plugin".toList,
        "Test Author".toList, "MIT".toList⟩ = Except.error Exn.MetadataError ∧
      validateMetadata ⟨"TestPlugin".toList, [], "A test plugin".toList,
        "Test Author".toList, "MIT".toList⟩ = Except.error Exn.MetadataError ∧
      validateMetadata ⟨"TestPlugin".toList, "1.0.0".toList, "A test plugin".toList,
        [], "MIT".toList⟩ = Except.error Exn.MetadataError := by
  decide

/-! ## Compatibility and validation -/

/-- What `checkVersionCompatibility` does when `std::stoi` does not throw: on two valid
versions it returns whether the major components are equal, and it returns `false` when
the first string is not of the version form, or the first is valid and the second is not
of the form. -/
theorem checkVersionCompatibility_spec (v1 v2 : List Char) :
    (∀ ver1 ver2, parseVersion v1 = Except.ok ver1 → parseVersion v2 = Except.ok ver2 →
        checkVersionCompatibility v1 v2 = Except.ok (decide (ver1.major = ver2.major))) ∧
      (¬ VersionFormat v1 → checkVersionCompatibility v1 v2 = Except.ok false) ∧
      (∀ ver1, parseVersion v1 = Except.ok ver1 → ¬ VersionFormat v2 →
        checkVersionCompatibility v1 v2 = Except.ok false) := by
  refine ⟨?_, ?_, ?_⟩
  · intro ver1 ver2 h1 h2
    unfold checkVersionCompatibility
    rw [h1, h2]
    rfl
  · intro h1
    unfold checkVersionCompatibility
    rw [(parseVersion_MetadataError v1).mpr h1]
    rfl
  · intro ver1 h1 h2
    unfold checkVersionCompatibility
    rw [h1, (parseVersion_MetadataError v2).mpr h2]
    rfl

/-- When `validateMetadata` throws `MetadataError`, and that the description and the
license do not matter. -/
theorem validateMetadata_spec (m : PluginMetadata) :
    (validateMetadata m = Except.error Exn.MetadataError ↔
        m.name = [] ∨ m.version = [] ∨ ¬ VersionFormat m.version ∨
          ((∃ v, parseVersion m.version = Except.ok v) ∧ m.author = [])) ∧
      ∀ d l, validateMetadata { m with description := d, license := l } =
        validateMetadata m := by
  refine ⟨?_, fun d l => rfl⟩
  unfold validateMetadata
  by_cases hn : m.name = []
  · simp [hn]
  · by_cases hv : m.version = []
    · simp [hn, hv]
    · rw [if_neg hn, if_neg hv]
      cases hp : parseVersion m.version with
      | error e =>
        cases e with
        | MetadataError =>
          have hf := (parseVersion_MetadataError m.version).mp hp
          simp [catch_MetadataError, hn, hv, hf]
        | out_of_range =>
          have hf : VersionFormat m.version := by
            by_contra hf
            rw [(parseVersion_MetadataError m.version).mpr hf] at hp
            cases hp
          simp [catch_MetadataError, hn, hv, hf]
        | invalid_argument =>
          have hf : VersionFormat m.version := by
            by_contra hf
            rw [(parseVersion_MetadataError m.version).mpr hf] at hp
            cases hp
          simp [catch_MetadataError, hn, hv, hf]
      | ok v =>
        have hf : VersionFormat m.version := by
          by_contra hf
          rw [(parseVersion_MetadataError m.version).mpr hf] at hp
          cases hp
        by_cases ha : m.author = []
        · simp [catch_MetadataError, hn, hv, hf, ha]
        · simp [catch_MetadataError, hn, hv, hf, ha]

/-- C29 (`checkVersionCompatibility`), the failing input: with the first version
`2147483648.0.0`, three runs of digits whose first value does not fit an `int`, the call
does not return a boolean: the `std::out_of_range` of `std::stoi` passes the handler for
`MetadataError`. The call is not symmetric either: with `invalid` first it returns
`false`, with `invalid` second it throws. -/
theorem checkVersionCompatibility_raises :
    checkVersionCompatibility "2147483648.0.0".toList "1.0.0".toList =
        Except.error Exn.out_of_range ∧
      checkVersionCompatibility "invalid".toList "2147483648.0.0".toList = Except.ok false ∧
      checkVersionCompatibility "2147483648.0.0".toList "invalid".toList =
        Except.error Exn.out_of_range := by
  decide

/-- C30 (`validateMetadata`), the failing input: with a name, the version
`2147483648.0.0` and an empty author, the call throws `std::out_of_range`, not
`MetadataError`: the exception of `std::stoi` passes the handler around `parseVersion`,
before the author is looked at; it does the same with an author. -/
theorem validateMetadata_raises_out_of_range :
    validateMetadata
        ⟨"TestPlugin".toList, "2147483648.0.0".toList, "A test plugin".toList, [],
          "MIT".toList⟩ = Except.error Exn.out_of_range ∧
      validateMetadata
        ⟨"TestPlugin".toList, "2147483648.0.0".toList, "A test plugin".toList,
          "Test Author".toList, "MIT".toList⟩ = Except.error Exn.out_of_range := by
  decide

/-! ## Constraints with more than one pair -/

/-- The result of `checkVersionConstraint` once the search in the constraint is known. -/
theorem checkVersionConstraint_of_search (v constraint op c : List Char) (ver cver : Version)
    (r : Int) (hv : parseVersion v = Except.ok ver) (hc : parseVersion c = Except.ok cver)
    (hr : compareVersions v c = Except.ok r)
    (hs : constraint_regex_search constraint = some (op, c)) :
    checkVersionConstraint v constraint = Except.ok (op_decides op r ver cver) := by
  unfold checkVersionConstraint
  rw [hv]
  simp only [bind, Except.bind]
  rw [hs]
  dsimp only
  rw [hc, hr]
  rfl

/-- The search of the constraint pattern in an operator, white space and a version,
followed by a character that is neither a digit nor a dot and by any text, finds the
operator and the version. -/
theorem constraint_regex_search_tail (op ws c rest : List Char) (sp : Char) (hop : op ≠ [])
    (hop2 : ∀ x ∈ op, is_op_char x = true) (hws : ∀ x ∈ ws, isspace x = true)
    (hd : ∃ d t, c = d :: t ∧ isdigit d = true) (hc : ∀ x ∈ c, is_ver_char x = true)
    (hsp : is_ver_char sp = false) :
    constraint_regex_search (op ++ (ws ++ (c ++ sp :: rest))) = some (op, c) := by
  obtain ⟨d, t, rfl, hdig⟩ := hd
  have hrest : ∃ y r, ws ++ (d :: t ++ sp :: rest) = y :: r ∧ is_op_char y = false := by
    cases ws with
    | nil => exact ⟨d, _, rfl, isdigit_not_op d hdig⟩
    | cons y r => exact ⟨y, _, rfl, isspace_not_op y (hws y (List.mem_cons_self _ _))⟩
  obtain ⟨y, r, hyr, hy⟩ := hrest
  have e1 : (op ++ (ws ++ (d :: t ++ sp :: rest))).takeWhile is_op_char = op := by
    rw [List.takeWhile_append_of_pos hop2, hyr, List.takeWhile_cons_of_neg (by simp [hy]),
      List.append_nil]
  have e2 : (op ++ (ws ++ (d :: t ++ sp :: rest))).dropWhile is_op_char =
      ws ++ (d :: t ++ sp :: rest) := by
    rw [List.dropWhile_append_of_pos hop2, hyr, List.dropWhile_cons_of_neg (by simp [hy])]
  have e3 : (ws ++ (d :: t ++ sp :: rest)).dropWhile isspace = d :: t ++ sp :: rest := by
    rw [List.dropWhile_append_of_pos hws, List.cons_append,
      List.dropWhile_cons_of_neg (by simp [isdigit_not_isspace d hdig])]
  have e4 : (d :: t ++ sp :: rest).takeWhile is_ver_char = d :: t := by
    rw [List.takeWhile_append_of_pos hc, List.takeWhile_cons_of_neg (by simp [hsp]),
      List.append_nil]
  have hm : constraint_match_here (op ++ (ws ++ (d :: t ++ sp :: rest))) =
      some (op, d :: t) := by
    unfold constraint_match_here
    rw [e1, e2, e3, e4, if_pos ⟨hop, List.cons_ne_nil _ _⟩]
  cases op with
  | nil => exact absurd rfl hop
  | cons o op1 =>
    rw [List.cons_append] at hm ⊢
    unfold constraint_regex_search
    rw [hm]

/-- C40 (only the first operator-version pair of a constraint is evaluated): for every
valid version `v`, one that `parseVersion` accepts, every single constraint `c1` made of
one of the six operators followed by a valid version, and every text `c2`, in particular
a second single constraint, `checkVersionConstraint(v, c1 + " " + c2)` returns what
`checkVersionConstraint(v, c1)` returns, a boolean; so `3.0.0` satisfies
`>=1.0.0 <2.0.0`. -/
theorem first_pair_only (v op1 cv1 c2 : List Char) (ver cver1 : Version)
    (hv : parseVersion v = Except.ok ver) (h1 : parseVersion cv1 = Except.ok cver1)
    (hop : op1 ∈ operators) :
    checkVersionConstraint v (op1 ++ cv1 ++ ' ' :: c2) = checkVersionConstraint v (op1 ++ cv1) ∧
      (∃ b, checkVersionConstraint v (op1 ++ cv1) = Except.ok b) ∧
      checkVersionConstraint "3.0.0".toList ">=1.0.0 <2.0.0".toList = Except.ok true := by
  have hne : op1 ≠ [] := by
    intro e
    subst e
    exact absurd hop (by decide)
  have hop2 : ∀ x ∈ op1, is_op_char x = true := by
    unfold operators at hop
    simp only [List.mem_cons, List.mem_singleton, List.not_mem_nil, or_false] at hop
    rcases hop with rfl | rfl | rfl | rfl | rfl | rfl <;> decide
  obtain ⟨hd, hcs⟩ := parsed_chars cv1 cver1 h1
  have hr := compareVersions_parsed v cv1 ver cver1 hv h1
  have hs1 := constraint_regex_search_spec op1 [] cv1 hne hop2 (by simp) hd hcs
  have hs2 := constraint_regex_search_tail op1 [] cv1 c2 ' ' hne hop2 (by simp) hd hcs
    (by decide)
  rw [List.nil_append] at hs1 hs2
  rw [List.append_assoc,
    checkVersionConstraint_of_search v _ op1 cv1 ver cver1 _ hv h1 hr hs1,
    checkVersionConstraint_of_search v _ op1 cv1 ver cver1 _ hv h1 hr hs2]
  exact ⟨rfl, ⟨_, rfl⟩, by decide⟩

/-- Witness of C40: the version `3.0.0` against `>=1.0.0` followed by `<2.0.0`. -/
theorem first_pair_only_witness :
    (parseVersion "3.0.0".toList = Except.ok ⟨3, 0, 0⟩ ∧
        parseVersion "1.0.0".toList = Except.ok ⟨1, 0, 0⟩ ∧ ['>', '='] ∈ operators) ∧
      checkVersionConstraint "3.0.0".toList
          (['>', '='] ++ "1.0.0".toList ++ ' ' :: "<2.0.0".toList) =
        checkVersionConstraint "3.0.0".toList (['>', '='] ++ "1.0.0".toList) :=
  ⟨⟨by decide, by decide, by decide⟩,
    (first_pair_only "3.0.0".toList ['>', '='] "1.0.0".toList "<2.0.0".toList ⟨3, 0, 0⟩
      ⟨1, 0, 0⟩ (by decide) (by decide) (by decide)).1⟩

/-! ## Dependencies -/

/-- The loop of `getMissingDependencies` when every check of a constraint returns: one
message for each unsatisfied dependency, in the order of the dependencies. -/
theorem missing_loop_spec (available : List (List Char × List Char)) :
    ∀ (deps : List (List Char × List Char)) (missing : List (List Char)),
      (∀ dep ∈ deps, ∀ found, map_find available dep.1 = some found →
        ∃ b, checkVersionConstraint found dep.2 = Except.ok b) →
      missing_loop available deps missing =
        Except.ok (missing ++
          (deps.filter (unsatisfied available)).map (dependency_message available)) := by
  intro deps
  induction deps with
  | nil => intro missing _; simp [missing_loop]
  | cons dep rest ih =>
    intro missing h
    have hrest : ∀ d ∈ rest, ∀ found, map_find available d.1 = some found →
        ∃ b, checkVersionConstraint found d.2 = Except.ok b :=
      fun d hd => h d (List.mem_cons_of_mem _ hd)
    unfold missing_loop
    cases hf : map_find available dep.1 with
    | none =>
      have hu : unsatisfied available dep = true := by
        unfold unsatisfied
        rw [hf]
      have hm : dependency_message available dep = missing_message dep.1 := by
        unfold dependency_message
        rw [hf]
      dsimp only
      rw [ih _ hrest, List.filter_cons_of_pos hu, List.map_cons, hm, List.append_assoc]
      rfl
    | some found =>
      obtain ⟨b, hb⟩ := h dep (List.mem_cons_self _ _) found hf
      have hm : dependency_message available dep = mismatch_message dep.1 dep.2 found := by
        unfold dependency_message
        rw [hf]
      dsimp only
      rw [hb]
      cases b with
      | true =>
        have hu : ¬ (unsatisfied available dep = true) := by
          unfold unsatisfied
          rw [hf]
          simp [hb]
        dsimp only
        rw [ih _ hrest, List.filter_cons_of_neg hu]
      | false =>
        have hu : unsatisfied available dep = true := by
          unfold unsatisfied
          rw [hf]
          simp [hb]
        dsimp only
        rw [ih _ hrest, List.filter_cons_of_pos hu, List.map_cons, hm, List.append_assoc]
        rfl

/-- What `getMissingDependencies` and `checkDependencies` do when every check of a
constraint returns: exactly one message for each dependency that is not available or
whose available version does not satisfy its constraint, in the order of the map, by
increasing id, and none for a satisfied dependency; `checkDependencies` returns whether
this list is empty. -/
theorem getMissingDependencies_spec (metadata : ExtendedPluginMetadata)
    (available : List (List Char × List Char))
    (hs : metadata.dependencies.Pairwise (fun a b => a.1 < b.1))
    (hret : ∀ dep ∈ metadata.dependencies, ∀ found, map_find available dep.1 = some found →
      ∃ b, checkVersionConstraint found dep.2 = Except.ok b) :
    getMissingDependencies metadata available =
        Except.ok (((metadata.dependencies.filter (unsatisfied available)).map
          (dependency_message available))) ∧
      (metadata.dependencies.filter (unsatisfied available)).Pairwise (fun a b => a.1 < b.1) ∧
      checkDependencies metadata available =
        Except.ok (((metadata.dependencies.filter (unsatisfied available)).map
          (dependency_message available))).isEmpty := by
  have h := missing_loop_spec available metadata.dependencies [] hret
  rw [List.nil_append] at h
  refine ⟨h, hs.sublist (List.filter_sublist _), ?_⟩
  unfold checkDependencies getMissingDependencies
  rw [h]

/-- The expectations of the test `DependencyResolution`. -/
theorem tests_of_dependencies :
    checkDependencies
        (metadata_with [("dep1".toList, ">=1.0.0".toList), ("dep2".toList, "~2.0.0".toList)])
        [("dep1".toList, "1.5.0".toList), ("dep2".toList, "2.3.0".toList)] = Except.ok true ∧
      getMissingDependencies
        (metadata_with [("dep1".toList, ">=1.0.0".toList), ("dep2".toList, "~2.0.0".toList)])
        [("dep1".toList, "1.5.0".toList)] = Except.ok [missing_message "dep2".toList] ∧
      getMissingDependencies
        (metadata_with [("dep1".toList, ">=1.0.0".toList), ("dep2".toList, "~2.0.0".toList)])
        [("dep1".toList, "0.9.0".toList), ("dep2".toList, "2.3.0".toList)] =
          Except.ok [mismatch_message "dep1".toList ">=1.0.0".toList "0.9.0".toList] := by
  decide

/-- C31 (dependency resolution), the failing input: with the dependency `dep1` on
`>=1.0.0` and the available version `2147483648.0.0` of `dep1`,
`getMissingDependencies` returns no list of messages and `checkDependencies` no boolean:
both throw the `std::out_of_range` that `std::stoi` throws inside
`checkVersionConstraint`, which only catches `MetadataError`. -/
theorem getMissingDependencies_raises :
    getMissingDependencies (metadata_with [("dep1".toList, ">=1.0.0".toList)])
        [("dep1".toList, "2147483648.0.0".toList)] = Except.error Exn.out_of_range ∧
      checkDependencies (metadata_with [("dep1".toList, ">=1.0.0".toList)])
        [("dep1".toList, "2147483648.0.0".toList)] = Except.error Exn.out_of_range := by
  decide

/-! ## The plugin loader -/

theorem is_loaded_iff (m : List (List Char × PluginLibrary)) (k : List Char) :
    is_loaded m k = true ↔ k ∈ m.map Prod.fst := by
  unfold is_loaded
  simp only [List.any_eq_true, decide_eq_true_eq, List.mem_map]

/-- The three cases of `loadPlugin`. -/
theorem loadPlugin_cases (os : OS) (m : List (List Char × PluginLibrary)) (p : List Char) :
    (can_load os m p = false ∧ loadPlugin os m p = (Except.error LoadExn.PluginLoadError, m)) ∨
      (can_load os m p = true ∧
        loadPlugin os m p =
          (Except.ok ⟨os.dlopen (os.absolute p), os.absolute p⟩,
            m ++ [(os.absolute p, ⟨os.dlopen (os.absolute p), os.absolute p⟩)])) := by
  unfold can_load loadPlugin PluginLibrary.new
  by_cases h1 : is_loaded m (os.absolute p) = true
  · left
    rw [if_pos h1, h1]
    exact ⟨rfl, rfl⟩
  · by_cases h2 : os.dlopen (os.absolute p) = 0
    · left
      rw [if_neg h1, if_pos h2]
      simp [h2]
    · right
      rw [if_neg h1, if_neg h2]
      simp [h1, h2]

/-- C32 (no duplicate load): `loadPlugin(path)` throws `PluginLoadError` when the
absolute form of `path` is already a key of the map of loaded plugins; whenever it
throws, because of a duplicate or because the operating system does not open the
library, the map is left unchanged; and when it returns, the absolute path was no key
and exactly one entry is added, keyed by the absolute path and holding the library
returned. -/
theorem no_duplicate_load (os : OS) (m : List (List Char × PluginLibrary))
    (library_path : List Char) :
    (os.absolute library_path ∈ m.map Prod.fst →
        loadPlugin os m library_path = (Except.error LoadExn.PluginLoadError, m)) ∧
      (os.dlopen (os.absolute library_path) = 0 →
        loadPlugin os m library_path = (Except.error LoadExn.PluginLoadError, m)) ∧
      (∀ e, (loadPlugin os m library_path).1 = Except.error e →
        e = LoadExn.PluginLoadError ∧ (loadPlugin os m library_path).2 = m ∧
          (os.absolute library_path ∈ m.map Prod.fst ∨
            os.dlopen (os.absolute library_path) = 0)) ∧
      ∀ lib, (loadPlugin os m library_path).1 = Except.ok lib →
        os.absolute library_path ∉ m.map Prod.fst ∧
          (loadPlugin os m library_path).2 = m ++ [(os.absolute library_path, lib)] ∧
          lib = ⟨os.dlopen (os.absolute library_path), os.absolute library_path⟩ ∧
          lib.handle_ ≠ 0 := by
  have hcl : can_load os m library_path = true ↔
      os.absolute library_path ∉ m.map Prod.fst ∧ os.dlopen (os.absolute library_path) ≠ 0 := by
    unfold can_load
    rw [Bool.and_eq_true, Bool.not_eq_true', decide_eq_true_eq, ← is_loaded_iff,
      Bool.not_eq_true]
  rcases loadPlugin_cases os m library_path with ⟨hc, h⟩ | ⟨hc, h⟩
  · have hn : ¬ (os.absolute library_path ∉ m.map Prod.fst ∧
        os.dlopen (os.absolute library_path) ≠ 0) := by
      rw [← hcl, hc]
      simp
    rw [h]
    refine ⟨fun _ => rfl, fun _ => rfl, ?_, ?_⟩
    · intro e he
      refine ⟨(Except.error.inj he).symm, rfl, ?_⟩
      by_contra hcon
      exact hn ⟨fun hk => hcon (Or.inl hk), fun hz => hcon (Or.inr hz)⟩
    · intro lib hl
      cases hl
  · obtain ⟨hk, hz⟩ := hcl.mp hc
    rw [h]
    refine ⟨fun h1 => absurd h1 hk, fun h1 => absurd h1 hz, ?_, ?_⟩
    · intro e he
      cases he
    · intro lib hl
      have e := Except.ok.inj hl
      subst e
      exact ⟨hk, rfl, rfl, hz⟩

/-- Witness of C32: on `example_os` the library `plugins/math.so` is loaded into the
empty map, and a second load of it is refused with the map unchanged. -/
theorem no_duplicate_load_witness :
    (loadPlugin example_os [] "plugins/math.so".toList).1 =
        Except.ok ⟨7, "/app/plugins/math.so".toList⟩ ∧
      (loadPlugin example_os [] "plugins/math.so".toList).2 =
        [("/app/plugins/math.so".toList, ⟨7, "/app/plugins/math.so".toList⟩)] ∧
      loadPlugin example_os (loadPlugin example_os [] "plugins/math.so".toList).2
          "plugins/math.so".toList =
        (Except.error LoadExn.PluginLoadError,
          (loadPlugin example_os [] "plugins/math.so".toList).2) :=
  ⟨by decide,
    ((no_duplicate_load example_os [] "plugins/math.so".toList).2.2.2
      ⟨7, "/app/plugins/math.so".toList⟩ (by decide)).2.1,
    (no_duplicate_load example_os (loadPlugin example_os [] "plugins/math.so".toList).2
      "plugins/math.so".toList).1 (by decide)⟩

theorem starts_with_iff (pat : List Char) :
    ∀ s : List Char, starts_with s pat = true ↔ ∃ post, s = pat ++ post := by
  induction pat with
  | nil =>
    intro s
    rw [starts_with]
    exact ⟨fun _ => ⟨s, rfl⟩, fun _ => rfl⟩
  | cons d pat ih =>
    intro s
    cases s with
    | nil =>
      rw [starts_with]
      constructor
      · intro h; cases h
      · rintro ⟨post, h⟩; cases h
    | cons c s =>
      rw [starts_with, Bool.and_eq_true, decide_eq_true_eq, ih s]
      constructor
      · rintro ⟨rfl, post, rfl⟩
        exact ⟨post, rfl⟩
      · rintro ⟨post, h⟩
        rw [List.cons_append, List.cons.injEq] at h
        exact ⟨h.1, post, h.2⟩

/-- The test of `std::string::find` succeeds exactly when the pattern is a substring. -/
theorem string_find_iff (pat : List Char) :
    ∀ s : List Char, string_find s pat = true ↔ ∃ pre post, s = pre ++ pat ++ post := by
  intro s
  induction s with
  | nil =>
    rw [string_find, starts_with_iff]
    constructor
    · rintro ⟨post, h⟩
      exact ⟨[], post, h⟩
    · rintro ⟨pre, post, h⟩
      have h1 := congrArg List.length h
      simp only [List.length_nil, List.length_append] at h1
      have hpre : pre = [] := List.length_eq_zero.mp (by omega)
      subst hpre
      exact ⟨post, h⟩
  | cons c rest ih =>
    rw [string_find, Bool.or_eq_true, starts_with_iff, ih]
    constructor
    · rintro (⟨post, h⟩ | ⟨pre, post, h⟩)
      · exact ⟨[], post, h⟩
      · exact ⟨c :: pre, post, by rw [h]; rfl⟩
    · rintro ⟨pre, post, h⟩
      cases pre with
      | nil => exact Or.inl ⟨post, h⟩
      | cons c1 pre =>
        rw [List.cons_append, List.cons_append, List.cons.injEq] at h
        exact Or.inr ⟨pre, post, h.2⟩

/-- The loop of the discovery attempts a load on the entries that pass the filter, one
after the other, and keeps the libraries loaded. -/
theorem discover_loop_spec (os : OS) (pattern : List Char) :
    ∀ (entries : List DirEntry) (m : List (List Char × PluginLibrary))
      (acc : List PluginLibrary),
      discover_loop os pattern entries m acc =
        (acc ++
          (load_each os ((entries.filter (passes_filter pattern)).map DirEntry.path) m).1,
          (load_each os ((entries.filter (passes_filter pattern)).map DirEntry.path) m).2) := by
  intro entries
  induction entries with
  | nil => intro m acc; simp [discover_loop, load_each]
  | cons e rest ih =>
    intro m acc
    unfold discover_loop
    by_cases h1 : e.is_regular_file = true
    · by_cases h2 : string_find (filename e.path) pattern = true
      · have hf : passes_filter pattern e = true := by
          unfold passes_filter
          rw [h1, h2]; rfl
        rw [if_pos h1, if_pos h2, List.filter_cons_of_pos hf, List.map_cons]
        rw [load_each]
        rcases loadPlugin_cases os m e.path with ⟨_, h⟩ | ⟨_, h⟩
        · rw [h]
          dsimp only
          rw [ih]
        · rw [h]
          dsimp only
          rw [ih, List.append_assoc]
          rfl
      · have hf : ¬ (passes_filter pattern e = true) := by
          unfold passes_filter
          rw [h1]
          simpa using h2
        rw [if_pos h1, if_neg h2, List.filter_cons_of_neg hf, ih]
    · have hf : ¬ (passes_filter pattern e = true) := by
        unfold passes_filter
        simp [h1]
      rw [if_neg h1, List.filter_cons_of_neg hf, ih]

/-- The text of `path.filename()` is the name of the file: it holds no separator and
the path is this text or ends in a separator followed by it. -/
theorem filename_spec (path : List Char) : is_filename_of (filename path) path := by
  unfold is_filename_of filename
  constructor
  · intro hmem
    have h1 := List.mem_takeWhile_imp (List.mem_reverse.mp hmem)
    simp at h1
  · have hsplit := List.takeWhile_append_dropWhile (fun c => decide (c ≠ '/')) path.reverse
    cases hd : path.reverse.dropWhile (fun c => decide (c ≠ '/')) with
    | nil =>
      left
      rw [hd, List.append_nil] at hsplit
      rw [hsplit, List.reverse_reverse]
    | cons c rest =>
      right
      have hc : c = '/' := by
        have h2 := List.head_dropWhile_not (fun c => decide (c ≠ '/')) path.reverse
          (by rw [hd]; exact List.cons_ne_nil _ _)
        simp only [hd, List.head_cons] at h2
        simpa using h2
      subst hc
      refine ⟨rest.reverse, ?_⟩
      have hrev := congrArg List.reverse hsplit
      rw [List.reverse_reverse, hd, List.reverse_append, List.reverse_cons,
        List.append_assoc] at hrev
      exact hrev.symm

/-- The name of the file of a path is the text of `path.filename()` and no other. -/
theorem filename_unique (name path : List Char) (h : is_filename_of name path) :
    name = filename path := by
  obtain ⟨hno, hp | ⟨parent, hp⟩⟩ := h
  · subst hp
    unfold filename
    have hall : ∀ c ∈ path.reverse, decide (c ≠ '/') = true := by
      intro c hc
      have : c ≠ '/' := fun e => hno (e ▸ List.mem_reverse.mp hc)
      simpa using this
    rw [List.takeWhile_eq_self_iff.mpr hall, List.reverse_reverse]
  · subst hp
    unfold filename
    have hall : ∀ c ∈ name.reverse, decide (c ≠ '/') = true := by
      intro c hc
      have : c ≠ '/' := fun e => hno (e ▸ List.mem_reverse.mp hc)
      simpa using this
    rw [List.reverse_append, List.reverse_cons, List.append_assoc,
      List.takeWhile_append_of_pos hall]
    simp

/-- Every library that a run of attempts returns comes from one of the paths attempted:
the operating system opened it and its absolute path was no key of the map at the
start. -/
theorem load_each_sound (os : OS) :
    ∀ (ps : List (List Char)) (m : List (List Char × PluginLibrary)),
      ∀ lib ∈ (load_each os ps m).1, ∃ p ∈ ps,
        lib = ⟨os.dlopen (os.absolute p), os.absolute p⟩ ∧ os.dlopen (os.absolute p) ≠ 0 ∧
          os.absolute p ∉ m.map Prod.fst := by
  intro ps
  induction ps with
  | nil => intro m lib hl; simp [load_each] at hl
  | cons p ps ih =>
    intro m lib hl
    rw [load_each] at hl
    rcases loadPlugin_cases os m p with ⟨hc, h⟩ | ⟨hc, h⟩
    · rw [h] at hl
      obtain ⟨q, hq, h1, h2, h3⟩ := ih m lib hl
      exact ⟨q, List.mem_cons_of_mem _ hq, h1, h2, h3⟩
    · rw [h] at hl
      have hcan : ¬ (is_loaded m (os.absolute p) = true) ∧ os.dlopen (os.absolute p) ≠ 0 := by
        unfold can_load at hc
        simpa using hc
      rcases List.mem_cons.mp hl with rfl | hl
      · refine ⟨p, List.mem_cons_self _ _, rfl, hcan.2, ?_⟩
        intro hk
        exact hcan.1 ((is_loaded_iff m _).mpr hk)
      · obtain ⟨q, hq, h1, h2, h3⟩ := ih _ lib hl
        refine ⟨q, List.mem_cons_of_mem _ hq, h1, h2, ?_⟩
        intro hk
        apply h3
        rw [List.map_append]
        exact List.mem_append_left _ hk

/-- C33 (discovery filter): for an existing directory whose iteration does not fail,
`discoverPlugins(dir, pattern)` attempts `loadPlugin` on exactly the regular files of the
directory whose filename, the part of the path after its last separator, contains
`pattern` as a substring, one after the other, returns the libraries of exactly the
attempts that succeeded, in order, and throws nothing for a file whose load fails. Every
library returned was opened by the operating system at the absolute path of a file
attempted, and a file whose absolute path is a key of the map at the start is skipped
and not returned. -/
theorem discovery_filter (os : OS) (m : List (List Char × PluginLibrary))
    (dir pattern : List Char) (he : os.file_exists dir = true)
    (hd : os.is_directory dir = true) (hi : os.iteration_fails dir = false) :
    (∀ p, p ∈ attempted_paths os dir pattern ↔
        ∃ e ∈ os.directory_iterator dir, e.path = p ∧ e.is_regular_file = true ∧
          ∃ name, is_filename_of name e.path ∧ ∃ pre post, name = pre ++ pattern ++ post) ∧
      discoverPlugins os m dir pattern =
        (Except.ok (load_each os (attempted_paths os dir pattern) m).1,
          (load_each os (attempted_paths os dir pattern) m).2) ∧
      (∀ lib ∈ (load_each os (attempted_paths os dir pattern) m).1,
        ∃ p ∈ attempted_paths os dir pattern,
          lib = ⟨os.dlopen (os.absolute p), os.absolute p⟩ ∧
            os.dlopen (os.absolute p) ≠ 0) ∧
      (∀ p ∈ attempted_paths os dir pattern, os.absolute p ∈ m.map Prod.fst →
        ∀ lib ∈ (load_each os (attempted_paths os dir pattern) m).1,
          lib.library_path_ ≠ os.absolute p) := by
  have hmain : discoverPlugins os m dir pattern =
      (Except.ok (load_each os (attempted_paths os dir pattern) m).1,
        (load_each os (attempted_paths os dir pattern) m).2) := by
    unfold discoverPlugins attempted_paths
    rw [he, hd, hi, discover_loop_spec]
    simp
  refine ⟨?_, hmain, ?_, ?_⟩
  · intro p
    unfold attempted_paths
    simp only [List.mem_map, List.mem_filter, passes_filter, Bool.and_eq_true, string_find_iff]
    constructor
    · rintro ⟨e, ⟨hmem, hreg, hsub⟩, rfl⟩
      exact ⟨e, hmem, rfl, hreg, filename e.path, filename_spec e.path, hsub⟩
    · rintro ⟨e, hmem, rfl, hreg, name, hname, hsub⟩
      rw [filename_unique name e.path hname] at hsub
      exact ⟨e, ⟨hmem, hreg, hsub⟩, rfl⟩
  · intro lib hl
    obtain ⟨p, hp, h1, h2, _⟩ := load_each_sound os _ m lib hl
    exact ⟨p, hp, h1, h2⟩
  · intro p _ hkey lib hl e
    obtain ⟨q, _, h1, _, h3⟩ := load_each_sound os _ m lib hl
    apply h3
    rw [h1] at e
    simp only at e
    rw [e]
    exact hkey

/-- Witness of C33: the discovery of `.so` in the directory `lib.so.d` of `dotted_os`
attempts `math.so` and `broken.so` and returns the library of `math.so`; the text file
`lib.so.d/readme.txt` is not attempted, although its path contains `.so`. -/
theorem discovery_filter_witness :
    (dotted_os.file_exists "lib.so.d".toList = true ∧
        dotted_os.is_directory "lib.so.d".toList = true ∧
        dotted_os.iteration_fails "lib.so.d".toList = false) ∧
      attempted_paths dotted_os "lib.so.d".toList ".so".toList =
        ["lib.so.d/math.so".toList, "lib.so.d/broken.so".toList] ∧
      discoverPlugins dotted_os [] "lib.so.d".toList ".so".toList =
        (Except.ok [⟨7, "/app/lib.so.d/math.so".toList⟩],
          [("/app/lib.so.d/math.so".toList, ⟨7, "/app/lib.so.d/math.so".toList⟩)]) ∧
      discoverPlugins dotted_os [] "lib.so.d".toList ".so".toList =
        (Except.ok
            (load_each dotted_os (attempted_paths dotted_os "lib.so.d".toList ".so".toList)
              []).1,
          (load_each dotted_os (attempted_paths dotted_os "lib.so.d".toList ".so".toList)
            []).2) :=
  ⟨⟨by decide, by decide, by decide⟩, by decide, by decide,
    (discovery_filter dotted_os [] "lib.so.d".toList ".so".toList (by decide) (by decide)
      (by decide)).2.1⟩

end plugin_manager
